import Mathlib

/-!
# mcacheZero: an LRU/TTL cache with write-through and write-back callbacks

A shallow embedding of `mcachezero.go` and a verification of its specification.

Modelling conventions.

* Pointers. A `*list.Element` is an address, a natural number indexing the
  heap `Cache.heap` of the items ever allocated by `addItem`; every element
  owns exactly one `*item`, so one address stands for both. The Go map
  `items` is an association list from keys to addresses and the
  `container/list` list `evict` is the list of addresses from front to back.
  An element removed from the list stays in the heap (a stale pointer can
  still be read, as in Go).
* Time. A reading of `time.Now()` is a number of nanoseconds since the epoch
  and `time.Duration` is a number of nanoseconds. `Set`, `Get` and `Delete`
  read the clock several times during one call: `SetAt`, `GetAt` and
  `DeleteAt` take one reading for each call of `time.Now()` (a `Clock`), with
  no assumption on how the readings are ordered; `Set`, `Get` and `Delete`
  are the calls during which all readings are the same instant `now`.
* Callbacks. `readFunc` is a function from keys to a value or an error.
  `writeFunc` and `deleteFunc` run in goroutines outside the lock: the state
  only records whether they are non-nil, and every operation returns the list
  of callback invocations it makes or schedules (`Event`), in program order.
  The counter `writeWaitingCount` and the busy wait `writeWaiting` belong to
  the concurrent part and leave the store untouched; they are not modelled.
* Results. Every operation returns an `Option`: `none` stands for a run that
  does not return (an eviction loop that makes no progress, which the fuel of
  the loop detects) or for a dereference of an address that was never
  allocated (not a state a Go program can be in).
-/

namespace mcacheZero

/-- The constant `writeAlways`. -/
def writeAlways : Int := 0

/-- The constant `writeEvict`. -/
def writeEvict : Int := 1

/-- The struct `item`. -/
structure item (V : Type) where
  key : String
  value : V
  expire : Int
  dirty : Bool
deriving DecidableEq, Repr

/-- A callback invocation made (`read`, synchronously) or scheduled in a
goroutine (`write`, `delete`) by an operation. -/
inductive Event (V : Type) where
  | read (key : String)
  | write (key : String) (value : V)
  | delete (key : String)
deriving DecidableEq, Repr

/-- The errors `Get` can return: the value built by
`errors.New("Not found error.")`, or the error of the read callback. -/
inductive GetError (E : Type) where
  | notFound
  | readFailed (err : E)
deriving DecidableEq, Repr

/-- The struct `Cache` (without the mutex and the pending counter), together
with the heap of allocated list elements. -/
structure Cache (V E : Type) where
  items : List (String × Nat)
  size : Int
  writeFunc : Bool
  readFunc : Option (String → Except E V)
  deleteFunc : Bool
  writeMode : Int
  expire : Int
  evict : List Nat
  heap : List (item V)

/-- The method `Time.Unix`: whole seconds since the epoch, of a time in nanoseconds. -/
def Unix (t : Int) : Int := t / 1000000000

namespace list

/-- The method `List.PushFront` of `container/list`. -/
def PushFront (l : List Nat) (e : Nat) : List Nat := e :: l

/-- The method `List.MoveToFront`: nothing happens when `e` is not an element of `l`. -/
def MoveToFront (l : List Nat) (e : Nat) : List Nat :=
  if e ∈ l then e :: l.erase e else l

/-- The method `List.Remove`: nothing happens when `e` is not an element of `l`. -/
def Remove (l : List Nat) (e : Nat) : List Nat := l.erase e

/-- The method `List.Back`. -/
def Back (l : List Nat) : Option Nat := l.getLast?

end list

/-- The map read `m[k]`. -/
def mapGet (m : List (String × Nat)) (k : String) : Option Nat :=
  match m with
  | [] => none
  | p :: m => if p.1 = k then some p.2 else mapGet m k

/-- The builtin `delete(m, k)`. -/
def mapDelete (m : List (String × Nat)) (k : String) : List (String × Nat) :=
  m.filter (fun p => p.1 ≠ k)

/-- The map write `m[k] = a`. -/
def mapSet (m : List (String × Nat)) (k : String) (a : Nat) : List (String × Nat) :=
  (k, a) :: mapDelete m k

variable {V E : Type}

/-- The function `New`. -/
def New (size : Int) : Cache V E :=
  { items := [], size := size, writeFunc := false, readFunc := none, deleteFunc := false,
    writeMode := writeAlways, expire := 0, evict := [], heap := [] }

namespace Cache

/-- The item behind the pointer `a`. -/
def deref (c : Cache V E) (a : Nat) : Option (item V) := c.heap[a]?

/-- The method `remove`. -/
def remove (c : Cache V E) (key : String) : Option (Cache V E × List (Event V)) :=
  match mapGet c.items key with
  | none => some (c, [])
  | some data =>
    match c.deref data with
    | none => none
    | some it =>
      let deletekey := it.key
      let deletevalue := it.value
      let dirty := it.dirty
      let c1 := { c with evict := list.Remove c.evict data, items := mapDelete c.items deletekey }
      if c.writeMode = writeEvict ∧ c.writeFunc = true ∧ dirty = true then
        some (c1, [Event.write deletekey deletevalue])
      else some (c1, [])

/-- The first loop of `evictAct`: remove the back item while it is expired. -/
def evictExpired : Nat → Cache V E → Int → Option (Cache V E × List (Event V))
  | 0, _, _ => none
  | fuel + 1, c, nowTime =>
    match list.Back c.evict with
    | none => some (c, [])
    | some deletedata =>
      match c.deref deletedata with
      | none => none
      | some it =>
        if nowTime ≥ it.expire then
          match c.remove it.key with
          | none => none
          | some (c1, e1) =>
            match evictExpired fuel c1 nowTime with
            | none => none
            | some (c2, e2) => some (c2, e1 ++ e2)
        else some (c, [])

/-- The second loop of `evictAct`: remove the back item while the map is larger than `size`. -/
def evictOver : Nat → Cache V E → Option (Cache V E × List (Event V))
  | 0, _ => none
  | fuel + 1, c =>
    if (c.items.length : Int) > c.size then
      match list.Back c.evict with
      | none => some (c, [])
      | some deletedata =>
        match c.deref deletedata with
        | none => none
        | some it =>
          match c.remove it.key with
          | none => none
          | some (c1, e1) =>
            match evictOver fuel c1 with
            | none => none
            | some (c2, e2) => some (c2, e1 ++ e2)
    else some (c, [])

/-- A bound on the iterations of an eviction loop that returns: an iteration
that leaves both the map and the list as they are is repeated forever, and
every other iteration makes one of them shorter. -/
def loopFuel (c : Cache V E) : Nat := c.evict.length + c.items.length + 1

/-- The method `evictAct`. -/
def evictAct (c : Cache V E) (now : Int) : Option (Cache V E × List (Event V)) :=
  match (if c.expire ≠ 0 then evictExpired c.loopFuel c (Unix now) else some (c, [])) with
  | none => none
  | some (c1, e1) =>
    match (if c1.size ≠ 0 then evictOver c1.loopFuel c1 else some (c1, [])) with
    | none => none
    | some (c2, e2) => some (c2, e1 ++ e2)

/-- The method `addItem`, when the clock reads `now` at both of its readings; `addItemAt`
is the general form. -/
def addItem (c : Cache V E) (key : String) (value : V) (dirty : Bool) (now : Int) :
    Option (Cache V E × List (Event V)) :=
  let expireT : Int := if c.expire ≠ 0 then Unix (now + c.expire) else 0
  let newdata : item V := { key := key, value := value, expire := expireT, dirty := dirty }
  let newitem := c.heap.length
  let c1 := { c with heap := c.heap ++ [newdata], evict := list.PushFront c.evict newitem,
                     items := mapSet c.items key newitem }
  c1.evictAct now

/-- The method `Set`, for a call during which the clock reads `now` at every call of
`time.Now()`; `SetAt` is the general form, with one reading per call. -/
def Set (c : Cache V E) (key : String) (value : V) (now : Int) :
    Option (Cache V E × List (Event V)) :=
  match c.evictAct now with
  | none => none
  | some (c1, e1) =>
    let body : Option (Cache V E × List (Event V)) :=
      match mapGet c1.items key with
      | some data =>
        match c1.deref data with
        | none => none
        | some it =>
          let it1 : item V := { it with value := value, dirty := true }
          let it2 : item V :=
            if c1.expire ≠ 0 then { it1 with expire := Unix (now + c1.expire) } else it1
          some ({ c1 with heap := c1.heap.set data it2,
                          evict := list.MoveToFront c1.evict data }, [])
      | none => c1.addItem key value true now
    match body with
    | none => none
    | some (c2, e2) =>
      let e3 := if c2.writeMode = writeAlways ∧ c2.writeFunc = true then [Event.write key value] else []
      match c2.evictAct now with
      | none => none
      | some (c3, e4) => some (c3, e1 ++ e2 ++ e3 ++ e4)

/-- The method `Get`, for a call during which the clock reads `now` at every call of
`time.Now()`; `GetAt` is the general form, with one reading per call. The returned value
is computed before the deferred `evictAct` runs. -/
def Get (c : Cache V E) (key : String) (now : Int) :
    Option (Except (GetError E) V × Cache V E × List (Event V)) :=
  match c.evictAct now with
  | none => none
  | some (c1, e1) =>
    let body : Option (Except (GetError E) V × Cache V E × List (Event V)) :=
      match mapGet c1.items key with
      | some data =>
        match c1.deref data with
        | none => none
        | some it =>
          let it1 : item V :=
            if c1.expire ≠ 0 then { it with expire := Unix (now + c1.expire) } else it
          some (Except.ok it1.value,
                { c1 with heap := c1.heap.set data it1,
                          evict := list.MoveToFront c1.evict data }, [])
      | none =>
        match c1.readFunc with
        | some fn =>
          match fn key with
          | Except.error err => some (Except.error (GetError.readFailed err), c1, [Event.read key])
          | Except.ok readData =>
            match c1.addItem key readData false now with
            | none => none
            | some (c2, e2) => some (Except.ok readData, c2, Event.read key :: e2)
        | none => some (Except.error GetError.notFound, c1, [])
    match body with
    | none => none
    | some (r, c2, e2) =>
      match c2.evictAct now with
      | none => none
      | some (c3, e3) => some (r, c3, e1 ++ e2 ++ e3)

/-- The method `Delete`, for a call during which the clock reads `now` at every call of
`time.Now()`; `DeleteAt` is the general form, with one reading per call. -/
def Delete (c : Cache V E) (key : String) (now : Int) : Option (Cache V E × List (Event V)) :=
  match c.evictAct now with
  | none => none
  | some (c1, e1) =>
    let c2 : Cache V E :=
      match mapGet c1.items key with
      | some data => { c1 with evict := list.Remove c1.evict data, items := mapDelete c1.items key }
      | none => c1
    let e2 := if c2.deleteFunc = true then [Event.delete key] else []
    match c2.evictAct now with
    | none => none
    | some (c3, e3) => some (c3, e1 ++ e2 ++ e3)

/-- The method `Purge`. -/
def Purge (c : Cache V E) : Cache V E := { c with items := [], evict := [] }

/-- The method `SetWriteFunc`; `fn` tells whether the function is non-nil. -/
def SetWriteFunc (c : Cache V E) (fn : Bool) : Cache V E := { c with writeFunc := fn }

/-- The method `SetReadFunc`. -/
def SetReadFunc (c : Cache V E) (fn : Option (String → Except E V)) : Cache V E :=
  { c with readFunc := fn }

/-- The method `SetDeleteFunc`; `fn` tells whether the function is non-nil. -/
def SetDeleteFunc (c : Cache V E) (fn : Bool) : Cache V E := { c with deleteFunc := fn }

/-- The method `SetExpireDuration`. -/
def SetExpireDuration (c : Cache V E) (expire : Int) : Cache V E := { c with expire := expire }

/-- The method `keys`; the order of a Go map iteration is not specified, the model
takes the order of the association list. -/
def keys (c : Cache V E) : List String := c.items.map Prod.fst

/-- The method `Keys`. -/
def Keys (c : Cache V E) : List String := c.keys

/-- The method `Remove`. -/
def Remove (c : Cache V E) (key : String) : Option (Cache V E × List (Event V)) := c.remove key

/-- The method `SetWriteAlways`. -/
def SetWriteAlways (c : Cache V E) : Cache V E := { c with writeMode := writeAlways }

/-- The method `SetWriteEvict`. -/
def SetWriteEvict (c : Cache V E) : Cache V E := { c with writeMode := writeEvict }

/-- The method `EvictAct`. -/
def EvictAct (c : Cache V E) (now : Int) : Option (Cache V E × List (Event V)) := c.evictAct now

/-- The method `Len`. -/
def Len (c : Cache V E) : Nat := c.items.length

/-- The loop of `flush` over the keys `allkeys`. -/
def removeAll : List String → Cache V E → Option (Cache V E × List (Event V))
  | [], c => some (c, [])
  | key :: allkeys, c =>
    match c.remove key with
    | none => none
    | some (c1, e1) =>
      match removeAll allkeys c1 with
      | none => none
      | some (c2, e2) => some (c2, e1 ++ e2)

/-- The method `flush`. -/
def flush (c : Cache V E) : Option (Cache V E × List (Event V)) := removeAll c.keys c

/-- The method `Flush`. -/
def Flush (c : Cache V E) : Option (Cache V E × List (Event V)) := c.flush

/-- The loop of `sync` over the keys `allkeys`. -/
def syncAll : List String → Cache V E → Option (Cache V E × List (Event V))
  | [], c => some (c, [])
  | key :: allkeys, c =>
    match mapGet c.items key with
    | some data =>
      match c.deref data with
      | none => none
      | some it =>
        let value := it.value
        let dirty := it.dirty
        let c1 := { c with heap := c.heap.set data { it with dirty := false } }
        let e1 := if dirty = true then [Event.write key value] else []
        match syncAll allkeys c1 with
        | none => none
        | some (c2, e2) => some (c2, e1 ++ e2)
    | none => syncAll allkeys c

/-- The method `sync`. -/
def sync (c : Cache V E) : Option (Cache V E × List (Event V)) :=
  if c.writeFunc = false then some (c, []) else syncAll c.keys c

/-- The method `Sync`. -/
def Sync (c : Cache V E) : Option (Cache V E × List (Event V)) := c.sync

end Cache

/-- Consistency of the map and the list (invariant I1): the map has each key once,
the list has each element once, every map entry points to an element of the list
whose item carries the key of the entry, and every element of the list is pointed
to by a map entry. -/
def Inv (c : Cache V E) : Prop :=
  (c.items.map Prod.fst).Nodup ∧ c.evict.Nodup ∧
  (∀ p ∈ c.items, p.2 ∈ c.evict ∧ (c.deref p.2).map item.key = some p.1) ∧
  (∀ a ∈ c.evict, a ∈ c.items.map Prod.snd)

instance (c : Cache V E) : Decidable (Inv c) := by
  unfold Inv; infer_instance

/-- The items of the recency list, from front (most recently touched) to back. -/
def view (c : Cache V E) : List (item V) := c.evict.filterMap c.deref

/-- The keys of the recency list, from front to back. -/
def order (c : Cache V E) : List String := (view c).map item.key

/-- The cache restricted to the first `n` elements of the recency list and to the
map entries that point to them. -/
def keep (c : Cache V E) (n : Nat) : Cache V E :=
  { c with evict := c.evict.take n,
           items := c.items.filter (fun p => decide (p.2 ∈ c.evict.take n)) }

/-- Whether the element at address `a` is expired at the time `nowTime` (in seconds). -/
def expiredAt (c : Cache V E) (nowTime : Int) (a : Nat) : Bool :=
  match c.deref a with
  | some it => decide (nowTime ≥ it.expire)
  | none => false

/-- The write that `remove` schedules when it removes the element at address `a`. -/
def writeOf (c : Cache V E) (a : Nat) : List (Event V) :=
  match c.deref a with
  | some it =>
    if c.writeMode = writeEvict ∧ c.writeFunc = true ∧ it.dirty = true then
      [Event.write it.key it.value]
    else []
  | none => []

/-- The writes scheduled when all elements after the first `n` are removed, back first. -/
def evictEvents (c : Cache V E) (n : Nat) : List (Event V) :=
  (c.evict.drop n).reverse.flatMap (writeOf c)

/-- The number of elements that the first loop of `evictAct` leaves in the list. -/
def ttlKeep (c : Cache V E) (now : Int) : Nat :=
  if c.expire ≠ 0 then (c.evict.rdropWhile (expiredAt c (Unix now))).length else c.evict.length

/-- The number of elements that `evictAct` leaves in the list. -/
def evictKeep (c : Cache V E) (now : Int) : Nat :=
  if c.size ≠ 0 then min (ttlKeep c now) c.size.toNat else ttlKeep c now

/-- The cache after a new element carrying `newdata` is pushed at the front of the
list and entered in the map (the body of `addItem` before its eviction pass). -/
def push (c : Cache V E) (newdata : item V) : Cache V E :=
  { c with heap := c.heap ++ [newdata], evict := list.PushFront c.evict c.heap.length,
           items := mapSet c.items newdata.key c.heap.length }

/-- The cache after the item behind `a` is overwritten by `it` and its element is
moved to the front of the list. -/
def touch (c : Cache V E) (a : Nat) (it : item V) : Cache V E :=
  { c with heap := c.heap.set a it, evict := list.MoveToFront c.evict a }

/-- The cache after the element `a` is removed from the list and the key `k` is
deleted from the map. -/
def unlink (c : Cache V E) (k : String) (a : Nat) : Cache V E :=
  { c with evict := list.Remove c.evict a, items := mapDelete c.items k }

/-- The cache after the item behind `a` is overwritten by `it`. -/
def store (c : Cache V E) (a : Nat) (it : item V) : Cache V E :=
  { c with heap := c.heap.set a it }

/-- The item stored under the key `K`, if there is one, is not dirty. -/
def Clean (K : String) (c : Cache V E) : Prop :=
  ∀ a it, mapGet c.items K = some a → c.deref a = some it → it.dirty = false

/-- The store is within the capacity. -/
def Within (c : Cache V E) : Prop := 0 < c.size → (c.items.length : Int) ≤ c.size

/-- What every operation guarantees: consistency, the same capacity and, under the
side condition `P`, no write for a clean key, which stays clean. -/
def Good (P : Prop) (K : String) (c c' : Cache V E) (evs : List (Event V)) : Prop :=
  Inv c' ∧ c'.size = c.size ∧ (P → Clean K c → Clean K c' ∧ ∀ v, Event.write K v ∉ evs)

/-- The regime without expiry in which the store is within its capacity: the map and
the list are consistent, the TTL is 0, and the capacity is 0 (unbounded) or at least 1
and not exceeded. -/
def Steady (c : Cache V E) : Prop :=
  Inv c ∧ c.expire = 0 ∧ (c.size = 0 ∨ (1 ≤ c.size ∧ (c.items.length : Int) ≤ c.size))

/-- The number of elements the list may hold after a push: the capacity, or one more than
the list holds when the capacity is 0. -/
def room (c : Cache V E) : Nat := if c.size ≠ 0 then c.size.toNat else c.evict.length + 1

/-- The item stored under the key `K`, if there is one, has the value `v`. -/
def Stored (K : String) (v : V) (c : Cache V E) : Prop :=
  ∀ a it, mapGet c.items K = some a → c.deref a = some it → it.value = v

/-- A call of a public method. -/
inductive Op (V E : Type) where
  | Set (key : String) (value : V)
  | Get (key : String)
  | Delete (key : String)
  | Remove (key : String)
  | Purge
  | Flush
  | Sync
  | EvictAct
  | SetWriteFunc (fn : Bool)
  | SetReadFunc (fn : Option (String → Except E V))
  | SetDeleteFunc (fn : Bool)
  | SetExpireDuration (expire : Int)
  | SetWriteAlways
  | SetWriteEvict
  | Keys
  | Len
  | WriteWaiting

/-- The cache and the callback invocations after the call `op` made at the time `now`. -/
def step (c : Cache V E) (op : Op V E) (now : Int) : Option (Cache V E × List (Event V)) :=
  match op with
  | Op.Set key value => c.Set key value now
  | Op.Get key =>
    match c.Get key now with
    | none => none
    | some (_, c1, e1) => some (c1, e1)
  | Op.Delete key => c.Delete key now
  | Op.Remove key => c.Remove key
  | Op.Purge => some (c.Purge, [])
  | Op.Flush => c.Flush
  | Op.Sync => c.Sync
  | Op.EvictAct => c.EvictAct now
  | Op.SetWriteFunc fn => some (c.SetWriteFunc fn, [])
  | Op.SetReadFunc fn => some (c.SetReadFunc fn, [])
  | Op.SetDeleteFunc fn => some (c.SetDeleteFunc fn, [])
  | Op.SetExpireDuration expire => some (c.SetExpireDuration expire, [])
  | Op.SetWriteAlways => some (c.SetWriteAlways, [])
  | Op.SetWriteEvict => some (c.SetWriteEvict, [])
  | Op.Keys => some (c, [])
  | Op.Len => some (c, [])
  | Op.WriteWaiting => some (c, [])

/-- The cache and the callback invocations after a sequence of calls, each made at its own time. -/
def run (c : Cache V E) : List (Op V E × Int) → Option (Cache V E × List (Event V))
  | [] => some (c, [])
  | (op, now) :: ops =>
    match step c op now with
    | none => none
    | some (c1, e1) =>
      match run c1 ops with
      | none => none
      | some (c2, e2) => some (c2, e1 ++ e2)

/-- The calls `Set(k, v)` made at the time `now`, for the triples `(k, v, now)` of a list. -/
def setCalls (kvs : List (String × V × Int)) : List (Op V E × Int) :=
  kvs.map (fun x => (Op.Set x.1 x.2.1, x.2.2))

/-- Whether an event is an invocation of the read callback. -/
def Event.isRead : Event V → Bool
  | Event.read _ => true
  | _ => false

/-- Whether an event is a scheduled invocation of the write callback. -/
def Event.isWrite : Event V → Bool
  | Event.write _ _ => true
  | _ => false

/-- Whether an event is a scheduled invocation of the write callback for the key `K`. -/
def Event.isWriteFor (K : String) : Event V → Bool
  | Event.write k _ => decide (k = K)
  | _ => false

/-- An example state: capacity 2, TTL 0, write-on-evict with a write callback, holding
the clean item `("b", 20)` in front of the dirty item `("a", 10)`. -/
def sampleCache : Cache Nat String :=
  { items := [("b", 1), ("a", 0)], size := 2, writeFunc := true, readFunc := none,
    deleteFunc := false, writeMode := writeEvict, expire := 0, evict := [1, 0],
    heap := [⟨"a", 10, 0, true⟩, ⟨"b", 20, 0, false⟩] }

/-- The state reached from `New(0)` by `SetExpireDuration(1s)` and `Set("a", 1)` at
time 0: the item `"a"` expires at second 1. -/
def expiringCache : Cache Nat String :=
  { items := [("a", 0)], size := 0, writeFunc := false, readFunc := none,
    deleteFunc := false, writeMode := writeAlways, expire := 1000000000, evict := [0],
    heap := [⟨"a", 1, 1, true⟩] }

/-- An example state: the empty cache of capacity 2 in write-on-evict mode, with a
write callback and a read callback that returns 7 for every key. -/
def backedCache : Cache Nat String :=
  { items := [], size := 2, writeFunc := true, readFunc := some (fun _ => Except.ok 7),
    deleteFunc := false, writeMode := writeEvict, expire := 0, evict := [], heap := [] }

/-- The state of `backedCache` after `Get("k")` has read `"k"` through the callback. -/
def backedCacheRead : Cache Nat String :=
  { items := [("k", 0)], size := 2, writeFunc := true, readFunc := some (fun _ => Except.ok 7),
    deleteFunc := false, writeMode := writeEvict, expire := 0, evict := [0],
    heap := [⟨"k", 7, 0, false⟩] }

/-- Whether an event is a scheduled invocation of the delete callback. -/
def Event.isDelete : Event V → Bool
  | Event.delete _ => true
  | _ => false

/-- The two caches have the same configuration: capacity, TTL, write mode and callbacks. -/
def SameConfig (c c' : Cache V E) : Prop :=
  c'.size = c.size ∧ c'.expire = c.expire ∧ c'.writeMode = c.writeMode ∧
    c'.writeFunc = c.writeFunc ∧ c'.deleteFunc = c.deleteFunc ∧ c'.readFunc = c.readFunc

/-- The second loop of `evictAct` has nothing to remove: the capacity is 0, or the map
holds at most as many entries as the capacity allows (none when it is negative). -/
def Fits (c : Cache V E) : Prop := c.size ≠ 0 → c.items.length ≤ c.size.toNat

/-- The state reached from `New(0)` by `SetWriteFunc`, `SetWriteEvict`,
`SetExpireDuration(1s)` and `Set("a", 1)` at time 0: write-on-evict mode with a write
callback, and the dirty item `"a"` expires at second 1. -/
def writeBackCache : Cache Nat String :=
  { items := [("a", 0)], size := 0, writeFunc := true, readFunc := none,
    deleteFunc := false, writeMode := writeEvict, expire := 1000000000, evict := [0],
    heap := [⟨"a", 1, 1, true⟩] }

/-- The write that `remove(k)` schedules. -/
def writeFor (c : Cache V E) (k : String) : List (Event V) :=
  match mapGet c.items k with
  | some a => writeOf c a
  | none => []

/-- The write that `sync` schedules for the key `k`. -/
def syncWrite (c : Cache V E) (k : String) : List (Event V) :=
  match mapGet c.items k with
  | some a =>
    match c.deref a with
    | some it => if it.dirty = true then [Event.write k it.value] else []
    | none => []
  | none => []

/-- The write of an item when it is removed in the write mode `mode`, with (`fn`) or
without a write callback. -/
def item.evictWrite (mode : Int) (fn : Bool) (it : item V) : List (Event V) :=
  if mode = writeEvict ∧ fn = true ∧ it.dirty = true then [Event.write it.key it.value] else []

/-- The write of an item when it is synced. -/
def item.syncWrite (it : item V) : List (Event V) :=
  if it.dirty = true then [Event.write it.key it.value] else []

/-- The item with its dirty flag cleared. -/
def item.clean (it : item V) : item V := { it with dirty := false }

/-- Whether a public method runs the eviction pass: `Set`, `Get`, `Delete` and `EvictAct`
call `evictAct`, the other methods do not. -/
def Op.evicts : Op V E → Bool
  | Op.Set _ _ => true
  | Op.Get _ => true
  | Op.Delete _ => true
  | Op.EvictAct => true
  | _ => false

/-- The element at the front of the list is the one the map holds for `K`, and it carries
the item `it`. -/
def Front (K : String) (it : item V) (c : Cache V E) : Prop :=
  ∃ a l, c.evict = a :: l ∧ mapGet c.items K = some a ∧ c.deref a = some it

/-- The readings of `time.Now()` during one call of `Set`, `Get` or `Delete`, in program
order: `entry` is read by the eviction pass at entry, `stamp` when the deadline of the
touched or added item is computed, `added` by the eviction pass at the end of `addItem`,
and `last` by the deferred eviction pass. -/
structure Clock where
  entry : Int
  stamp : Int
  added : Int
  last : Int
deriving DecidableEq, Repr

/-- The clock of a call during which every reading is the instant `now`. -/
def Clock.same (now : Int) : Clock := { entry := now, stamp := now, added := now, last := now }

/-- The method `addItem`, with the reading `stamp` for the deadline and the reading
`added` for its eviction pass. -/
def Cache.addItemAt (c : Cache V E) (key : String) (value : V) (dirty : Bool)
    (stamp added : Int) : Option (Cache V E × List (Event V)) :=
  let expireT : Int := if c.expire ≠ 0 then Unix (stamp + c.expire) else 0
  let newdata : item V := { key := key, value := value, expire := expireT, dirty := dirty }
  let newitem := c.heap.length
  let c1 := { c with heap := c.heap ++ [newdata], evict := list.PushFront c.evict newitem,
                     items := mapSet c.items key newitem }
  c1.evictAct added

/-- The method `Set`, with one reading of the clock for each call of `time.Now()`. -/
def Cache.SetAt (c : Cache V E) (key : String) (value : V) (clk : Clock) :
    Option (Cache V E × List (Event V)) :=
  match c.evictAct clk.entry with
  | none => none
  | some (c1, e1) =>
    let body : Option (Cache V E × List (Event V)) :=
      match mapGet c1.items key with
      | some data =>
        match c1.deref data with
        | none => none
        | some it =>
          let it1 : item V := { it with value := value, dirty := true }
          let it2 : item V :=
            if c1.expire ≠ 0 then { it1 with expire := Unix (clk.stamp + c1.expire) } else it1
          some ({ c1 with heap := c1.heap.set data it2,
                          evict := list.MoveToFront c1.evict data }, [])
      | none => c1.addItemAt key value true clk.stamp clk.added
    match body with
    | none => none
    | some (c2, e2) =>
      let e3 := if c2.writeMode = writeAlways ∧ c2.writeFunc = true then [Event.write key value] else []
      match c2.evictAct clk.last with
      | none => none
      | some (c3, e4) => some (c3, e1 ++ e2 ++ e3 ++ e4)

/-- The method `Get`, with one reading of the clock for each call of `time.Now()`. The
read callback runs between the eviction pass at entry and the deferred one. -/
def Cache.GetAt (c : Cache V E) (key : String) (clk : Clock) :
    Option (Except (GetError E) V × Cache V E × List (Event V)) :=
  match c.evictAct clk.entry with
  | none => none
  | some (c1, e1) =>
    let body : Option (Except (GetError E) V × Cache V E × List (Event V)) :=
      match mapGet c1.items key with
      | some data =>
        match c1.deref data with
        | none => none
        | some it =>
          let it1 : item V :=
            if c1.expire ≠ 0 then { it with expire := Unix (clk.stamp + c1.expire) } else it
          some (Except.ok it1.value,
                { c1 with heap := c1.heap.set data it1,
                          evict := list.MoveToFront c1.evict data }, [])
      | none =>
        match c1.readFunc with
        | some fn =>
          match fn key with
          | Except.error err => some (Except.error (GetError.readFailed err), c1, [Event.read key])
          | Except.ok readData =>
            match c1.addItemAt key readData false clk.stamp clk.added with
            | none => none
            | some (c2, e2) => some (Except.ok readData, c2, Event.read key :: e2)
        | none => some (Except.error GetError.notFound, c1, [])
    match body with
    | none => none
    | some (r, c2, e2) =>
      match c2.evictAct clk.last with
      | none => none
      | some (c3, e3) => some (r, c3, e1 ++ e2 ++ e3)

/-- The method `Delete`, with one reading of the clock for each call of `time.Now()`. -/
def Cache.DeleteAt (c : Cache V E) (key : String) (clk : Clock) :
    Option (Cache V E × List (Event V)) :=
  match c.evictAct clk.entry with
  | none => none
  | some (c1, e1) =>
    let c2 : Cache V E :=
      match mapGet c1.items key with
      | some data => { c1 with evict := list.Remove c1.evict data, items := mapDelete c1.items key }
      | none => c1
    let e2 := if c2.deleteFunc = true then [Event.delete key] else []
    match c2.evictAct clk.last with
    | none => none
    | some (c3, e3) => some (c3, e1 ++ e2 ++ e3)

/-- The cache and the callback invocations after the call `op` whose readings of the clock
are `clk`; `EvictAct` reads the clock once, the methods after it not at all. -/
def stepAt (c : Cache V E) (op : Op V E) (clk : Clock) : Option (Cache V E × List (Event V)) :=
  match op with
  | Op.Set key value => c.SetAt key value clk
  | Op.Get key =>
    match c.GetAt key clk with
    | none => none
    | some (_, c1, e1) => some (c1, e1)
  | Op.Delete key => c.DeleteAt key clk
  | Op.EvictAct => c.EvictAct clk.entry
  | Op.Remove key => c.Remove key
  | Op.Purge => some (c.Purge, [])
  | Op.Flush => c.Flush
  | Op.Sync => c.Sync
  | Op.SetWriteFunc fn => some (c.SetWriteFunc fn, [])
  | Op.SetReadFunc fn => some (c.SetReadFunc fn, [])
  | Op.SetDeleteFunc fn => some (c.SetDeleteFunc fn, [])
  | Op.SetExpireDuration expire => some (c.SetExpireDuration expire, [])
  | Op.SetWriteAlways => some (c.SetWriteAlways, [])
  | Op.SetWriteEvict => some (c.SetWriteEvict, [])
  | Op.Keys => some (c, [])
  | Op.Len => some (c, [])
  | Op.WriteWaiting => some (c, [])

/-- Whether a public method empties the store whatever the deadlines are: `Flush` and
`Purge`. -/
def Op.empties : Op V E → Bool
  | Op.Flush => true
  | Op.Purge => true
  | _ => false

/-- Whether a public method neither runs the eviction pass nor removes an item: `Sync`,
`Keys`, `Len`, `WriteWaiting` and the setters. -/
def Op.keeps : Op V E → Bool
  | Op.Sync => true
  | Op.SetWriteFunc _ => true
  | Op.SetReadFunc _ => true
  | Op.SetDeleteFunc _ => true
  | Op.SetExpireDuration _ => true
  | Op.SetWriteAlways => true
  | Op.SetWriteEvict => true
  | Op.Keys => true
  | Op.Len => true
  | Op.WriteWaiting => true
  | _ => false

end mcacheZero


namespace mcacheZero

variable {V E : Type}

/-! ## The map -/

theorem mapGet_eq_none {m : List (String × Nat)} {k : String} :
    mapGet m k = none ↔ k ∉ m.map Prod.fst := by
  induction m with
  | nil => simp [mapGet]
  | cons p m ih =>
    by_cases h : p.1 = k
    · simp [mapGet, h]
    · simp only [mapGet, h, if_false, ih, List.map_cons, List.mem_cons, not_or]
      constructor
      · intro h2; exact ⟨fun e => h e.symm, h2⟩
      · intro h2; exact h2.2

theorem mapGet_mem {m : List (String × Nat)} {k : String} {a : Nat}
    (h : mapGet m k = some a) : (k, a) ∈ m := by
  induction m with
  | nil => simp [mapGet] at h
  | cons p m ih =>
    by_cases hp : p.1 = k
    · simp only [mapGet, hp, if_true, Option.some.injEq] at h
      have : p = (k, a) := by cases p; simp_all
      simp [this]
    · simp only [mapGet, hp, if_false] at h
      exact List.mem_cons_of_mem _ (ih h)

theorem mapGet_of_mem {m : List (String × Nat)} {k : String} {a : Nat}
    (hn : (m.map Prod.fst).Nodup) (h : (k, a) ∈ m) : mapGet m k = some a := by
  induction m with
  | nil => simp at h
  | cons p m ih =>
    simp only [List.map_cons, List.nodup_cons] at hn
    rcases List.mem_cons.1 h with h | h
    · subst h; simp [mapGet]
    · have hk : p.1 ≠ k := by
        intro e; apply hn.1; rw [e]; exact List.mem_map.2 ⟨(k, a), h, rfl⟩
      simp only [mapGet, hk, if_false]
      exact ih hn.2 h

theorem mem_mapDelete {m : List (String × Nat)} {k : String} {p : String × Nat} :
    p ∈ mapDelete m k ↔ p ∈ m ∧ p.1 ≠ k := by
  simp [mapDelete]

theorem mapDelete_keys_nodup {m : List (String × Nat)} (k : String)
    (hn : (m.map Prod.fst).Nodup) : ((mapDelete m k).map Prod.fst).Nodup :=
  hn.sublist ((List.filter_sublist m).map _)

theorem mapGet_mapDelete_self (m : List (String × Nat)) (k : String) :
    mapGet (mapDelete m k) k = none := by
  rw [mapGet_eq_none]; simp [mapDelete]

theorem mapDelete_cons (p : String × Nat) (m : List (String × Nat)) (k : String) :
    mapDelete (p :: m) k = if p.1 = k then mapDelete m k else p :: mapDelete m k := by
  by_cases hp : p.1 = k <;> simp [mapDelete, List.filter_cons, hp]

theorem mapGet_mapDelete_ne (m : List (String × Nat)) {k k' : String} (h : k' ≠ k) :
    mapGet (mapDelete m k) k' = mapGet m k' := by
  induction m with
  | nil => rfl
  | cons p m ih =>
    rw [mapDelete_cons]
    by_cases hp : p.1 = k
    · have hne : ¬ p.1 = k' := by rw [hp]; exact fun e => h e.symm
      rw [if_pos hp, ih, mapGet, if_neg hne]
    · rw [if_neg hp, mapGet, mapGet, ih]

theorem mapDelete_of_not_mem {m : List (String × Nat)} {k : String}
    (h : k ∉ m.map Prod.fst) : mapDelete m k = m := by
  rw [mapDelete, List.filter_eq_self]
  intro p hp
  simp only [ne_eq, decide_eq_true_eq]
  intro e; exact h (List.mem_map.2 ⟨p, hp, e⟩)

/-! ## Consistency of map and list -/

theorem Inv_New (size : Int) : Inv (New size : Cache V E) := by
  simp [Inv, New]

theorem Inv.mem_evict {c : Cache V E} (h : Inv c) {p : String × Nat} (hp : p ∈ c.items) :
    p.2 ∈ c.evict := (h.2.2.1 p hp).1

theorem Inv.deref_of_mem {c : Cache V E} (h : Inv c) {k : String} {a : Nat}
    (hp : (k, a) ∈ c.items) : ∃ it, c.deref a = some it ∧ it.key = k := by
  have := (h.2.2.1 (k, a) hp).2
  simp only [Option.map_eq_some'] at this
  exact this

theorem Inv.deref_of_mapGet {c : Cache V E} (h : Inv c) {k : String} {a : Nat}
    (hp : mapGet c.items k = some a) : ∃ it, c.deref a = some it ∧ it.key = k :=
  h.deref_of_mem (mapGet_mem hp)

theorem Inv.deref_of_mem_evict {c : Cache V E} (h : Inv c) {a : Nat} (ha : a ∈ c.evict) :
    ∃ it, c.deref a = some it ∧ mapGet c.items it.key = some a := by
  obtain ⟨p, hp, rfl⟩ := List.mem_map.1 (h.2.2.2 a ha)
  obtain ⟨it, hit, hk⟩ := h.deref_of_mem (k := p.1) (a := p.2) hp
  exact ⟨it, hit, by rw [hk]; exact mapGet_of_mem h.1 hp⟩

theorem Inv.key_inj {c : Cache V E} (h : Inv c) {p q : String × Nat}
    (hp : p ∈ c.items) (hq : q ∈ c.items) (e : p.2 = q.2) : p = q := by
  obtain ⟨it, hit, hk⟩ := h.deref_of_mem (k := p.1) (a := p.2) hp
  obtain ⟨it', hit', hk'⟩ := h.deref_of_mem (k := q.1) (a := q.2) hq
  rw [e, hit'] at hit
  cases hit
  cases p; cases q; simp_all

theorem Inv.snd_perm {c : Cache V E} (h : Inv c) : (c.items.map Prod.snd).Perm c.evict := by
  have hnd : (c.items.map Prod.snd).Nodup := by
    have hk : c.items.Nodup := List.Nodup.of_map _ h.1
    exact List.Nodup.map_on (fun p hp q hq e => h.key_inj hp hq e) hk
  rw [List.perm_ext_iff_of_nodup hnd h.2.1]
  intro a
  constructor
  · intro ha
    obtain ⟨p, hp, rfl⟩ := List.mem_map.1 ha
    exact h.mem_evict hp
  · exact h.2.2.2 a

theorem Inv.length_eq {c : Cache V E} (h : Inv c) : c.items.length = c.evict.length := by
  have := h.snd_perm.length_eq
  simpa using this

theorem Inv.mem_keys_iff {c : Cache V E} (h : Inv c) (k : String) :
    k ∈ c.keys ↔ k ∈ order c := by
  unfold Cache.keys order view
  simp only [List.mem_map, List.mem_filterMap]
  constructor
  · rintro ⟨p, hp, rfl⟩
    obtain ⟨it, hit, hk⟩ := h.deref_of_mem (k := p.1) (a := p.2) hp
    exact ⟨it, ⟨p.2, h.mem_evict hp, hit⟩, hk⟩
  · rintro ⟨it, ⟨a, ha, hit⟩, rfl⟩
    obtain ⟨it', hit', hm⟩ := h.deref_of_mem_evict ha
    rw [hit] at hit'; cases hit'
    exact ⟨(it.key, a), mapGet_mem hm, rfl⟩

end mcacheZero


namespace mcacheZero

variable {V E : Type}

/-! ## Dropping elements from the back of the list -/

theorem keep_keep (c : Cache V E) (m n : Nat) : keep (keep c n) m = keep c (min m n) := by
  unfold keep
  simp only [List.take_take, List.filter_filter]
  congr 1
  apply List.filter_congr
  intro p _
  by_cases h : p.2 ∈ List.take (min m n) c.evict
  · have h2 : p.2 ∈ List.take n c.evict := by
      rw [← List.take_take] at h; exact List.mem_of_mem_take h
    simp [h, h2]
  · simp [h]

theorem Inv_keep {c : Cache V E} (h : Inv c) (n : Nat) : Inv (keep c n) := by
  refine ⟨?_, ?_, ?_, ?_⟩
  · exact h.1.sublist ((List.filter_sublist _).map _)
  · exact h.2.1.sublist (List.take_sublist _ _)
  · intro p hp
    simp only [keep, List.mem_filter, decide_eq_true_eq] at hp
    exact ⟨hp.2, (h.2.2.1 p hp.1).2⟩
  · intro a ha
    have ha' : a ∈ c.evict := List.mem_of_mem_take ha
    obtain ⟨p, hp, rfl⟩ := List.mem_map.1 (h.2.2.2 a ha')
    refine List.mem_map.2 ⟨p, ?_, rfl⟩
    simp only [keep, List.mem_filter, decide_eq_true_eq]
    exact ⟨hp, ha⟩

theorem keep_of_le {c : Cache V E} (h : Inv c) {n : Nat} (hn : c.evict.length ≤ n) :
    keep c n = c := by
  have h1 : List.take n c.evict = c.evict := List.take_of_length_le hn
  have h2 : c.items.filter (fun p => decide (p.2 ∈ c.evict)) = c.items := by
    rw [List.filter_eq_self]
    intro p hp
    simpa using h.mem_evict hp
  unfold keep
  rw [h1, h2]

theorem keep_items_length {c : Cache V E} (h : Inv c) (n : Nat) :
    (keep c n).items.length = min n c.evict.length := by
  rw [(Inv_keep h n).length_eq]
  simp [keep, List.length_take]

theorem remove_absent {c : Cache V E} {k : String} (h : mapGet c.items k = none) :
    c.remove k = some (c, []) := by
  simp [Cache.remove, h]

theorem remove_present {c : Cache V E} {k : String} {a : Nat} {it : item V}
    (h : mapGet c.items k = some a) (hd : c.deref a = some it) :
    c.remove k = some ({ c with evict := list.Remove c.evict a,
                                items := mapDelete c.items it.key }, writeOf c a) := by
  simp only [Cache.remove, h, hd, writeOf]
  split <;> rfl

theorem remove_back {c : Cache V E} (h : Inv c) {l : List Nat} {a : Nat} {it : item V}
    (hl : c.evict = l ++ [a]) (hd : c.deref a = some it) :
    c.remove it.key = some (keep c l.length, writeOf c a) := by
  have ha : a ∈ c.evict := by rw [hl]; simp
  obtain ⟨it', hit', hm⟩ := h.deref_of_mem_evict ha
  rw [hd] at hit'; cases hit'
  rw [remove_present hm hd]
  have hnd : (l ++ [a]).Nodup := hl ▸ h.2.1
  have hal : a ∉ l := by
    intro hx
    have := (List.nodup_append.1 hnd).2.2
    exact this hx (List.mem_singleton_self a)
  have e1 : list.Remove c.evict a = List.take l.length c.evict := by
    rw [hl, list.Remove, List.erase_append_right _ hal]
    simp
  have e2 : mapDelete c.items it.key
      = c.items.filter (fun p => decide (p.2 ∈ List.take l.length c.evict)) := by
    unfold mapDelete
    apply List.filter_congr
    intro p hp
    have htake : List.take l.length c.evict = l := by rw [hl]; simp
    rw [htake]
    have hpe : p.2 ∈ l ++ [a] := hl ▸ h.mem_evict hp
    by_cases hk : p.1 = it.key
    · have hp2 : mapGet c.items p.1 = some p.2 := mapGet_of_mem h.1 hp
      rw [hk, hm] at hp2
      cases hp2
      simp [hk, hal]
    · have : p.2 ≠ a := by
        intro e
        have := h.key_inj hp (mapGet_mem hm) e
        exact hk (by rw [this])
      have hpl : p.2 ∈ l := by
        rcases List.mem_append.1 hpe with hx | hx
        · exact hx
        · exact absurd (List.mem_singleton.1 hx) this
      simp [hk, hpl]
  unfold keep
  rw [e1, e2]

theorem evictEvents_snoc {c : Cache V E} {l : List Nat} {a : Nat} (hl : c.evict = l ++ [a])
    {n : Nat} (hn : n ≤ l.length) :
    evictEvents c n = writeOf c a ++ evictEvents (keep c l.length) n := by
  unfold evictEvents
  have hk : (keep c l.length).evict = l := by simp [keep, hl]
  rw [hk, hl, List.drop_append_of_le_length hn]
  simp only [List.reverse_append, List.reverse_cons, List.reverse_nil, List.nil_append,
    List.singleton_append, List.flatMap_cons]
  rfl

theorem evictEvents_of_le {c : Cache V E} {n : Nat} (hn : c.evict.length ≤ n) :
    evictEvents c n = [] := by
  unfold evictEvents
  rw [List.drop_of_length_le hn]
  rfl

theorem evictOver_eq (fuel : Nat) (c : Cache V E) (h : Inv c) (hf : c.evict.length < fuel) :
    Cache.evictOver fuel c = some (keep c c.size.toNat, evictEvents c c.size.toNat) := by
  induction fuel generalizing c with
  | zero => omega
  | succ fuel ih =>
    unfold Cache.evictOver
    by_cases hgt : (c.items.length : Int) > c.size
    · rw [if_pos hgt]
      cases hb : list.Back c.evict with
      | none =>
        have he : c.evict = [] := List.getLast?_eq_none_iff.1 hb
        simp only []
        rw [keep_of_le h (by rw [he]; simp), evictEvents_of_le (by rw [he]; simp)]
      | some a =>
        obtain ⟨l, hl⟩ := List.getLast?_eq_some_iff.1 hb
        have ha : a ∈ c.evict := by rw [hl]; simp
        obtain ⟨it, hit, _⟩ := h.deref_of_mem_evict ha
        have hlen : c.evict.length = l.length + 1 := by rw [hl]; simp
        have hk : (keep c l.length).evict = l := by simp [keep, hl]
        have hsz : c.size.toNat ≤ l.length := by
          have := h.length_eq
          omega
        simp only [hit, remove_back h hl hit]
        rw [ih (keep c l.length) (Inv_keep h _) (by rw [hk]; omega)]
        simp only []
        have : (keep c l.length).size = c.size := rfl
        rw [this, keep_keep, Nat.min_eq_left hsz, ← evictEvents_snoc hl hsz]
    · rw [if_neg hgt]
      have hle : c.evict.length ≤ c.size.toNat := by
        have := h.length_eq
        omega
      rw [keep_of_le h hle, evictEvents_of_le hle]

theorem evictExpired_eq (fuel : Nat) (c : Cache V E) (nowTime : Int) (h : Inv c)
    (hf : c.evict.length < fuel) :
    Cache.evictExpired fuel c nowTime
      = some (keep c (c.evict.rdropWhile (expiredAt c nowTime)).length,
              evictEvents c (c.evict.rdropWhile (expiredAt c nowTime)).length) := by
  induction fuel generalizing c with
  | zero => omega
  | succ fuel ih =>
    unfold Cache.evictExpired
    cases hb : list.Back c.evict with
    | none =>
      have he : c.evict = [] := List.getLast?_eq_none_iff.1 hb
      simp only []
      rw [keep_of_le h (by rw [he]; simp), evictEvents_of_le (by rw [he]; simp)]
    | some a =>
      obtain ⟨l, hl⟩ := List.getLast?_eq_some_iff.1 hb
      have ha : a ∈ c.evict := by rw [hl]; simp
      obtain ⟨it, hit, _⟩ := h.deref_of_mem_evict ha
      have hlen : c.evict.length = l.length + 1 := by rw [hl]; simp
      have hk : (keep c l.length).evict = l := by simp [keep, hl]
      simp only [hit]
      by_cases hex : nowTime ≥ it.expire
      · rw [if_pos hex]
        have hexp : expiredAt c nowTime a = true := by simp [expiredAt, hit, hex]
        have hrd : c.evict.rdropWhile (expiredAt c nowTime) = l.rdropWhile (expiredAt c nowTime) := by
          rw [hl, List.rdropWhile_concat_pos _ _ _ hexp]
        have hle : (l.rdropWhile (expiredAt c nowTime)).length ≤ l.length :=
          (List.rdropWhile_prefix _ _).length_le
        simp only [remove_back h hl hit]
        rw [ih (keep c l.length) (Inv_keep h _) (by rw [hk]; omega)]
        simp only []
        have e : expiredAt (keep c l.length) nowTime = expiredAt c nowTime := rfl
        rw [e, hk, keep_keep, hrd, Nat.min_eq_left hle, ← evictEvents_snoc hl hle]
      · rw [if_neg hex]
        have hexp : ¬ expiredAt c nowTime a = true := by simp [expiredAt, hit, hex]
        have hrd : c.evict.rdropWhile (expiredAt c nowTime) = c.evict := by
          rw [hl, List.rdropWhile_concat_neg _ _ _ hexp]
        rw [hrd, keep_of_le h le_rfl, evictEvents_of_le le_rfl]

end mcacheZero


namespace mcacheZero

variable {V E : Type}

/-! ## The eviction pass in closed form -/

theorem ttlKeep_le (c : Cache V E) (now : Int) : ttlKeep c now ≤ c.evict.length := by
  unfold ttlKeep
  split
  · exact (List.rdropWhile_prefix _ _).length_le
  · exact le_rfl

theorem evictKeep_le (c : Cache V E) (now : Int) : evictKeep c now ≤ c.evict.length := by
  unfold evictKeep
  have := ttlKeep_le c now
  split <;> omega

theorem evictEvents_split (c : Cache V E) {n1 : Nat} (n2 : Nat) (h1 : n1 ≤ c.evict.length) :
    evictEvents c n1 ++ evictEvents (keep c n1) n2 = evictEvents c (min n1 n2) := by
  unfold evictEvents
  have hw : writeOf (keep c n1) = writeOf c := rfl
  have hk : (keep c n1).evict = c.evict.take n1 := rfl
  rw [hw, hk]
  by_cases h : n2 ≤ n1
  · rw [Nat.min_eq_right h]
    have hlen : n2 ≤ (c.evict.take n1).length := by simp [List.length_take]; omega
    have : c.evict.drop n2 = (c.evict.take n1).drop n2 ++ c.evict.drop n1 := by
      conv_lhs => rw [← List.take_append_drop n1 c.evict]
      rw [List.drop_append_of_le_length hlen]
    rw [this, List.reverse_append, List.flatMap_append]
  · have h' : n1 ≤ n2 := by omega
    rw [Nat.min_eq_left h']
    have : (c.evict.take n1).drop n2 = [] := by
      apply List.drop_of_length_le
      simp [List.length_take]; omega
    rw [this]
    simp

theorem evictAct_eq {c : Cache V E} (h : Inv c) (now : Int) :
    c.evictAct now = some (keep c (evictKeep c now), evictEvents c (evictKeep c now)) := by
  have h1 : (if c.expire ≠ 0 then Cache.evictExpired c.loopFuel c (Unix now) else some (c, []))
      = some (keep c (ttlKeep c now), evictEvents c (ttlKeep c now)) := by
    unfold ttlKeep
    by_cases he : c.expire ≠ 0
    · rw [if_pos he, if_pos he]
      exact evictExpired_eq _ c _ h (by unfold Cache.loopFuel; omega)
    · rw [if_neg he, if_neg he, keep_of_le h le_rfl, evictEvents_of_le le_rfl]
  unfold Cache.evictAct
  rw [h1]
  simp only []
  have hs : (keep c (ttlKeep c now)).size = c.size := rfl
  unfold evictKeep
  by_cases hz : c.size ≠ 0
  · rw [hs, if_pos hz, if_pos hz]
    have hI := Inv_keep h (ttlKeep c now)
    rw [evictOver_eq _ _ hI (by unfold Cache.loopFuel; omega)]
    simp only []
    rw [hs, keep_keep, evictEvents_split c _ (ttlKeep_le c now), Nat.min_comm]
  · rw [hs, if_neg hz, if_neg hz]
    simp

theorem evictAct_noop {c : Cache V E} (h : Inv c) {now : Int}
    (hk : c.evict.length ≤ evictKeep c now) : c.evictAct now = some (c, []) := by
  rw [evictAct_eq h, keep_of_le h hk, evictEvents_of_le hk]

theorem evictKeep_of_noTTL {c : Cache V E} (he : c.expire = 0) (now : Int) :
    evictKeep c now = if c.size ≠ 0 then min c.evict.length c.size.toNat else c.evict.length := by
  unfold evictKeep ttlKeep
  simp [he]

/-! ## Pushing a new element, touching an element -/

theorem Inv.addr_lt {c : Cache V E} (h : Inv c) {a : Nat} (ha : a ∈ c.evict) :
    a < c.heap.length := by
  obtain ⟨it, hit, _⟩ := h.deref_of_mem_evict ha
  by_contra hc
  unfold Cache.deref at hit
  rw [List.getElem?_eq_none (by omega)] at hit
  cases hit

theorem deref_push_old (c : Cache V E) (newdata : item V) {a : Nat} (ha : a < c.heap.length) :
    (push c newdata).deref a = c.deref a := by
  simp [push, Cache.deref, List.getElem?_append, ha]

theorem deref_push_new (c : Cache V E) (newdata : item V) :
    (push c newdata).deref c.heap.length = some newdata := by
  simp [push, Cache.deref, List.getElem?_append]

theorem Inv_push {c : Cache V E} (h : Inv c) (newdata : item V)
    (hk : mapGet c.items newdata.key = none) : Inv (push c newdata) := by
  have hk' := mapGet_eq_none.1 hk
  have hmd : mapDelete c.items newdata.key = c.items := mapDelete_of_not_mem hk'
  have hfresh : c.heap.length ∉ c.evict := fun hx => absurd (h.addr_lt hx) (lt_irrefl _)
  refine ⟨?_, ?_, ?_, ?_⟩
  · simp only [push, mapSet, hmd, List.map_cons, List.nodup_cons]
    exact ⟨hk', h.1⟩
  · simp only [push, list.PushFront, List.nodup_cons]
    exact ⟨hfresh, h.2.1⟩
  · intro p hp
    simp only [push, mapSet, hmd, List.mem_cons] at hp
    rcases hp with rfl | hp
    · refine ⟨by simp [push, list.PushFront], ?_⟩
      rw [deref_push_new]; rfl
    · have hpe := h.mem_evict hp
      refine ⟨by simp [push, list.PushFront, hpe], ?_⟩
      rw [deref_push_old c newdata (h.addr_lt hpe)]
      exact (h.2.2.1 p hp).2
  · intro a ha
    simp only [push, list.PushFront, List.mem_cons] at ha
    simp only [push, mapSet, hmd, List.map_cons, List.mem_cons]
    rcases ha with rfl | ha
    · exact Or.inl rfl
    · exact Or.inr (h.2.2.2 a ha)

theorem view_push {c : Cache V E} (h : Inv c) (newdata : item V) :
    view (push c newdata) = newdata :: view c := by
  unfold view
  have e : (push c newdata).evict = c.heap.length :: c.evict := rfl
  rw [e, List.filterMap_cons, deref_push_new]
  simp only [List.cons.injEq, true_and]
  apply List.filterMap_congr
  intro a ha
  exact deref_push_old c newdata (h.addr_lt ha)

theorem deref_touch (c : Cache V E) {a : Nat} {it0 : item V} (hd : c.deref a = some it0)
    (b : Nat) (it : item V) :
    (touch c a it).deref b = if b = a then some it else c.deref b := by
  have hlt : a < c.heap.length := by
    by_contra hc
    unfold Cache.deref at hd
    rw [List.getElem?_eq_none (by omega)] at hd
    cases hd
  simp only [touch, Cache.deref, List.getElem?_set]
  by_cases e : a = b
  · subst e; simp [hlt]
  · have e' : ¬ b = a := fun x => e x.symm
    simp [e, e']

theorem mem_MoveToFront (l : List Nat) (a b : Nat) : b ∈ list.MoveToFront l a ↔ b ∈ l := by
  unfold list.MoveToFront
  split
  · rename_i ha
    simp only [List.mem_cons]
    constructor
    · rintro (rfl | hb)
      · exact ha
      · exact List.mem_of_mem_erase hb
    · intro hb
      by_cases e : b = a
      · exact Or.inl e
      · exact Or.inr ((List.mem_erase_of_ne e).2 hb)
  · rfl

theorem nodup_MoveToFront {l : List Nat} (hn : l.Nodup) (a : Nat) :
    (list.MoveToFront l a).Nodup := by
  unfold list.MoveToFront
  split
  · rw [List.nodup_cons]
    exact ⟨fun hx => ((hn.mem_erase_iff).1 hx).1 rfl, hn.erase a⟩
  · exact hn

theorem Inv_touch {c : Cache V E} (h : Inv c) {k : String} {a : Nat} {it0 : item V}
    (hm : mapGet c.items k = some a) (hd : c.deref a = some it0) (it : item V)
    (hk : it.key = k) : Inv (touch c a it) := by
  refine ⟨h.1, nodup_MoveToFront h.2.1 a, ?_, ?_⟩
  · intro p hp
    have hp' : p ∈ c.items := hp
    refine ⟨(mem_MoveToFront _ _ _).2 (h.mem_evict hp'), ?_⟩
    rw [deref_touch c hd]
    split
    · rename_i e
      have := h.key_inj hp' (mapGet_mem hm) e
      rw [this]; simp [hk]
    · exact (h.2.2.1 p hp').2
  · intro b hb
    exact h.2.2.2 b ((mem_MoveToFront _ _ _).1 hb)

theorem view_erase {c : Cache V E} (h : Inv c) {k : String} {a : Nat}
    (hm : mapGet c.items k = some a) :
    (c.evict.erase a).filterMap c.deref = (view c).filter (fun it => decide (it.key ≠ k)) := by
  unfold view
  rw [h.2.1.erase_eq_filter, List.filterMap_filter, List.filter_filterMap]
  apply List.filterMap_congr
  intro b hb
  obtain ⟨it, hit, hmb⟩ := h.deref_of_mem_evict hb
  by_cases e : b = a
  · subst e
    obtain ⟨it', hit', hk'⟩ := h.deref_of_mapGet hm
    rw [hit] at hit'; cases hit'
    simp [hit, hk', Option.filter]
  · have : it.key ≠ k := by
      intro hk; rw [hk, hm] at hmb; cases hmb; exact e rfl
    simp [hit, e, this, Option.filter]

theorem view_touch {c : Cache V E} (h : Inv c) {k : String} {a : Nat} {it0 : item V}
    (hm : mapGet c.items k = some a) (hd : c.deref a = some it0) (it : item V) :
    view (touch c a it) = it :: (view c).filter (fun x => decide (x.key ≠ k)) := by
  have ha : a ∈ c.evict := h.mem_evict (mapGet_mem hm)
  have e : (touch c a it).evict = a :: c.evict.erase a := by
    simp [touch, list.MoveToFront, ha]
  unfold view
  rw [e, List.filterMap_cons, deref_touch c hd, if_pos rfl]
  simp only [List.cons.injEq, true_and]
  have hve := view_erase h hm
  unfold view at hve
  rw [← hve]
  apply List.filterMap_congr
  intro b hb
  have : b ≠ a := ((h.2.1.mem_erase_iff).1 hb).1
  rw [deref_touch c hd, if_neg this]

theorem view_keep {c : Cache V E} (h : Inv c) (n : Nat) : view (keep c n) = (view c).take n := by
  unfold view
  have hk : (keep c n).evict = c.evict.take n := rfl
  have hd : (keep c n).deref = c.deref := rfl
  rw [hk, hd]
  have key : ∀ (l : List Nat) (n : Nat), (∀ a ∈ l, ∃ it, c.deref a = some it) →
      (l.take n).filterMap c.deref = (l.filterMap c.deref).take n := by
    intro l
    induction l with
    | nil => intro n _; simp
    | cons b l ih =>
      intro n hl
      cases n with
      | zero => simp
      | succ n =>
        obtain ⟨it, hit⟩ := hl b (List.mem_cons_self _ _)
        simp only [List.take_succ_cons, List.filterMap_cons, hit]
        rw [ih n (fun a ha => hl a (List.mem_cons_of_mem _ ha))]
  exact key _ _ (fun a ha => by
    obtain ⟨it, hit, _⟩ := h.deref_of_mem_evict ha
    exact ⟨it, hit⟩)

theorem view_length {c : Cache V E} (h : Inv c) : (view c).length = c.evict.length := by
  unfold view
  have key : ∀ (l : List Nat), (∀ a ∈ l, ∃ it, c.deref a = some it) →
      (l.filterMap c.deref).length = l.length := by
    intro l
    induction l with
    | nil => intro _; rfl
    | cons b l ih =>
      intro hl
      obtain ⟨it, hit⟩ := hl b (List.mem_cons_self _ _)
      simp only [List.filterMap_cons, hit, List.length_cons]
      rw [ih (fun a ha => hl a (List.mem_cons_of_mem _ ha))]
  exact key _ (fun a ha => by
    obtain ⟨it, hit, _⟩ := h.deref_of_mem_evict ha
    exact ⟨it, hit⟩)

end mcacheZero


namespace mcacheZero

variable {V E : Type}

/-! ## Unlinking an element -/

theorem remove_present_unlink {c : Cache V E} {k : String} {a : Nat} {it : item V}
    (h : mapGet c.items k = some a) (hd : c.deref a = some it) :
    c.remove k = some (unlink c it.key a, writeOf c a) :=
  remove_present h hd

theorem Inv_unlink {c : Cache V E} (h : Inv c) {k : String} {a : Nat}
    (hm : mapGet c.items k = some a) : Inv (unlink c k a) := by
  have hmem := mapGet_mem hm
  refine ⟨mapDelete_keys_nodup k h.1, h.2.1.erase a, ?_, ?_⟩
  · intro p hp
    have hp' : p ∈ c.items ∧ p.1 ≠ k := mem_mapDelete.1 hp
    have hne : p.2 ≠ a := by
      intro e
      have := h.key_inj hp'.1 hmem e
      exact hp'.2 (by rw [this])
    refine ⟨?_, (h.2.2.1 p hp'.1).2⟩
    exact (h.2.1.mem_erase_iff).2 ⟨hne, h.mem_evict hp'.1⟩
  · intro b hb
    have hb' := (h.2.1.mem_erase_iff).1 hb
    obtain ⟨p, hp, rfl⟩ := List.mem_map.1 (h.2.2.2 b hb'.2)
    refine List.mem_map.2 ⟨p, mem_mapDelete.2 ⟨hp, ?_⟩, rfl⟩
    intro e
    have h1 : mapGet c.items p.1 = some p.2 := mapGet_of_mem h.1 hp
    rw [e, hm] at h1
    cases h1
    exact hb'.1 rfl

theorem view_unlink {c : Cache V E} (h : Inv c) {k : String} {a : Nat}
    (hm : mapGet c.items k = some a) :
    view (unlink c k a) = (view c).filter (fun x => decide (x.key ≠ k)) :=
  view_erase h hm

theorem unlink_items_length_le (c : Cache V E) (k : String) (a : Nat) :
    (unlink c k a).items.length ≤ c.items.length :=
  List.length_filter_le _ _

/-! ## Frame properties of the eviction pass -/

theorem keep_items_length_le (c : Cache V E) (n : Nat) :
    (keep c n).items.length ≤ c.items.length :=
  List.length_filter_le _ _

theorem evictAct_size_le {c : Cache V E} (h : Inv c) (now : Int) (hs : 0 < c.size) :
    ((keep c (evictKeep c now)).items.length : Int) ≤ c.size := by
  rw [keep_items_length h]
  have : evictKeep c now ≤ c.size.toNat := by
    unfold evictKeep
    rw [if_pos (by omega)]
    exact Nat.min_le_right _ _
  omega

/-! ## The public operations, step by step -/

theorem addItem_eq (c : Cache V E) (key : String) (value : V) (dirty : Bool) (now : Int) :
    c.addItem key value dirty now
      = (push c { key := key, value := value,
                  expire := if c.expire ≠ 0 then Unix (now + c.expire) else 0,
                  dirty := dirty }).evictAct now := rfl

theorem Set_present {c c1 c3 : Cache V E} {key : String} {value : V} {now : Int}
    {e1 e4 : List (Event V)} {a : Nat} {it : item V}
    (h1 : c.evictAct now = some (c1, e1)) (hm : mapGet c1.items key = some a)
    (hd : c1.deref a = some it)
    (h3 : (touch c1 a (if c1.expire ≠ 0 then
              { it with value := value, dirty := true, expire := Unix (now + c1.expire) }
            else { it with value := value, dirty := true })).evictAct now = some (c3, e4)) :
    c.Set key value now
      = some (c3, e1 ++ (if c1.writeMode = writeAlways ∧ c1.writeFunc = true
                          then [Event.write key value] else []) ++ e4) := by
  unfold touch at h3
  simp only [Cache.Set, h1, hm, hd, h3, List.append_nil]

theorem Set_absent {c c1 c2 c3 : Cache V E} {key : String} {value : V} {now : Int}
    {e1 e2 e4 : List (Event V)}
    (h1 : c.evictAct now = some (c1, e1)) (hm : mapGet c1.items key = none)
    (h2 : c1.addItem key value true now = some (c2, e2))
    (h3 : c2.evictAct now = some (c3, e4)) :
    c.Set key value now
      = some (c3, e1 ++ e2 ++ (if c2.writeMode = writeAlways ∧ c2.writeFunc = true
                                then [Event.write key value] else []) ++ e4) := by
  simp only [Cache.Set, h1, hm, h2, h3]

theorem Get_present {c c1 c3 : Cache V E} {key : String} {now : Int}
    {e1 e3 : List (Event V)} {a : Nat} {it : item V}
    (h1 : c.evictAct now = some (c1, e1)) (hm : mapGet c1.items key = some a)
    (hd : c1.deref a = some it)
    (h3 : (touch c1 a (if c1.expire ≠ 0 then { it with expire := Unix (now + c1.expire) }
            else it)).evictAct now = some (c3, e3)) :
    c.Get key now = some (Except.ok it.value, c3, e1 ++ e3) := by
  unfold touch at h3
  simp only [Cache.Get, h1, hm, hd, h3, List.append_nil]
  split <;> rfl

theorem Get_absent_none {c c1 c3 : Cache V E} {key : String} {now : Int}
    {e1 e3 : List (Event V)}
    (h1 : c.evictAct now = some (c1, e1)) (hm : mapGet c1.items key = none)
    (hr : c1.readFunc = none) (h3 : c1.evictAct now = some (c3, e3)) :
    c.Get key now = some (Except.error GetError.notFound, c3, e1 ++ e3) := by
  simp only [Cache.Get, h1, hm, hr, h3, List.append_nil]

theorem Get_absent_error {c c1 c3 : Cache V E} {key : String} {now : Int}
    {e1 e3 : List (Event V)} {fn : String → Except E V} {err : E}
    (h1 : c.evictAct now = some (c1, e1)) (hm : mapGet c1.items key = none)
    (hr : c1.readFunc = some fn) (hf : fn key = Except.error err)
    (h3 : c1.evictAct now = some (c3, e3)) :
    c.Get key now
      = some (Except.error (GetError.readFailed err), c3, e1 ++ [Event.read key] ++ e3) := by
  simp only [Cache.Get, h1, hm, hr, hf, h3]

theorem Get_absent_ok {c c1 c2 c3 : Cache V E} {key : String} {now : Int}
    {e1 e2 e3 : List (Event V)} {fn : String → Except E V} {readData : V}
    (h1 : c.evictAct now = some (c1, e1)) (hm : mapGet c1.items key = none)
    (hr : c1.readFunc = some fn) (hf : fn key = Except.ok readData)
    (h2 : c1.addItem key readData false now = some (c2, e2))
    (h3 : c2.evictAct now = some (c3, e3)) :
    c.Get key now = some (Except.ok readData, c3, e1 ++ Event.read key :: e2 ++ e3) := by
  simp only [Cache.Get, h1, hm, hr, hf, h2, h3]

theorem Delete_present {c c1 c3 : Cache V E} {key : String} {now : Int}
    {e1 e3 : List (Event V)} {a : Nat}
    (h1 : c.evictAct now = some (c1, e1)) (hm : mapGet c1.items key = some a)
    (h3 : (unlink c1 key a).evictAct now = some (c3, e3)) :
    c.Delete key now
      = some (c3, e1 ++ (if c1.deleteFunc = true then [Event.delete key] else []) ++ e3) := by
  unfold unlink at h3
  simp only [Cache.Delete, h1, hm, h3]

theorem Delete_absent {c c1 c3 : Cache V E} {key : String} {now : Int}
    {e1 e3 : List (Event V)}
    (h1 : c.evictAct now = some (c1, e1)) (hm : mapGet c1.items key = none)
    (h3 : c1.evictAct now = some (c3, e3)) :
    c.Delete key now
      = some (c3, e1 ++ (if c1.deleteFunc = true then [Event.delete key] else []) ++ e3) := by
  simp only [Cache.Delete, h1, hm, h3]

end mcacheZero


namespace mcacheZero

variable {V E : Type}

/-! ## The public operations with one reading per call of the clock -/

theorem addItem_eq_addItemAt (c : Cache V E) (key : String) (value : V) (dirty : Bool)
    (now : Int) : c.addItem key value dirty now = c.addItemAt key value dirty now now := rfl

theorem Set_eq_SetAt (c : Cache V E) (key : String) (value : V) (now : Int) :
    c.Set key value now = c.SetAt key value (Clock.same now) := rfl

theorem Get_eq_GetAt (c : Cache V E) (key : String) (now : Int) :
    c.Get key now = c.GetAt key (Clock.same now) := rfl

theorem Delete_eq_DeleteAt (c : Cache V E) (key : String) (now : Int) :
    c.Delete key now = c.DeleteAt key (Clock.same now) := rfl

theorem step_eq_stepAt (c : Cache V E) (op : Op V E) (now : Int) :
    step c op now = stepAt c op (Clock.same now) := by
  cases op <;> rfl

theorem addItemAt_eq (c : Cache V E) (key : String) (value : V) (dirty : Bool)
    (stamp added : Int) :
    c.addItemAt key value dirty stamp added
      = (push c { key := key, value := value,
                  expire := if c.expire ≠ 0 then Unix (stamp + c.expire) else 0,
                  dirty := dirty }).evictAct added := rfl

theorem SetAt_present {c c1 c3 : Cache V E} {key : String} {value : V} {clk : Clock}
    {e1 e4 : List (Event V)} {a : Nat} {it : item V}
    (h1 : c.evictAct clk.entry = some (c1, e1)) (hm : mapGet c1.items key = some a)
    (hd : c1.deref a = some it)
    (h3 : (touch c1 a (if c1.expire ≠ 0 then
              { it with value := value, dirty := true, expire := Unix (clk.stamp + c1.expire) }
            else { it with value := value, dirty := true })).evictAct clk.last
          = some (c3, e4)) :
    c.SetAt key value clk
      = some (c3, e1 ++ (if c1.writeMode = writeAlways ∧ c1.writeFunc = true
                          then [Event.write key value] else []) ++ e4) := by
  unfold touch at h3
  simp only [Cache.SetAt, h1, hm, hd, h3, List.append_nil]

theorem SetAt_absent {c c1 c2 c3 : Cache V E} {key : String} {value : V} {clk : Clock}
    {e1 e2 e4 : List (Event V)}
    (h1 : c.evictAct clk.entry = some (c1, e1)) (hm : mapGet c1.items key = none)
    (h2 : c1.addItemAt key value true clk.stamp clk.added = some (c2, e2))
    (h3 : c2.evictAct clk.last = some (c3, e4)) :
    c.SetAt key value clk
      = some (c3, e1 ++ e2 ++ (if c2.writeMode = writeAlways ∧ c2.writeFunc = true
                                then [Event.write key value] else []) ++ e4) := by
  simp only [Cache.SetAt, h1, hm, h2, h3]

theorem GetAt_present {c c1 c3 : Cache V E} {key : String} {clk : Clock}
    {e1 e3 : List (Event V)} {a : Nat} {it : item V}
    (h1 : c.evictAct clk.entry = some (c1, e1)) (hm : mapGet c1.items key = some a)
    (hd : c1.deref a = some it)
    (h3 : (touch c1 a (if c1.expire ≠ 0 then
              { it with expire := Unix (clk.stamp + c1.expire) }
            else it)).evictAct clk.last = some (c3, e3)) :
    c.GetAt key clk = some (Except.ok it.value, c3, e1 ++ e3) := by
  unfold touch at h3
  simp only [Cache.GetAt, h1, hm, hd, h3, List.append_nil]
  split <;> rfl

theorem GetAt_absent_none {c c1 c3 : Cache V E} {key : String} {clk : Clock}
    {e1 e3 : List (Event V)}
    (h1 : c.evictAct clk.entry = some (c1, e1)) (hm : mapGet c1.items key = none)
    (hr : c1.readFunc = none) (h3 : c1.evictAct clk.last = some (c3, e3)) :
    c.GetAt key clk = some (Except.error GetError.notFound, c3, e1 ++ e3) := by
  simp only [Cache.GetAt, h1, hm, hr, h3, List.append_nil]

theorem GetAt_absent_error {c c1 c3 : Cache V E} {key : String} {clk : Clock}
    {e1 e3 : List (Event V)} {fn : String → Except E V} {err : E}
    (h1 : c.evictAct clk.entry = some (c1, e1)) (hm : mapGet c1.items key = none)
    (hr : c1.readFunc = some fn) (hf : fn key = Except.error err)
    (h3 : c1.evictAct clk.last = some (c3, e3)) :
    c.GetAt key clk
      = some (Except.error (GetError.readFailed err), c3, e1 ++ [Event.read key] ++ e3) := by
  simp only [Cache.GetAt, h1, hm, hr, hf, h3]

theorem GetAt_absent_ok {c c1 c2 c3 : Cache V E} {key : String} {clk : Clock}
    {e1 e2 e3 : List (Event V)} {fn : String → Except E V} {readData : V}
    (h1 : c.evictAct clk.entry = some (c1, e1)) (hm : mapGet c1.items key = none)
    (hr : c1.readFunc = some fn) (hf : fn key = Except.ok readData)
    (h2 : c1.addItemAt key readData false clk.stamp clk.added = some (c2, e2))
    (h3 : c2.evictAct clk.last = some (c3, e3)) :
    c.GetAt key clk = some (Except.ok readData, c3, e1 ++ Event.read key :: e2 ++ e3) := by
  simp only [Cache.GetAt, h1, hm, hr, hf, h2, h3]

theorem DeleteAt_absent {c c1 c3 : Cache V E} {key : String} {clk : Clock}
    {e1 e3 : List (Event V)}
    (h1 : c.evictAct clk.entry = some (c1, e1)) (hm : mapGet c1.items key = none)
    (h3 : c1.evictAct clk.last = some (c3, e3)) :
    c.DeleteAt key clk
      = some (c3, e1 ++ (if c1.deleteFunc = true then [Event.delete key] else []) ++ e3) := by
  simp only [Cache.DeleteAt, h1, hm, h3]

theorem stepAt_Get {c c' : Cache V E} {K : String} {clk : Clock}
    {r : Except (GetError E) V} {evs : List (Event V)}
    (h : c.GetAt K clk = some (r, c', evs)) :
    stepAt c (Op.Get K) clk = some (c', evs) := by
  simp only [stepAt, h]

end mcacheZero


namespace mcacheZero

variable {V E : Type}

/-! ## Clean keys and the writes an operation schedules -/

theorem mem_writeOf {c : Cache V E} {a : Nat} {ev : Event V} (h : ev ∈ writeOf c a) :
    ∃ it, c.deref a = some it ∧ it.dirty = true ∧ c.writeMode = writeEvict ∧
      c.writeFunc = true ∧ ev = Event.write it.key it.value := by
  unfold writeOf at h
  cases hd : c.deref a with
  | none => simp [hd] at h
  | some it =>
    simp only [hd] at h
    split at h
    · rename_i hc
      simp only [List.mem_singleton] at h
      exact ⟨it, rfl, hc.2.2, hc.1, hc.2.1, h⟩
    · simp at h

theorem mem_evictEvents {c : Cache V E} {n : Nat} {ev : Event V} (h : ev ∈ evictEvents c n) :
    ∃ a ∈ c.evict, ev ∈ writeOf c a := by
  unfold evictEvents at h
  simp only [List.mem_flatMap, List.mem_reverse] at h
  obtain ⟨a, ha, hev⟩ := h
  exact ⟨a, List.mem_of_mem_drop ha, hev⟩

theorem no_write_writeOf {c : Cache V E} (h : Inv c) {K : String} (hc : Clean K c) {a : Nat}
    (ha : a ∈ c.evict) (v : V) : Event.write K v ∉ writeOf c a := by
  intro hmem
  obtain ⟨it, hd, hdirty, _, _, he⟩ := mem_writeOf hmem
  obtain ⟨it', hd', hm⟩ := h.deref_of_mem_evict ha
  rw [hd] at hd'; cases hd'
  cases he
  have := hc a it hm hd
  rw [this] at hdirty
  cases hdirty

theorem no_write_evictEvents {c : Cache V E} (h : Inv c) {K : String} (hc : Clean K c)
    (n : Nat) (v : V) : Event.write K v ∉ evictEvents c n := by
  intro hmem
  obtain ⟨a, ha, hev⟩ := mem_evictEvents hmem
  exact no_write_writeOf h hc ha v hev

theorem Clean_keep {c : Cache V E} (h : Inv c) {K : String} (hc : Clean K c) (n : Nat) :
    Clean K (keep c n) := by
  intro a it hm hd
  have hmem : (K, a) ∈ (keep c n).items := mapGet_mem hm
  have hmem' : (K, a) ∈ c.items := List.mem_of_mem_filter hmem
  exact hc a it (mapGet_of_mem h.1 hmem') hd

theorem Clean_unlink {c : Cache V E} {K : String} (hc : Clean K c) (k : String) (a : Nat) :
    Clean K (unlink c k a) := by
  intro a' it hm hd
  by_cases e : K = k
  · subst e
    have : mapGet (mapDelete c.items K) K = none := mapGet_mapDelete_self _ _
    have hm' : mapGet (mapDelete c.items K) K = some a' := hm
    rw [this] at hm'; cases hm'
  · have hm' : mapGet (mapDelete c.items k) K = some a' := hm
    rw [mapGet_mapDelete_ne _ e] at hm'
    exact hc a' it hm' hd

theorem Clean_push {c : Cache V E} (h : Inv c) {K : String} (newdata : item V)
    (hk : mapGet c.items newdata.key = none) (hn : newdata.key = K → newdata.dirty = false)
    (hc : Clean K c) : Clean K (push c newdata) := by
  intro a it hm hd
  have hmd : mapDelete c.items newdata.key = c.items :=
    mapDelete_of_not_mem (mapGet_eq_none.1 hk)
  have hm' : mapGet ((newdata.key, c.heap.length) :: c.items) K = some a := by
    have : (push c newdata).items = (newdata.key, c.heap.length) :: c.items := by
      simp [push, mapSet, hmd]
    rw [← this]; exact hm
  by_cases e : newdata.key = K
  · simp only [mapGet, e, if_true, Option.some.injEq] at hm'
    subst hm'
    rw [deref_push_new] at hd
    cases hd
    exact hn e
  · simp only [mapGet, e, if_false] at hm'
    have ha : a ∈ c.evict := h.mem_evict (mapGet_mem hm')
    rw [deref_push_old c newdata (h.addr_lt ha)] at hd
    exact hc a it hm' hd

theorem Clean_touch {c : Cache V E} (h : Inv c) {K k : String} {a : Nat} {it0 : item V}
    (hm : mapGet c.items k = some a) (hd : c.deref a = some it0) (it : item V)
    (hn : k = K → it.dirty = false) (hc : Clean K c) : Clean K (touch c a it) := by
  intro a' it' hm' hd'
  have hm'' : mapGet c.items K = some a' := hm'
  rw [deref_touch c hd] at hd'
  by_cases e : a' = a
  · rw [if_pos e] at hd'
    cases hd'
    subst e
    have := h.key_inj (mapGet_mem hm) (mapGet_mem hm'') rfl
    exact hn (by simpa using congrArg Prod.fst this)
  · rw [if_neg e] at hd'
    exact hc a' it' hm'' hd'

theorem Good.trans {P : Prop} {K : String} {c c1 c2 : Cache V E} {e1 e2 : List (Event V)}
    (h1 : Good P K c c1 e1) (h2 : Good P K c1 c2 e2) : Good P K c c2 (e1 ++ e2) := by
  refine ⟨h2.1, h2.2.1.trans h1.2.1, ?_⟩
  intro hP hc
  obtain ⟨hc1, hw1⟩ := h1.2.2 hP hc
  obtain ⟨hc2, hw2⟩ := h2.2.2 hP hc1
  refine ⟨hc2, fun v hv => ?_⟩
  rcases List.mem_append.1 hv with hv | hv
  · exact hw1 v hv
  · exact hw2 v hv

theorem Good.refl {P : Prop} {K : String} {c : Cache V E} (h : Inv c) : Good P K c c [] :=
  ⟨h, rfl, fun _ hc => ⟨hc, fun _ hv => by simp at hv⟩⟩

theorem Good.events {P : Prop} {K : String} {c c' : Cache V E} {evs : List (Event V)}
    (h : Good P K c c' []) (hev : P → ∀ v, Event.write K v ∉ evs) : Good P K c c' evs :=
  ⟨h.1, h.2.1, fun hP hc => ⟨(h.2.2 hP hc).1, hev hP⟩⟩

theorem Good_keep {c : Cache V E} (h : Inv c) (P : Prop) (K : String) (n : Nat) :
    Good P K c (keep c n) (evictEvents c n) :=
  ⟨Inv_keep h n, rfl, fun _ hc => ⟨Clean_keep h hc n, no_write_evictEvents h hc n⟩⟩

theorem Good_evictAct {c : Cache V E} (h : Inv c) (P : Prop) (K : String) (now : Int) :
    ∃ c' evs, c.evictAct now = some (c', evs) ∧ Good P K c c' evs ∧
      c'.items.length ≤ c.items.length ∧ (0 < c.size → (c'.items.length : Int) ≤ c.size) :=
  ⟨_, _, evictAct_eq h now, Good_keep h P K _, keep_items_length_le _ _,
    evictAct_size_le h now⟩

theorem Good_unlink {c : Cache V E} (h : Inv c) (P : Prop) (K : String) {k : String} {a : Nat}
    (hm : mapGet c.items k = some a) : Good P K c (unlink c k a) [] :=
  ⟨Inv_unlink h hm, rfl, fun _ hc => ⟨Clean_unlink hc k a, fun _ hv => by simp at hv⟩⟩

theorem Good_remove {c : Cache V E} (h : Inv c) (P : Prop) (K : String) (k : String) :
    ∃ c' evs, c.remove k = some (c', evs) ∧ Good P K c c' evs ∧
      c'.items.length ≤ c.items.length := by
  cases hm : mapGet c.items k with
  | none => exact ⟨c, [], remove_absent hm, Good.refl h, le_rfl⟩
  | some a =>
    obtain ⟨it, hd, hk⟩ := h.deref_of_mapGet hm
    refine ⟨_, _, remove_present_unlink hm hd, ?_, unlink_items_length_le _ _ _⟩
    rw [hk]
    refine ⟨Inv_unlink h hm, rfl, fun _ hc => ⟨Clean_unlink hc k a, ?_⟩⟩
    exact no_write_writeOf h hc (h.mem_evict (mapGet_mem hm))

theorem Good_push {c : Cache V E} (h : Inv c) (P : Prop) (K : String) (newdata : item V)
    (hk : mapGet c.items newdata.key = none)
    (hn : P → newdata.key = K → newdata.dirty = false) :
    Good P K c (push c newdata) [] :=
  ⟨Inv_push h newdata hk, rfl,
    fun hP hc => ⟨Clean_push h newdata hk (hn hP) hc, fun _ hv => by simp at hv⟩⟩

theorem Good_touch {c : Cache V E} (h : Inv c) (P : Prop) (K : String) {k : String} {a : Nat}
    {it0 : item V} (hm : mapGet c.items k = some a) (hd : c.deref a = some it0) (it : item V)
    (hk : it.key = k) (hn : P → Clean K c → k = K → it.dirty = false) :
    Good P K c (touch c a it) [] :=
  ⟨Inv_touch h hm hd it hk, rfl,
    fun hP hc => ⟨Clean_touch h hm hd it (hn hP hc) hc, fun _ hv => by simp at hv⟩⟩

theorem Good_addItem {c : Cache V E} (h : Inv c) (P : Prop) (K : String) (key : String)
    (value : V) (dirty : Bool) (now : Int) (hk : mapGet c.items key = none)
    (hn : P → key = K → dirty = false) :
    ∃ c' evs, c.addItem key value dirty now = some (c', evs) ∧ Good P K c c' evs ∧
      (0 < c.size → (c'.items.length : Int) ≤ c.size) := by
  rw [addItem_eq]
  have hp := Good_push h P K
    (⟨key, value, if c.expire ≠ 0 then Unix (now + c.expire) else 0, dirty⟩ : item V) hk hn
  obtain ⟨c', evs, he, hg, _, hs⟩ := Good_evictAct hp.1 P K now
  refine ⟨c', evs, he, ?_, hs⟩
  simpa using hp.trans hg

/-! ## Every public operation returns and keeps the cache consistent -/

theorem Good_Set {c : Cache V E} (h : Inv c) (K : String) (key : String) (value : V)
    (now : Int) :
    ∃ c' evs, c.Set key value now = some (c', evs) ∧ Good (key ≠ K) K c c' evs ∧
      (0 < c.size → (c'.items.length : Int) ≤ c.size) := by
  obtain ⟨c1, e1, h1, g1, _, _⟩ := Good_evictAct h (key ≠ K) K now
  have hw : ∀ (c2 : Cache V E), (key ≠ K) → ∀ v, Event.write K v ∉
      (if c2.writeMode = writeAlways ∧ c2.writeFunc = true then [Event.write key value] else []) := by
    intro c2 hne v hv
    split at hv
    · simp only [List.mem_singleton, Event.write.injEq] at hv
      exact hne hv.1.symm
    · simp at hv
  cases hm : mapGet c1.items key with
  | some a =>
    obtain ⟨it, hd, hk⟩ := g1.1.deref_of_mapGet hm
    have g2 := Good_touch g1.1 (key ≠ K) K hm hd
      (if c1.expire ≠ 0 then
          { it with value := value, dirty := true, expire := Unix (now + c1.expire) }
        else { it with value := value, dirty := true })
      (by split <;> exact hk) (fun hne _ e => absurd e hne)
    obtain ⟨c3, e4, h3, g3, _, hs⟩ := Good_evictAct g2.1 (key ≠ K) K now
    refine ⟨c3, _, Set_present h1 hm hd h3, ?_, ?_⟩
    · have := (g1.trans ((g2.events (hw c1)).trans g3))
      simpa [List.append_assoc] using this
    · intro hpos
      have e : (touch c1 a (if c1.expire ≠ 0 then
          { it with value := value, dirty := true, expire := Unix (now + c1.expire) }
        else { it with value := value, dirty := true })).size = c.size := g2.2.1.trans g1.2.1
      rw [← e]; apply hs; rw [e]; exact hpos
  | none =>
    obtain ⟨c2, e2, h2, g2, _⟩ := Good_addItem g1.1 (key ≠ K) K key value true now hm
      (fun hne e => absurd e hne)
    obtain ⟨c3, e4, h3, g3, _, hs⟩ := Good_evictAct g2.1 (key ≠ K) K now
    refine ⟨c3, _, Set_absent h1 hm h2 h3, ?_, ?_⟩
    · have := (g1.trans (g2.trans (((Good.refl g2.1).events (hw c2)).trans g3)))
      simpa [List.append_assoc] using this
    · intro hpos
      have e : c2.size = c.size := g2.2.1.trans g1.2.1
      rw [← e]; apply hs; rw [e]; exact hpos

end mcacheZero


namespace mcacheZero

variable {V E : Type}

theorem Good_Get {c : Cache V E} (h : Inv c) (K : String) (key : String) (now : Int) :
    ∃ r c' evs, c.Get key now = some (r, c', evs) ∧ Good True K c c' evs ∧
      (0 < c.size → (c'.items.length : Int) ≤ c.size) := by
  obtain ⟨c1, e1, h1, g1, _, _⟩ := Good_evictAct h True K now
  cases hm : mapGet c1.items key with
  | some a =>
    obtain ⟨it, hd, hk⟩ := g1.1.deref_of_mapGet hm
    have g2 := Good_touch g1.1 True K hm hd
      (if c1.expire ≠ 0 then { it with expire := Unix (now + c1.expire) } else it)
      (by split <;> exact hk)
      (fun _ hc e => by
        have := hc a it (e ▸ hm) hd
        split <;> exact this)
    obtain ⟨c3, e3, h3, g3, _, hs⟩ := Good_evictAct g2.1 True K now
    refine ⟨_, c3, _, Get_present h1 hm hd h3, ?_, ?_⟩
    · simpa using g1.trans (g2.trans g3)
    · intro hpos
      have e : (touch c1 a (if c1.expire ≠ 0 then { it with expire := Unix (now + c1.expire) }
        else it)).size = c.size := g2.2.1.trans g1.2.1
      rw [← e]; apply hs; rw [e]; exact hpos
  | none =>
    cases hr : c1.readFunc with
    | none =>
      obtain ⟨c3, e3, h3, g3, _, hs⟩ := Good_evictAct g1.1 True K now
      refine ⟨_, c3, _, Get_absent_none h1 hm hr h3, g1.trans g3, ?_⟩
      intro hpos
      rw [← g1.2.1]; apply hs; rw [g1.2.1]; exact hpos
    | some fn =>
      cases hf : fn key with
      | error err =>
        obtain ⟨c3, e3, h3, g3, _, hs⟩ := Good_evictAct g1.1 True K now
        refine ⟨_, c3, _, Get_absent_error h1 hm hr hf h3, ?_, ?_⟩
        · have g2 : Good True K c1 c1 [Event.read key] :=
            (Good.refl g1.1).events (fun _ v hv => by simp at hv)
          simpa [List.append_assoc] using g1.trans (g2.trans g3)
        · intro hpos
          rw [← g1.2.1]; apply hs; rw [g1.2.1]; exact hpos
      | ok readData =>
        obtain ⟨c2, e2, h2, g2, _⟩ := Good_addItem g1.1 True K key readData false now hm
          (fun _ _ => rfl)
        obtain ⟨c3, e3, h3, g3, _, hs⟩ := Good_evictAct g2.1 True K now
        refine ⟨_, c3, _, Get_absent_ok h1 hm hr hf h2 h3, ?_, ?_⟩
        · have g0 : Good True K c1 c1 [Event.read key] :=
            (Good.refl g1.1).events (fun _ v hv => by simp at hv)
          simpa [List.append_assoc] using g1.trans (g0.trans (g2.trans g3))
        · intro hpos
          have e : c2.size = c.size := g2.2.1.trans g1.2.1
          rw [← e]; apply hs; rw [e]; exact hpos

theorem Good_Delete {c : Cache V E} (h : Inv c) (K : String) (key : String) (now : Int) :
    ∃ c' evs, c.Delete key now = some (c', evs) ∧ Good True K c c' evs ∧
      (0 < c.size → (c'.items.length : Int) ≤ c.size) := by
  obtain ⟨c1, e1, h1, g1, _, _⟩ := Good_evictAct h True K now
  have hw : ∀ v : V, Event.write K v ∉
      (if c1.deleteFunc = true then [Event.delete key] else []) := by
    intro v hv
    split at hv <;> simp at hv
  cases hm : mapGet c1.items key with
  | some a =>
    have g2 := Good_unlink g1.1 True K hm
    obtain ⟨c3, e3, h3, g3, _, hs⟩ := Good_evictAct g2.1 True K now
    refine ⟨c3, _, Delete_present h1 hm h3, ?_, ?_⟩
    · simpa [List.append_assoc] using g1.trans ((g2.events (fun _ => hw)).trans g3)
    · intro hpos
      have e : (unlink c1 key a).size = c.size := g2.2.1.trans g1.2.1
      rw [← e]; apply hs; rw [e]; exact hpos
  | none =>
    obtain ⟨c3, e3, h3, g3, _, hs⟩ := Good_evictAct g1.1 True K now
    refine ⟨c3, _, Delete_absent h1 hm h3, ?_, ?_⟩
    · simpa [List.append_assoc] using
        g1.trans (((Good.refl g1.1).events (fun _ => hw)).trans g3)
    · intro hpos
      rw [← g1.2.1]; apply hs; rw [g1.2.1]; exact hpos

theorem Good_removeAll (K : String) (allkeys : List String) {c : Cache V E} (h : Inv c) :
    ∃ c' evs, Cache.removeAll allkeys c = some (c', evs) ∧ Good True K c c' evs ∧
      c'.items.length ≤ c.items.length := by
  induction allkeys generalizing c with
  | nil => exact ⟨c, [], rfl, Good.refl h, le_rfl⟩
  | cons key allkeys ih =>
    obtain ⟨c1, e1, h1, g1, l1⟩ := Good_remove h True K key
    obtain ⟨c2, e2, h2, g2, l2⟩ := ih g1.1
    refine ⟨c2, e1 ++ e2, ?_, g1.trans g2, l2.trans l1⟩
    simp only [Cache.removeAll, h1, h2]

/-! ### Sync -/

theorem deref_store (c : Cache V E) {a : Nat} {it0 : item V} (hd : c.deref a = some it0)
    (b : Nat) (it : item V) :
    (store c a it).deref b = if b = a then some it else c.deref b := by
  have := deref_touch c hd b it
  exact this

theorem Inv_store {c : Cache V E} (h : Inv c) {k : String} {a : Nat} {it0 : item V}
    (hm : mapGet c.items k = some a) (hd : c.deref a = some it0) (it : item V)
    (hk : it.key = k) : Inv (store c a it) := by
  refine ⟨h.1, h.2.1, ?_, h.2.2.2⟩
  intro p hp
  have hp' : p ∈ c.items := hp
  refine ⟨h.mem_evict hp', ?_⟩
  rw [deref_store c hd]
  split
  · rename_i e
    have := h.key_inj hp' (mapGet_mem hm) e
    rw [this]; simp [hk]
  · exact (h.2.2.1 p hp').2

theorem Clean_store {c : Cache V E} {K : String} {a : Nat} {it0 : item V}
    (hd : c.deref a = some it0) (it : item V)
    (hn : it.dirty = false) (hc : Clean K c) : Clean K (store c a it) := by
  intro a' it' hm' hd'
  have hm'' : mapGet c.items K = some a' := hm'
  rw [deref_store c hd] at hd'
  by_cases e : a' = a
  · rw [if_pos e] at hd'
    cases hd'
    exact hn
  · rw [if_neg e] at hd'
    exact hc a' it' hm'' hd'

theorem Good_syncAll (K : String) (allkeys : List String) {c : Cache V E} (h : Inv c) :
    ∃ c' evs, Cache.syncAll allkeys c = some (c', evs) ∧ Good True K c c' evs ∧
      c'.items = c.items ∧ c'.evict = c.evict := by
  induction allkeys generalizing c with
  | nil => exact ⟨c, [], rfl, Good.refl h, rfl, rfl⟩
  | cons key allkeys ih =>
    cases hm : mapGet c.items key with
    | none =>
      obtain ⟨c2, e2, h2, g2, i2⟩ := ih h
      exact ⟨c2, e2, by simp only [Cache.syncAll, hm, h2], g2, i2⟩
    | some a =>
      obtain ⟨it, hd, hk⟩ := h.deref_of_mapGet hm
      have hI : Inv (store c a { it with dirty := false }) := Inv_store h hm hd _ hk
      obtain ⟨c2, e2, h2, g2, i2⟩ := ih hI
      refine ⟨c2, (if it.dirty = true then [Event.write key it.value] else []) ++ e2, ?_, ?_, i2⟩
      · unfold store at h2
        simp only [Cache.syncAll, hm, hd, h2]
      · have g1 : Good True K c (store c a { it with dirty := false })
            (if it.dirty = true then [Event.write key it.value] else []) := by
          refine ⟨hI, rfl, fun _ hc => ⟨Clean_store hd _ rfl hc, ?_⟩⟩
          intro v hv
          split at hv
          · rename_i hdirty
            simp only [List.mem_singleton, Event.write.injEq] at hv
            have := hc a it (hv.1 ▸ hm) hd
            rw [this] at hdirty; cases hdirty
          · simp at hv
        exact g1.trans g2

theorem Good_sync (K : String) {c : Cache V E} (h : Inv c) :
    ∃ c' evs, c.sync = some (c', evs) ∧ Good True K c c' evs ∧
      c'.items = c.items ∧ c'.evict = c.evict := by
  unfold Cache.sync
  split
  · exact ⟨c, [], rfl, Good.refl h, rfl, rfl⟩
  · exact Good_syncAll K _ h

/-! ### Sequences of calls -/

theorem Good_step {c : Cache V E} (h : Inv c) (K : String) (op : Op V E) (now : Int) :
    ∃ c' evs, step c op now = some (c', evs) ∧
      Good (∀ v, op ≠ Op.Set K v) K c c' evs ∧ (Within c → Within c') := by
  have weaken : ∀ {P : Prop} {c' : Cache V E} {evs : List (Event V)},
      Good P K c c' evs → (∀ v, op ≠ Op.Set K v) → P → Good (∀ v, op ≠ Op.Set K v) K c c' evs := by
    intro P c' evs g hP' hP
    exact ⟨g.1, g.2.1, fun _ hc => g.2.2 hP hc⟩
  have shrink : ∀ {c' : Cache V E}, c'.size = c.size → c'.items.length ≤ c.items.length →
      Within c → Within c' := by
    intro c' hs hl hw hpos
    rw [hs] at hpos ⊢
    have := hw hpos
    omega
  have same : ∀ (c' : Cache V E), c'.items = c.items → c'.evict = c.evict → c'.heap = c.heap →
      c'.size = c.size → Good (∀ v, op ≠ Op.Set K v) K c c' [] ∧ (Within c → Within c') := by
    intro c' hi he hh hs
    have hd : c'.deref = c.deref := by funext a; simp [Cache.deref, hh]
    refine ⟨⟨?_, hs, fun _ hc => ⟨?_, fun _ hv => by simp at hv⟩⟩, ?_⟩
    · unfold Inv; rw [hi, he, hd]; exact h
    · unfold Clean; rw [hi, hd]; exact hc
    · exact shrink hs (by rw [hi])
  cases op with
  | Set key value =>
    obtain ⟨c', evs, he, g, hs⟩ := Good_Set h K key value now
    refine ⟨c', evs, he, ⟨g.1, g.2.1, fun hP hc => g.2.2 ?_ hc⟩, ?_⟩
    · intro e; exact hP value (by rw [e])
    · intro _ hpos; rw [g.2.1] at hpos ⊢; exact hs hpos
  | Get key =>
    obtain ⟨r, c', evs, he, g, hs⟩ := Good_Get h K key now
    refine ⟨c', evs, by simp only [step, he], ⟨g.1, g.2.1, fun _ hc => g.2.2 trivial hc⟩, ?_⟩
    intro _ hpos; rw [g.2.1] at hpos ⊢; exact hs hpos
  | Delete key =>
    obtain ⟨c', evs, he, g, hs⟩ := Good_Delete h K key now
    refine ⟨c', evs, he, ⟨g.1, g.2.1, fun _ hc => g.2.2 trivial hc⟩, ?_⟩
    intro _ hpos; rw [g.2.1] at hpos ⊢; exact hs hpos
  | Remove key =>
    obtain ⟨c', evs, he, g, hl⟩ := Good_remove h True K key
    exact ⟨c', evs, he, ⟨g.1, g.2.1, fun _ hc => g.2.2 trivial hc⟩, shrink g.2.1 hl⟩
  | Purge =>
    refine ⟨c.Purge, [], rfl, ⟨?_, rfl, fun _ _ => ⟨?_, fun _ hv => by simp at hv⟩⟩, ?_⟩
    · simp [Inv, Cache.Purge]
    · intro a it hm _; simp [Cache.Purge, mapGet] at hm
    · exact shrink rfl (by simp [Cache.Purge])
  | Flush =>
    obtain ⟨c', evs, he, g, hl⟩ := Good_removeAll K c.keys h
    exact ⟨c', evs, he, ⟨g.1, g.2.1, fun _ hc => g.2.2 trivial hc⟩, shrink g.2.1 hl⟩
  | Sync =>
    obtain ⟨c', evs, he, g, hi, _⟩ := Good_sync K h
    exact ⟨c', evs, he, ⟨g.1, g.2.1, fun _ hc => g.2.2 trivial hc⟩,
      shrink g.2.1 (by rw [hi])⟩
  | EvictAct =>
    obtain ⟨c', evs, he, g, hl, _⟩ := Good_evictAct h True K now
    exact ⟨c', evs, he, ⟨g.1, g.2.1, fun _ hc => g.2.2 trivial hc⟩, shrink g.2.1 hl⟩
  | SetWriteFunc fn => exact ⟨_, [], rfl, same _ rfl rfl rfl rfl⟩
  | SetReadFunc fn => exact ⟨_, [], rfl, same _ rfl rfl rfl rfl⟩
  | SetDeleteFunc fn => exact ⟨_, [], rfl, same _ rfl rfl rfl rfl⟩
  | SetExpireDuration expire => exact ⟨_, [], rfl, same _ rfl rfl rfl rfl⟩
  | SetWriteAlways => exact ⟨_, [], rfl, same _ rfl rfl rfl rfl⟩
  | SetWriteEvict => exact ⟨_, [], rfl, same _ rfl rfl rfl rfl⟩
  | Keys => exact ⟨_, [], rfl, same _ rfl rfl rfl rfl⟩
  | Len => exact ⟨_, [], rfl, same _ rfl rfl rfl rfl⟩
  | WriteWaiting => exact ⟨_, [], rfl, same _ rfl rfl rfl rfl⟩

theorem Good_run (K : String) (ops : List (Op V E × Int)) {c : Cache V E} (h : Inv c) :
    ∃ c' evs, run c ops = some (c', evs) ∧
      Good (∀ op ∈ ops, ∀ v, op.1 ≠ Op.Set K v) K c c' evs ∧ (Within c → Within c') := by
  induction ops generalizing c with
  | nil => exact ⟨c, [], rfl, Good.refl h, id⟩
  | cons x ops ih =>
    obtain ⟨op, now⟩ := x
    obtain ⟨c1, e1, h1, g1, w1⟩ := Good_step h K op now
    obtain ⟨c2, e2, h2, g2, w2⟩ := ih g1.1
    refine ⟨c2, e1 ++ e2, by simp only [run, h1, h2], ?_, fun hw => w2 (w1 hw)⟩
    refine ⟨g2.1, g2.2.1.trans g1.2.1, fun hP hc => ?_⟩
    obtain ⟨hc1, hw1⟩ := g1.2.2 (fun v => hP (op, now) (List.mem_cons_self _ _) v) hc
    obtain ⟨hc2, hw2⟩ := g2.2.2 (fun o ho v => hP o (List.mem_cons_of_mem _ ho) v) hc1
    refine ⟨hc2, fun v hv => ?_⟩
    rcases List.mem_append.1 hv with hv | hv
    · exact hw1 v hv
    · exact hw2 v hv

end mcacheZero


namespace mcacheZero

variable {V E : Type}

/-! ## Without expiry and within the capacity -/

theorem Inv.mem_view {c : Cache V E} (h : Inv c) {it : item V} (hv : it ∈ view c) :
    ∃ a, mapGet c.items it.key = some a ∧ c.deref a = some it := by
  unfold view at hv
  obtain ⟨a, ha, hd⟩ := List.mem_filterMap.1 hv
  obtain ⟨it', hd', hm⟩ := h.deref_of_mem_evict ha
  rw [hd] at hd'; cases hd'
  exact ⟨a, hm, hd⟩

theorem Inv.view_mem {c : Cache V E} (h : Inv c) {k : String} {a : Nat} {it : item V}
    (hm : mapGet c.items k = some a) (hd : c.deref a = some it) : it ∈ view c := by
  unfold view
  exact List.mem_filterMap.2 ⟨a, h.mem_evict (mapGet_mem hm), hd⟩

theorem evictAct_steady {c : Cache V E} (h : Steady c) (now : Int) :
    c.evictAct now = some (c, []) := by
  apply evictAct_noop h.1
  rw [evictKeep_of_noTTL h.2.1]
  have := h.1.length_eq
  rcases h.2.2 with hz | ⟨h1, h2⟩
  · simp [hz]
  · rw [if_pos (by omega)]
    have : c.evict.length ≤ c.size.toNat := by omega
    omega

theorem Steady_touch {c : Cache V E} (h : Steady c) {k : String} {a : Nat} {it0 : item V}
    (hm : mapGet c.items k = some a) (hd : c.deref a = some it0) (it : item V)
    (hk : it.key = k) : Steady (touch c a it) :=
  ⟨Inv_touch h.1 hm hd it hk, h.2.1, h.2.2⟩

theorem Set_present_steady {c : Cache V E} (h : Steady c) {key : String} {a : Nat}
    {it : item V} (hm : mapGet c.items key = some a) (hd : c.deref a = some it)
    (value : V) (now : Int) :
    c.Set key value now
      = some (touch c a { it with value := value, dirty := true },
              if c.writeMode = writeAlways ∧ c.writeFunc = true
                then [Event.write key value] else []) := by
  obtain ⟨it', hd', hk⟩ := h.1.deref_of_mapGet hm
  rw [hd] at hd'; cases hd'
  have hs := Steady_touch h hm hd { it with value := value, dirty := true } hk
  have h3 : (touch c a (if c.expire ≠ 0 then
              { it with value := value, dirty := true, expire := Unix (now + c.expire) }
            else { it with value := value, dirty := true })).evictAct now
      = some (touch c a { it with value := value, dirty := true }, []) := by
    rw [if_neg (by simp [h.2.1])]
    exact evictAct_steady hs now
  rw [Set_present (evictAct_steady h now) hm hd h3]
  simp

theorem Get_present_steady {c : Cache V E} (h : Steady c) {key : String} {a : Nat}
    {it : item V} (hm : mapGet c.items key = some a) (hd : c.deref a = some it) (now : Int) :
    c.Get key now = some (Except.ok it.value, touch c a it, []) := by
  obtain ⟨it', hd', hk⟩ := h.1.deref_of_mapGet hm
  rw [hd] at hd'; cases hd'
  have hs := Steady_touch h hm hd it hk
  have h3 : (touch c a (if c.expire ≠ 0 then { it with expire := Unix (now + c.expire) }
            else it)).evictAct now = some (touch c a it, []) := by
    rw [if_neg (by simp [h.2.1])]
    exact evictAct_steady hs now
  rw [Get_present (evictAct_steady h now) hm hd h3]
  simp

theorem room_pos {c : Cache V E} (h : Steady c) : 1 ≤ room c := by
  unfold room
  rcases h.2.2 with hz | ⟨h1, _⟩
  · simp [hz]
  · rw [if_pos (by omega)]; omega

theorem Steady_push_keep {c : Cache V E} (h : Steady c) (newdata : item V)
    (hk : mapGet c.items newdata.key = none) : Steady (keep (push c newdata) (room c)) := by
  have hI := Inv_push h.1 newdata hk
  refine ⟨Inv_keep hI _, h.2.1, ?_⟩
  rcases h.2.2 with hz | ⟨h1, h2⟩
  · exact Or.inl hz
  · refine Or.inr ⟨h1, ?_⟩
    rw [keep_items_length hI]
    have hs : (keep (push c newdata) (room c)).size = c.size := rfl
    rw [hs]
    unfold room
    rw [if_pos (by omega)]
    omega

theorem addItem_steady {c : Cache V E} (h : Steady c) {key : String}
    (hk : mapGet c.items key = none) (value : V) (dirty : Bool) (now : Int) :
    c.addItem key value dirty now
      = some (keep (push c ⟨key, value, 0, dirty⟩) (room c),
              evictEvents (push c ⟨key, value, 0, dirty⟩) (room c)) := by
  rw [addItem_eq, if_neg (by simp [h.2.1])]
  have hI := Inv_push h.1 (⟨key, value, 0, dirty⟩ : item V) hk
  rw [evictAct_eq hI]
  have he : (push c (⟨key, value, 0, dirty⟩ : item V)).expire = 0 := h.2.1
  have hl : (push c (⟨key, value, 0, dirty⟩ : item V)).evict.length = c.evict.length + 1 := by
    simp [push, list.PushFront]
  have hs : (push c (⟨key, value, 0, dirty⟩ : item V)).size = c.size := rfl
  rw [evictKeep_of_noTTL he, hl, hs]
  unfold room
  by_cases hz : c.size ≠ 0
  · rw [if_pos hz, if_pos hz]
    have e1 : keep (push c (⟨key, value, 0, dirty⟩ : item V)) (min (c.evict.length + 1) c.size.toNat)
        = keep (push c (⟨key, value, 0, dirty⟩ : item V)) c.size.toNat := by
      rw [Nat.min_comm, ← keep_keep, keep_of_le hI (by rw [hl])]
    have e2 : evictEvents (push c (⟨key, value, 0, dirty⟩ : item V))
          (min (c.evict.length + 1) c.size.toNat)
        = evictEvents (push c (⟨key, value, 0, dirty⟩ : item V)) c.size.toNat := by
      by_cases hle : c.evict.length + 1 ≤ c.size.toNat
      · rw [Nat.min_eq_left hle, evictEvents_of_le (by rw [hl]),
          evictEvents_of_le (by rw [hl]; exact hle)]
      · rw [Nat.min_eq_right (by omega)]
    rw [e1, e2]
  · rw [if_neg hz, if_neg hz]

theorem Set_absent_steady {c : Cache V E} (h : Steady c) {key : String}
    (hk : mapGet c.items key = none) (value : V) (now : Int) :
    c.Set key value now
      = some (keep (push c ⟨key, value, 0, true⟩) (room c),
              evictEvents (push c ⟨key, value, 0, true⟩) (room c)
                ++ (if c.writeMode = writeAlways ∧ c.writeFunc = true
                      then [Event.write key value] else [])) := by
  have hs := Steady_push_keep h (⟨key, value, 0, true⟩ : item V) hk
  rw [Set_absent (evictAct_steady h now) hk (addItem_steady h hk value true now)
    (evictAct_steady hs now)]
  simp
  rfl

theorem Get_absent_ok_steady {c : Cache V E} (h : Steady c) {key : String}
    (hk : mapGet c.items key = none) {fn : String → Except E V} {readData : V}
    (hr : c.readFunc = some fn) (hf : fn key = Except.ok readData) (now : Int) :
    c.Get key now
      = some (Except.ok readData, keep (push c ⟨key, readData, 0, false⟩) (room c),
              Event.read key :: evictEvents (push c ⟨key, readData, 0, false⟩) (room c)) := by
  have hs := Steady_push_keep h (⟨key, readData, 0, false⟩ : item V) hk
  rw [Get_absent_ok (evictAct_steady h now) hk hr hf (addItem_steady h hk readData false now)
    (evictAct_steady hs now)]
  simp

theorem view_push_keep {c : Cache V E} (h : Steady c) (newdata : item V)
    (hk : mapGet c.items newdata.key = none) :
    view (keep (push c newdata) (room c)) = (newdata :: view c).take (room c) := by
  rw [view_keep (Inv_push h.1 newdata hk), view_push h.1]

end mcacheZero


namespace mcacheZero

variable {V E : Type}

/-! ## The keys of the map and the order of the list -/

theorem Inv.order_eq_map {c : Cache V E} (h : Inv c) :
    order c = c.evict.map (fun a => ((c.deref a).map item.key).getD "") := by
  unfold order view
  have key : ∀ (l : List Nat), (∀ a ∈ l, ∃ it, c.deref a = some it) →
      (l.filterMap c.deref).map item.key
        = l.map (fun a => ((c.deref a).map item.key).getD "") := by
    intro l
    induction l with
    | nil => intro _; rfl
    | cons b l ih =>
      intro hl
      obtain ⟨it, hit⟩ := hl b (List.mem_cons_self _ _)
      simp only [List.filterMap_cons, hit, List.map_cons, Option.map_some', Option.getD_some]
      rw [ih (fun a ha => hl a (List.mem_cons_of_mem _ ha))]
  exact key _ (fun a ha => by
    obtain ⟨it, hit, _⟩ := h.deref_of_mem_evict ha
    exact ⟨it, hit⟩)

theorem Inv.keys_perm {c : Cache V E} (h : Inv c) : c.keys.Perm (order c) := by
  rw [h.order_eq_map]
  have e : c.keys = (c.items.map Prod.snd).map
      (fun a => ((c.deref a).map item.key).getD "") := by
    unfold Cache.keys
    rw [List.map_map]
    apply List.map_congr_left
    intro p hp
    have := (h.2.2.1 p hp).2
    simp [this]
  rw [e]
  exact h.snd_perm.map _

theorem Inv.order_nodup {c : Cache V E} (h : Inv c) : (order c).Nodup :=
  (h.keys_perm.nodup_iff).1 h.1

theorem Inv.mapGet_none_iff {c : Cache V E} (h : Inv c) (k : String) :
    mapGet c.items k = none ↔ k ∉ order c := by
  rw [mapGet_eq_none, ← h.mem_keys_iff]
  rfl

theorem take_append_take {α : Type} (l m : List α) (n : Nat) :
    (l ++ m.take n).take n = (l ++ m).take n := by
  rw [List.take_append_eq_append_take, List.take_append_eq_append_take, List.take_take]
  congr 2
  omega

theorem Steady_New {N : Int} (hN : N = 0 ∨ 1 ≤ N) : Steady (New N : Cache V E) := by
  refine ⟨Inv_New N, rfl, ?_⟩
  rcases hN with h | h
  · exact Or.inl h
  · refine Or.inr ⟨h, ?_⟩
    simp only [New, List.length_nil, Nat.cast_zero]
    have : (New N : Cache V E).size = N := rfl
    omega

theorem Within_New (N : Int) : Within (New N : Cache V E) := by
  intro hpos
  have : (New N : Cache V E).size = N := rfl
  rw [this] at hpos ⊢
  simp only [New, List.length_nil, Nat.cast_zero]
  omega

theorem order_push_keep {c : Cache V E} (h : Steady c) (newdata : item V)
    (hk : mapGet c.items newdata.key = none) :
    order (keep (push c newdata) (room c)) = (newdata.key :: order c).take (room c) := by
  unfold order
  rw [view_push_keep h newdata hk, List.map_take]
  rfl

theorem run_sets_order (N : Int) (hN : 1 ≤ N) (kvs : List (String × V × Int)) :
    ∀ (c : Cache V E), Steady c → c.size = N → (kvs.map Prod.fst).Nodup →
      (∀ x ∈ kvs, x.1 ∉ order c) →
      ∃ c' evs, run c (setCalls kvs) = some (c', evs) ∧ Steady c' ∧ c'.size = N ∧
        order c' = ((kvs.map Prod.fst).reverse ++ order c).take N.toNat := by
  induction kvs with
  | nil =>
    intro c hS hsz _ _
    refine ⟨c, [], rfl, hS, hsz, ?_⟩
    have hl : (order c).length ≤ N.toNat := by
      unfold order
      rw [List.length_map, view_length hS.1, ← hS.1.length_eq]
      rcases hS.2.2 with hz | ⟨_, h2⟩
      · omega
      · omega
    simp [List.take_of_length_le hl]
  | cons x kvs ih =>
    intro c hS hsz hnd hfresh
    obtain ⟨k, v, t⟩ := x
    simp only [List.map_cons, List.nodup_cons] at hnd
    have hk : mapGet c.items k = none :=
      (hS.1.mapGet_none_iff k).2 (hfresh (k, v, t) (List.mem_cons_self _ _))
    have hroom : room c = N.toNat := by
      unfold room; rw [if_pos (by omega), hsz]
    have hS1 := Steady_push_keep hS (⟨k, v, 0, true⟩ : item V) hk
    have ho1 := order_push_keep hS (⟨k, v, 0, true⟩ : item V) hk
    rw [hroom] at ho1
    have hfresh1 : ∀ y ∈ kvs, y.1 ∉ order (keep (push c (⟨k, v, 0, true⟩ : item V)) (room c)) := by
      intro y hy hmem
      rw [hroom, ho1] at hmem
      rcases List.mem_cons.1 (List.mem_of_mem_take hmem) with e | hmem
      · exact hnd.1 (List.mem_map.2 ⟨y, hy, e⟩)
      · exact hfresh y (List.mem_cons_of_mem _ hy) hmem
    obtain ⟨c', evs, hr, hS', hsz', ho'⟩ := ih _ hS1 hsz hnd.2 hfresh1
    have hstep : step c (Op.Set k v : Op V E) t = _ := Set_absent_steady hS hk v t
    refine ⟨c', (evictEvents (push c ⟨k, v, 0, true⟩) (room c)
                ++ (if c.writeMode = writeAlways ∧ c.writeFunc = true
                      then [Event.write k v] else [])) ++ evs, ?_, hS', hsz', ?_⟩
    · simp only [setCalls] at hr
      simp only [setCalls, List.map_cons, run, hstep, hr]
    · rw [ho', hroom, ho1, take_append_take]
      simp

/-- Every state reached from `New(N)` by public operations is consistent and has the
capacity `N`, which it does not exceed when `N > 0`. -/
theorem Inv_of_run (N : Int) (ops : List (Op V E × Int)) {c : Cache V E}
    {evs : List (Event V)} (h : run (New N : Cache V E) ops = some (c, evs)) :
    Inv c ∧ c.size = N ∧ Within c := by
  obtain ⟨c', evs', hr, hg, hw⟩ := Good_run "" ops (Inv_New (V := V) (E := E) N)
  rw [h] at hr
  simp only [Option.some.injEq, Prod.mk.injEq] at hr
  rw [hr.1]
  exact ⟨hg.1, hg.2.1, hw (Within_New N)⟩

/-- **C1** (capacity and LRU order under `Set`). For every capacity `N ≥ 1` and every
sequence of `Set` calls on pairwise distinct keys applied to `New(N)` (so with TTL 0),
at any times: every prefix of the sequence returns and leaves `Len() ≤ N`, and after the
whole sequence `Keys()` is, up to order, the list of the last `min(m, N)` keys set. -/
theorem C1_set_distinct_keeps_last (N : Int) (hN : 1 ≤ N) (kvs : List (String × V × Int))
    (hd : (kvs.map Prod.fst).Nodup) :
    (∀ j, ∃ c evs, run (New N : Cache V E) (setCalls (kvs.take j)) = some (c, evs) ∧
        (c.Len : Int) ≤ N) ∧
    ∃ c evs, run (New N : Cache V E) (setCalls kvs) = some (c, evs) ∧
      c.Keys.Perm ((kvs.map Prod.fst).drop (kvs.length - N.toNat)) := by
  constructor
  · intro j
    obtain ⟨c, evs, hr, hg, hw⟩ := Good_run "" (setCalls (E := E) (kvs.take j)) (Inv_New (V := V) N)
    refine ⟨c, evs, hr, ?_⟩
    have hs : c.size = N := hg.2.1
    have := hw (Within_New N) (by rw [hs]; omega)
    rw [hs] at this
    exact this
  · obtain ⟨c, evs, hr, hS, _, ho⟩ := run_sets_order (E := E) N hN kvs (New N)
      (Steady_New (Or.inr hN)) rfl hd (fun _ _ hm => by simp [order, view, New] at hm)
    refine ⟨c, evs, hr, ?_⟩
    have e : order (New N : Cache V E) = [] := rfl
    rw [e, List.append_nil] at ho
    refine (hS.1.keys_perm.trans ?_)
    rw [ho]
    have : List.take N.toNat (kvs.map Prod.fst).reverse
        = ((kvs.map Prod.fst).drop (kvs.length - N.toNat)).reverse := by
      rw [List.take_reverse]; simp
    rw [this]
    exact List.reverse_perm _

/-- Witness of C1: capacity 2 and `Set(a)`, `Set(b)`, `Set(c)`. -/
theorem C1_set_distinct_keeps_last_witness :
    (1 : Int) ≤ 2 ∧
    (([("a", 1, 0), ("b", 2, 0), ("c", 3, 0)] : List (String × Nat × Int)).map Prod.fst).Nodup ∧
    ((∀ j, ∃ c evs, run (New 2 : Cache Nat String)
          (setCalls (([("a", 1, 0), ("b", 2, 0), ("c", 3, 0)] : List (String × Nat × Int)).take j))
          = some (c, evs) ∧ (c.Len : Int) ≤ 2) ∧
      ∃ c evs, run (New 2 : Cache Nat String)
          (setCalls ([("a", 1, 0), ("b", 2, 0), ("c", 3, 0)] : List (String × Nat × Int)))
          = some (c, evs) ∧
        c.Keys.Perm ((([("a", 1, 0), ("b", 2, 0), ("c", 3, 0)] : List (String × Nat × Int)).map
          Prod.fst).drop
          (([("a", 1, 0), ("b", 2, 0), ("c", 3, 0)] : List (String × Nat × Int)).length
            - (2 : Int).toNat))) :=
  ⟨by decide, by decide,
    C1_set_distinct_keeps_last 2 (by decide) [("a", 1, 0), ("b", 2, 0), ("c", 3, 0)] (by decide)⟩

/-- **C2** (capacity is a hard ceiling). For a cache created by `New(N)` with `N > 0`,
every finite sequence of public operations, made at any times, returns, and the number
of stored items after it is at most `N`. -/
theorem C2_capacity_ceiling (N : Int) (hN : 0 < N) (ops : List (Op V E × Int)) :
    ∃ c evs, run (New N : Cache V E) ops = some (c, evs) ∧ (c.Len : Int) ≤ N := by
  obtain ⟨c, evs, hr, hg, hw⟩ := Good_run "" ops (Inv_New (V := V) (E := E) N)
  refine ⟨c, evs, hr, ?_⟩
  have hs : c.size = N := hg.2.1
  have := hw (Within_New N) (by rw [hs]; omega)
  rw [hs] at this
  exact this

/-- Witness of C2: capacity 1, two `Set` calls, a `Get` through a read callback and a `Sync`. -/
theorem C2_capacity_ceiling_witness :
    (0 : Int) < 1 ∧
    ∃ c evs, run (New 1 : Cache Nat String)
        [(Op.SetReadFunc (some (fun _ => Except.ok 7)), 0), (Op.Set "a" 1, 0), (Op.Set "b" 2, 5),
          (Op.Get "c", 9), (Op.Sync, 9)] = some (c, evs) ∧ (c.Len : Int) ≤ 1 :=
  ⟨by decide, C2_capacity_ceiling 1 (by decide) _⟩

end mcacheZero


namespace mcacheZero

variable {V E : Type}

/-! ## The entry pass without expiry -/

theorem Steady_entry {c : Cache V E} (h : Inv c) (he : c.expire = 0)
    (hs : c.size = 0 ∨ 1 ≤ c.size) (now : Int) : Steady (keep c (evictKeep c now)) := by
  refine ⟨Inv_keep h _, he, ?_⟩
  rcases hs with hz | h1
  · exact Or.inl hz
  · refine Or.inr ⟨h1, ?_⟩
    exact evictAct_size_le h now (by omega)

theorem Set_of_entry {c c1 : Cache V E} {e1 : List (Event V)} {now : Int}
    (h1 : c.evictAct now = some (c1, e1)) (h2 : c1.evictAct now = some (c1, []))
    (key : String) (value : V) {c' : Cache V E} {evs : List (Event V)}
    (h : c1.Set key value now = some (c', evs)) :
    c.Set key value now = some (c', e1 ++ evs) := by
  simp only [Cache.Set, h1, h2, List.nil_append] at h ⊢
  split at h
  · cases h
  · split at h
    · cases h
    · simp only [Option.some.injEq, Prod.mk.injEq] at h ⊢
      refine ⟨h.1, ?_⟩
      rw [← h.2]
      simp [List.append_assoc]

theorem Get_of_entry {c c1 : Cache V E} {e1 : List (Event V)} {now : Int}
    (h1 : c.evictAct now = some (c1, e1)) (h2 : c1.evictAct now = some (c1, []))
    (key : String) {r : Except (GetError E) V} {c' : Cache V E} {evs : List (Event V)}
    (h : c1.Get key now = some (r, c', evs)) :
    c.Get key now = some (r, c', e1 ++ evs) := by
  simp only [Cache.Get, h1, h2, List.nil_append] at h ⊢
  split at h
  · cases h
  · split at h
    · cases h
    · simp only [Option.some.injEq, Prod.mk.injEq] at h ⊢
      refine ⟨h.1, h.2.1, ?_⟩
      rw [← h.2.2]
      simp [List.append_assoc]

/-- After `Set(K, v)` without expiry the item at the front of the list is `(K, v)`, dirty. -/
theorem Set_steady_front {c : Cache V E} (h : Steady c) (K : String) (v : V) (now : Int) :
    ∃ c1 e1 it rest, c.Set K v now = some (c1, e1) ∧ Steady c1 ∧ view c1 = it :: rest ∧
      it.key = K ∧ it.value = v ∧ it.dirty = true := by
  cases hm : mapGet c.items K with
  | some a =>
    obtain ⟨it, hd, hk⟩ := h.1.deref_of_mapGet hm
    refine ⟨_, _, { it with value := v, dirty := true }, _, Set_present_steady h hm hd v now,
      Steady_touch h hm hd _ hk, view_touch h.1 hm hd _, hk, rfl, rfl⟩
  | none =>
    have hv := view_push_keep h (⟨K, v, 0, true⟩ : item V) hm
    rw [List.take_cons (room_pos h)] at hv
    exact ⟨_, _, ⟨K, v, 0, true⟩, _, Set_absent_steady h hm v now,
      Steady_push_keep h (⟨K, v, 0, true⟩ : item V) hm, hv, rfl, rfl, rfl⟩

/-- **C3** (`Set` then `Get` is a round trip). For every consistent cache state with
TTL 0 and capacity 0 or at least 1, every key `K` and value `v`, whether or not `K` was
present, `Set(K, v)` returns and the following `Get(K)` returns `(v, nil)` without
invoking the read callback. -/
theorem C3_set_get_roundtrip (c : Cache V E) (hI : Inv c) (he : c.expire = 0)
    (hs : c.size = 0 ∨ 1 ≤ c.size) (K : String) (v : V) (now now' : Int) :
    ∃ c1 e1 c2 e2, c.Set K v now = some (c1, e1) ∧
      c1.Get K now' = some (Except.ok v, c2, e2) ∧ ∀ ev ∈ e2, ev.isRead = false := by
  have hS := Steady_entry hI he hs now
  obtain ⟨c1, e1, it, rest, hset, hS1, hv, hk, hval, _⟩ := Set_steady_front hS K v now
  have hmem : it ∈ view c1 := by rw [hv]; exact List.mem_cons_self _ _
  obtain ⟨a, hm, hd⟩ := hS1.1.mem_view hmem
  rw [hk] at hm
  have hget := Get_present_steady hS1 hm hd now'
  rw [hval] at hget
  exact ⟨c1, _, touch c1 a it, [],
    Set_of_entry (evictAct_eq hI now) (evictAct_steady hS now) K v hset, hget,
    fun _ hx => by simp at hx⟩

/-- Witness of C3: `Set("a", 1)` on a full cache that holds another value for `"a"`. -/
theorem C3_set_get_roundtrip_witness :
    Inv sampleCache ∧ sampleCache.expire = 0 ∧ (sampleCache.size = 0 ∨ 1 ≤ sampleCache.size) ∧
    ∃ c1 e1 c2 e2, sampleCache.Set "a" 1 0 = some (c1, e1) ∧
      c1.Get "a" 5 = some (Except.ok 1, c2, e2) ∧ ∀ ev ∈ e2, ev.isRead = false :=
  ⟨by decide, rfl, Or.inr (by decide),
    C3_set_get_roundtrip sampleCache (by decide) rfl (Or.inr (by decide)) "a" 1 0 5⟩

/-- **C4** (`Get` is a touch for the LRU order). With TTL 0 and the store within its
capacity, `Get` of a stored key returns its value, puts its item at the front of the
recency list and leaves the other items in their order; on a full cache of capacity at
least 2 a following `Set` of a new key evicts the last of the other items and keeps the
key that was read. -/
theorem C4_get_touches (c : Cache V E) (hI : Inv c) (he : c.expire = 0)
    (hs : c.size = 0 ∨ (1 ≤ c.size ∧ (c.Len : Int) ≤ c.size)) (it : item V)
    (hit : it ∈ view c) (now : Int) :
    ∃ c1, c.Get it.key now = some (Except.ok it.value, c1, []) ∧
      view c1 = it :: (view c).filter (fun x => decide (x.key ≠ it.key)) ∧
      ∀ (K' : String) (v : V) (now' : Int), 2 ≤ c.size → (c.Len : Int) = c.size →
        K' ∉ c.Keys →
        ∃ c2 evs, c1.Set K' v now' = some (c2, evs) ∧
          view c2 = ⟨K', v, 0, true⟩ :: it ::
            ((view c).filter (fun x => decide (x.key ≠ it.key))).dropLast := by
  have hS : Steady c := ⟨hI, he, hs⟩
  obtain ⟨a, hm, hd⟩ := hI.mem_view hit
  have hS1 := Steady_touch hS hm hd it rfl
  have hv1 := view_touch hI hm hd it
  refine ⟨touch c a it, Get_present_steady hS hm hd now, hv1, ?_⟩
  intro K' v now' h2 hfull hK'
  have hk' : mapGet (touch c a it).items K' = none := mapGet_eq_none.2 hK'
  refine ⟨_, _, Set_absent_steady hS1 hk' v now', ?_⟩
  rw [view_push_keep hS1 (⟨K', v, 0, true⟩ : item V) hk', hv1]
  have hroom : room (touch c a it) = c.size.toNat := by
    unfold room
    have : (touch c a it).size = c.size := rfl
    rw [this, if_pos (by omega)]
  have hlen : ((view c).filter (fun x => decide (x.key ≠ it.key))).length + 1 = c.size.toNat := by
    have := view_length hS1.1
    rw [hv1, List.length_cons] at this
    have h3 : (touch c a it).evict.length = c.items.length := hS1.1.length_eq.symm
    have h4 : (c.Len : Int) = c.items.length := rfl
    omega
  rw [hroom, List.take_cons (by omega), List.take_cons (by omega), List.dropLast_eq_take]
  congr 3
  omega

/-- Witness of C4: `Get("a")` then `Set("c", 3)` on a full cache of capacity 2
holding `"b"` in front of `"a"`. -/
theorem C4_get_touches_witness :
    Inv sampleCache ∧ sampleCache.expire = 0 ∧
    (sampleCache.size = 0 ∨ (1 ≤ sampleCache.size ∧ (sampleCache.Len : Int) ≤ sampleCache.size)) ∧
    (⟨"a", 10, 0, true⟩ : item Nat) ∈ view sampleCache ∧
    ∃ c1, sampleCache.Get (⟨"a", 10, 0, true⟩ : item Nat).key 7
        = some (Except.ok (⟨"a", 10, 0, true⟩ : item Nat).value, c1, []) ∧
      view c1 = (⟨"a", 10, 0, true⟩ : item Nat) ::
        (view sampleCache).filter (fun x => decide (x.key ≠ (⟨"a", 10, 0, true⟩ : item Nat).key)) ∧
      ∀ (K' : String) (v : Nat) (now' : Int), 2 ≤ sampleCache.size →
        (sampleCache.Len : Int) = sampleCache.size → K' ∉ sampleCache.Keys →
        ∃ c2 evs, c1.Set K' v now' = some (c2, evs) ∧
          view c2 = ⟨K', v, 0, true⟩ :: (⟨"a", 10, 0, true⟩ : item Nat) ::
            ((view sampleCache).filter
              (fun x => decide (x.key ≠ (⟨"a", 10, 0, true⟩ : item Nat).key))).dropLast :=
  ⟨by decide, rfl, Or.inr (by decide), by decide,
    C4_get_touches sampleCache (by decide) rfl (Or.inr (by decide)) ⟨"a", 10, 0, true⟩
      (by decide) 7⟩

end mcacheZero


namespace mcacheZero

variable {V E : Type}

/-! ## What `Get` returns -/

theorem lookup_keep {c : Cache V E} (h : Inv c) {n : Nat} {K : String} {a : Nat}
    (hm : mapGet (keep c n).items K = some a) : mapGet c.items K = some a :=
  mapGet_of_mem h.1 (List.mem_of_mem_filter (mapGet_mem hm))

theorem not_mem_keys_keep {c : Cache V E} {n : Nat} {K : String} (hK : K ∉ c.Keys) :
    K ∉ (keep c n).Keys := by
  intro hx
  obtain ⟨p, hp, rfl⟩ := List.mem_map.1 hx
  exact hK (List.mem_map.2 ⟨p, List.mem_of_mem_filter hp, rfl⟩)

theorem mem_keys_of_mapGet {c : Cache V E} {K : String} {a : Nat}
    (hm : mapGet c.items K = some a) : K ∈ c.Keys :=
  List.mem_map.2 ⟨(K, a), mapGet_mem hm, rfl⟩

/-- **C5** (the result of `Get`). In every consistent state `Get(K)` returns; with `c1`
the state after the entry eviction pass, it returns the "Not found" error if and only if
`K` is absent from `c1` and no read callback is configured; if `K` is absent and a read
callback is configured it returns what the callback returns for `K` (its value, or its
own error with no value); if `K` is present it returns the stored value and no error. -/
theorem C5_get_result (c : Cache V E) (hI : Inv c) (K : String) (now : Int) :
    ∃ c1 e1 r c' evs, c.evictAct now = some (c1, e1) ∧ c.Get K now = some (r, c', evs) ∧
      (r = Except.error GetError.notFound ↔ (K ∉ c1.Keys ∧ c.readFunc = none)) ∧
      (K ∉ c1.Keys → ∀ fn, c.readFunc = some fn →
        r = (fn K).mapError GetError.readFailed) ∧
      (K ∈ c1.Keys → ∃ it ∈ view c1, it.key = K ∧ r = Except.ok it.value) := by
  have h1 := evictAct_eq hI now
  have hI1 := Inv_keep hI (evictKeep c now)
  cases hm : mapGet (keep c (evictKeep c now)).items K with
  | some a =>
    obtain ⟨it, hd, hk⟩ := hI1.deref_of_mapGet hm
    have hI2 := Inv_touch hI1 hm hd
      (if (keep c (evictKeep c now)).expire ≠ 0 then
        { it with expire := Unix (now + (keep c (evictKeep c now)).expire) } else it)
      (by split <;> exact hk)
    have hmem := mem_keys_of_mapGet hm
    refine ⟨_, _, Except.ok it.value, _, _, h1, Get_present h1 hm hd (evictAct_eq hI2 now),
      ?_, ?_, ?_⟩
    · constructor
      · intro e; cases e
      · intro e; exact absurd hmem e.1
    · intro e; exact absurd hmem e
    · intro _; exact ⟨it, hI1.view_mem hm hd, hk, rfl⟩
  | none =>
    have hnot : K ∉ (keep c (evictKeep c now)).Keys := mapGet_eq_none.1 hm
    cases hr : c.readFunc with
    | none =>
      refine ⟨_, _, _, _, _, h1, Get_absent_none h1 hm hr (evictAct_eq hI1 now), ?_, ?_, ?_⟩
      · exact ⟨fun _ => ⟨hnot, rfl⟩, fun _ => rfl⟩
      · intro _ fn hfn; cases hfn
      · intro e; exact absurd e hnot
    | some fn =>
      cases hf : fn K with
      | error err =>
        refine ⟨_, _, _, _, _, h1, Get_absent_error h1 hm hr hf (evictAct_eq hI1 now),
          ?_, ?_, ?_⟩
        · constructor
          · intro e; cases e
          · intro e; cases e.2
        · intro _ fn' hfn
          cases hfn
          rw [hf]; rfl
        · intro e; exact absurd e hnot
      | ok v =>
        obtain ⟨c2, e2, h2, g2, _⟩ :=
          Good_addItem hI1 True "" K v false now hm (fun _ _ => rfl)
        refine ⟨_, _, _, _, _, h1, Get_absent_ok h1 hm hr hf h2 (evictAct_eq g2.1 now),
          ?_, ?_, ?_⟩
        · constructor
          · intro e; cases e
          · intro e; cases e.2
        · intro _ fn' hfn
          cases hfn
          rw [hf]; rfl
        · intro e; exact absurd e hnot

/-- Witness of C5: `Get("a")` on a state that holds `"a"`. -/
theorem C5_get_result_witness :
    Inv sampleCache ∧
    ∃ c1 e1 r c' evs, sampleCache.evictAct 3 = some (c1, e1) ∧
      sampleCache.Get "a" 3 = some (r, c', evs) ∧
      (r = Except.error GetError.notFound ↔ ("a" ∉ c1.Keys ∧ sampleCache.readFunc = none)) ∧
      ("a" ∉ c1.Keys → ∀ fn, sampleCache.readFunc = some fn →
        r = (fn "a").mapError GetError.readFailed) ∧
      ("a" ∈ c1.Keys → ∃ it ∈ view c1, it.key = "a" ∧ r = Except.ok it.value) :=
  ⟨by decide, C5_get_result sampleCache (by decide) "a" 3⟩

/-! ## A failed `Get` -/

/-- Counterexample of C6: the state `expiringCache` is reached from `New(0)` and holds
`"a"`; `Get("b")` five seconds later fails with "Not found", and the store is empty
after the call. -/
theorem C6_failed_get_changes_store :
    run (New 0 : Cache Nat String)
        [(Op.SetExpireDuration 1000000000, 0), (Op.Set "a" 1, 0)] = some (expiringCache, []) ∧
    expiringCache.Get "b" 5000000000
      = some (Except.error GetError.notFound, expiringCache.Purge, []) ∧
    expiringCache.Keys = ["a"] ∧ expiringCache.Purge.Keys = [] ∧
    view expiringCache ≠ view expiringCache.Purge :=
  ⟨rfl, rfl, rfl, rfl, by decide⟩

/-- **C6, amended** (a failed `Get` only evicts). If `Get(K)` returns an error in a
consistent state, the state after the call is the state after two eviction passes, the one
at entry and the deferred one, each at its own reading of the clock (the deferred pass reads
it after the read callback has run): no item for `K` has been inserted, no item has been
allocated or rewritten, the only callback invocations besides the read are the writes of
the two passes, and when neither pass finds anything to evict the cache is unchanged. -/
theorem C6_failed_get_only_evicts (c : Cache V E) (hI : Inv c) (K : String) (clk : Clock)
    (err : GetError E) (c' : Cache V E) (evs : List (Event V))
    (hget : c.GetAt K clk = some (Except.error err, c', evs)) :
    ∃ c1 e1 e3, c.evictAct clk.entry = some (c1, e1) ∧ c1.evictAct clk.last = some (c', e3) ∧
      evs = e1 ++ (c.readFunc.map (fun _ => Event.read K)).toList ++ e3 ∧
      K ∉ c'.Keys ∧ c'.heap = c.heap ∧
      (c.evictAct clk.entry = some (c, []) → c.evictAct clk.last = some (c, []) → c' = c) := by
  have h1 := evictAct_eq hI clk.entry
  have hI1 := Inv_keep hI (evictKeep c clk.entry)
  have h3 := evictAct_eq hI1 clk.last
  have main : K ∉ (keep c (evictKeep c clk.entry)).Keys ∧
      c' = keep (keep c (evictKeep c clk.entry))
        (evictKeep (keep c (evictKeep c clk.entry)) clk.last) ∧
      evs = evictEvents c (evictKeep c clk.entry)
        ++ (c.readFunc.map (fun _ => Event.read K)).toList
        ++ evictEvents (keep c (evictKeep c clk.entry))
            (evictKeep (keep c (evictKeep c clk.entry)) clk.last) := by
    cases hm : mapGet (keep c (evictKeep c clk.entry)).items K with
    | some a =>
      obtain ⟨it, hd, hk⟩ := hI1.deref_of_mapGet hm
      have hI2 := Inv_touch hI1 hm hd
        (if (keep c (evictKeep c clk.entry)).expire ≠ 0 then
          { it with expire := Unix (clk.stamp + (keep c (evictKeep c clk.entry)).expire) }
        else it)
        (by split <;> exact hk)
      rw [GetAt_present h1 hm hd (evictAct_eq hI2 clk.last)] at hget
      simp only [Option.some.injEq, Prod.mk.injEq] at hget
      cases hget.1
    | none =>
      have hnot : K ∉ (keep c (evictKeep c clk.entry)).Keys := mapGet_eq_none.1 hm
      cases hr : c.readFunc with
      | none =>
        rw [GetAt_absent_none h1 hm hr h3] at hget
        simp only [Option.some.injEq, Prod.mk.injEq] at hget
        refine ⟨hnot, hget.2.1.symm, ?_⟩
        rw [← hget.2.2]
        simp
      | some fn =>
        cases hf : fn K with
        | error e =>
          rw [GetAt_absent_error h1 hm hr hf h3] at hget
          simp only [Option.some.injEq, Prod.mk.injEq] at hget
          refine ⟨hnot, hget.2.1.symm, ?_⟩
          rw [← hget.2.2]
          simp
        | ok v =>
          have hIp := Inv_push hI1 (⟨K, v,
            if (keep c (evictKeep c clk.entry)).expire ≠ 0 then
              Unix (clk.stamp + (keep c (evictKeep c clk.entry)).expire) else 0,
            false⟩ : item V) hm
          have h2 := (addItemAt_eq (keep c (evictKeep c clk.entry)) K v false clk.stamp
            clk.added).trans (evictAct_eq hIp clk.added)
          rw [GetAt_absent_ok h1 hm hr hf h2 (evictAct_eq (Inv_keep hIp _) clk.last)] at hget
          simp only [Option.some.injEq, Prod.mk.injEq] at hget
          cases hget.1
  obtain ⟨hnot, hc', hevs⟩ := main
  refine ⟨_, _, _, h1, by rw [hc']; exact h3, hevs, ?_, by rw [hc']; rfl, ?_⟩
  · rw [hc']; exact not_mem_keys_keep hnot
  · intro hnoop1 hnoop2
    rw [hnoop1] at h1
    simp only [Option.some.injEq, Prod.mk.injEq] at h1
    rw [← h1.1] at h3 hc'
    rw [hnoop2] at h3
    simp only [Option.some.injEq, Prod.mk.injEq] at h3
    rw [hc', ← h3.1]

/-- Witness of C6, amended: the failed `Get("b")` on `expiringCache` whose eviction pass at
entry reads the clock at 0.5 s and whose deferred pass reads it at 5.5 s. -/
theorem C6_failed_get_only_evicts_witness :
    Inv expiringCache ∧
    expiringCache.GetAt "b" ⟨500000000, 500000000, 500000000, 5500000000⟩
      = some (Except.error GetError.notFound, expiringCache.Purge, []) ∧
    ∃ c1 e1 e3, expiringCache.evictAct 500000000 = some (c1, e1) ∧
      c1.evictAct 5500000000 = some (expiringCache.Purge, e3) ∧
      ([] : List (Event Nat))
        = e1 ++ (expiringCache.readFunc.map (fun _ => Event.read "b")).toList ++ e3 ∧
      "b" ∉ expiringCache.Purge.Keys ∧ expiringCache.Purge.heap = expiringCache.heap ∧
      (expiringCache.evictAct 500000000 = some (expiringCache, []) →
        expiringCache.evictAct 5500000000 = some (expiringCache, []) →
        expiringCache.Purge = expiringCache) :=
  ⟨by decide, rfl,
    C6_failed_get_only_evicts expiringCache (by decide) "b"
      ⟨500000000, 500000000, 500000000, 5500000000⟩ GetError.notFound
      expiringCache.Purge [] rfl⟩

end mcacheZero


namespace mcacheZero

variable {V E : Type}

/-! ## The events of an eviction pass -/

theorem mem_evictEvents_drop {c : Cache V E} {n : Nat} {ev : Event V}
    (h : ev ∈ evictEvents c n) : ∃ a ∈ c.evict.drop n, ev ∈ writeOf c a := by
  unfold evictEvents at h
  simp only [List.mem_flatMap, List.mem_reverse] at h
  exact h

theorem evictEvents_isRead (c : Cache V E) (n : Nat) :
    (evictEvents c n).filter Event.isRead = [] := by
  rw [List.filter_eq_nil_iff]
  intro ev hev
  obtain ⟨a, _, hw⟩ := mem_evictEvents hev
  obtain ⟨it, _, _, _, _, e⟩ := mem_writeOf hw
  rw [e]; simp [Event.isRead]

theorem evictEvents_of_mode {c : Cache V E} (hm : c.writeMode ≠ writeEvict) (n : Nat) :
    evictEvents c n = [] := by
  rw [List.eq_nil_iff_forall_not_mem]
  intro ev hev
  obtain ⟨a, _, hw⟩ := mem_evictEvents hev
  obtain ⟨it, _, _, hmode, _, _⟩ := mem_writeOf hw
  exact hm hmode

theorem lookup_push_self (c : Cache V E) (newdata : item V) :
    mapGet (push c newdata).items newdata.key = some c.heap.length := by
  simp [push, mapSet, mapGet]

theorem evictAct_ex {c : Cache V E} (h : Inv c) (now : Int) :
    ∃ n, c.evictAct now = some (keep c n, evictEvents c n) :=
  ⟨_, evictAct_eq h now⟩

theorem addItem_ex {c : Cache V E} (h : Inv c) {key : String}
    (hm : mapGet c.items key = none) (value : V) (dirty : Bool) (now : Int) :
    ∃ x n, Inv (push c ⟨key, value, x, dirty⟩) ∧
      c.addItem key value dirty now
        = some (keep (push c ⟨key, value, x, dirty⟩) n,
                evictEvents (push c ⟨key, value, x, dirty⟩) n) := by
  have hI := Inv_push h (⟨key, value, if c.expire ≠ 0 then Unix (now + c.expire) else 0,
    dirty⟩ : item V) hm
  exact ⟨_, _, hI, by rw [addItem_eq]; exact evictAct_eq hI now⟩

/-! ## Stored values -/

theorem Stored_keep {c : Cache V E} (h : Inv c) {K : String} {v : V} (hs : Stored K v c)
    (n : Nat) : Stored K v (keep c n) :=
  fun a it hm hd => hs a it (lookup_keep h hm) hd

theorem Stored_push_self (c : Cache V E) (newdata : item V) :
    Stored newdata.key newdata.value (push c newdata) := by
  intro a it hm hd
  rw [lookup_push_self] at hm
  cases hm
  rw [deref_push_new] at hd
  cases hd
  rfl

theorem Clean_push_self (c : Cache V E) (newdata : item V) (hn : newdata.dirty = false) :
    Clean newdata.key (push c newdata) := by
  intro a it hm hd
  rw [lookup_push_self] at hm
  cases hm
  rw [deref_push_new] at hd
  cases hd
  exact hn

/-- A `Get` of a key whose stored value is `v`, when the key survives the entry pass. -/
theorem Get_stored {c : Cache V E} (hI : Inv c) {K : String} {v : V} (hs : Stored K v c)
    (now : Int) {c1 : Cache V E} {e1 : List (Event V)} (hev : c.evictAct now = some (c1, e1))
    (hK : K ∈ c1.Keys) :
    ∃ c2 e2, c.Get K now = some (Except.ok v, c2, e2) ∧ e2.filter Event.isRead = [] := by
  obtain ⟨n, h1⟩ := evictAct_ex hI now
  rw [h1] at hev
  simp only [Option.some.injEq, Prod.mk.injEq] at hev
  rw [← hev.1] at hK
  have hI1 := Inv_keep hI n
  cases hm : mapGet (keep c n).items K with
  | none => exact absurd hK (mapGet_eq_none.1 hm)
  | some a =>
    obtain ⟨it, hd, hk⟩ := hI1.deref_of_mapGet hm
    have hval : it.value = v := Stored_keep hI hs n a it hm hd
    obtain ⟨n3, h3⟩ := evictAct_ex (Inv_touch hI1 hm hd
      (if (keep c n).expire ≠ 0 then { it with expire := Unix (now + (keep c n).expire) }
        else it) (by split <;> exact hk)) now
    refine ⟨_, _, hval ▸ Get_present h1 hm hd h3, ?_⟩
    rw [List.filter_append, evictEvents_isRead, evictEvents_isRead]
    rfl

/-! ## Read-through -/

/-- A `Get` that reads an absent key through the callback. -/
theorem Get_read_through {c : Cache V E} (hI : Inv c) {K : String}
    {fn : String → Except E V} {v : V} (hr : c.readFunc = some fn) (hf : fn K = Except.ok v)
    (now : Int) {n : Nat} (h1 : c.evictAct now = some (keep c n, evictEvents c n))
    (hm : mapGet (keep c n).items K = none) :
    ∃ c1 e1, c.Get K now = some (Except.ok v, c1, e1) ∧ Inv c1 ∧ Stored K v c1 ∧
      Clean K c1 ∧ e1.filter Event.isRead = [Event.read K] := by
  have hI1 := Inv_keep hI n
  obtain ⟨x, n2, hIp, h2⟩ := addItem_ex hI1 hm v false now
  have hI2 := Inv_keep hIp n2
  obtain ⟨n3, h3⟩ := evictAct_ex hI2 now
  refine ⟨_, _, Get_absent_ok h1 hm hr hf h2 h3, Inv_keep hI2 n3, ?_, ?_, ?_⟩
  · exact Stored_keep hI2 (Stored_keep hIp (Stored_push_self _ ⟨K, v, x, false⟩) n2) n3
  · exact Clean_keep hI2 (Clean_keep hIp (Clean_push_self _ ⟨K, v, x, false⟩ rfl) n2) n3
  · simp [List.filter_append, List.filter_cons, evictEvents_isRead, Event.isRead]

/-- **C7** (read-through is performed once). With a read callback that returns `v` for
`K`, and `K` absent, the first `Get(K)` returns `v` and invokes the read callback exactly
once, for `K`; a second `Get(K)`, at any time at which `K` is still stored when the call
looks it up, returns `v` and does not invoke the read callback; with TTL 0 and capacity
0 or at least 1 the key is still stored at every later time. -/
theorem C7_read_through_once (c : Cache V E) (hI : Inv c) (K : String)
    (fn : String → Except E V) (v : V) (hr : c.readFunc = some fn) (hf : fn K = Except.ok v)
    (habs : K ∉ c.Keys) (now : Int) :
    ∃ c1 e1, c.Get K now = some (Except.ok v, c1, e1) ∧
      e1.filter Event.isRead = [Event.read K] ∧
      (∀ (now2 : Int) (c1' : Cache V E) (e1' : List (Event V)),
        c1.evictAct now2 = some (c1', e1') → K ∈ c1'.Keys →
        ∃ c2 e2, c1.Get K now2 = some (Except.ok v, c2, e2) ∧ e2.filter Event.isRead = []) ∧
      (c.expire = 0 → (c.size = 0 ∨ 1 ≤ c.size) → ∀ (now2 : Int),
        ∃ c2 e2, c1.Get K now2 = some (Except.ok v, c2, e2) ∧ e2.filter Event.isRead = []) := by
  obtain ⟨n, h1⟩ := evictAct_ex hI now
  have hm : mapGet (keep c n).items K = none := mapGet_eq_none.2 (not_mem_keys_keep habs)
  obtain ⟨c1, e1, hget, hI1, hst, _, hev⟩ := Get_read_through hI hr hf now h1 hm
  refine ⟨c1, e1, hget, hev, fun now2 c1' e1' h hK => Get_stored hI1 hst now2 h hK, ?_⟩
  intro he hs now2
  have hS0 := Steady_entry hI he hs now
  have hm0 : mapGet (keep c (evictKeep c now)).items K = none :=
    mapGet_eq_none.2 (not_mem_keys_keep habs)
  have hget0 := Get_of_entry (evictAct_eq hI now) (evictAct_steady hS0 now) K
    (Get_absent_ok_steady hS0 hm0 hr hf now)
  rw [hget] at hget0
  simp only [Option.some.injEq, Prod.mk.injEq, true_and] at hget0
  have hS1 : Steady c1 := by
    rw [hget0.1]; exact Steady_push_keep hS0 (⟨K, v, 0, false⟩ : item V) hm0
  have hmem : (⟨K, v, 0, false⟩ : item V) ∈ view c1 := by
    rw [hget0.1, view_push_keep hS0 (⟨K, v, 0, false⟩ : item V) hm0,
      List.take_cons (room_pos hS0)]
    exact List.mem_cons_self _ _
  obtain ⟨a, hma, hda⟩ := hS1.1.mem_view hmem
  exact ⟨_, _, Get_present_steady hS1 hma hda now2, rfl⟩

/-- Witness of C7: `Get("k")` on the empty `backedCache`, whose read callback returns 7. -/
theorem C7_read_through_once_witness :
    Inv backedCache ∧ backedCache.readFunc = some (fun _ => Except.ok 7) ∧
    (fun _ => Except.ok 7 : String → Except String Nat) "k" = Except.ok 7 ∧
    "k" ∉ backedCache.Keys ∧
    ∃ c1 e1, backedCache.Get "k" 0 = some (Except.ok 7, c1, e1) ∧
      e1.filter Event.isRead = [Event.read "k"] ∧
      (∀ (now2 : Int) (c1' : Cache Nat String) (e1' : List (Event Nat)),
        c1.evictAct now2 = some (c1', e1') → "k" ∈ c1'.Keys →
        ∃ c2 e2, c1.Get "k" now2 = some (Except.ok 7, c2, e2) ∧ e2.filter Event.isRead = []) ∧
      (backedCache.expire = 0 → (backedCache.size = 0 ∨ 1 ≤ backedCache.size) →
        ∀ (now2 : Int),
        ∃ c2 e2, c1.Get "k" now2 = some (Except.ok 7, c2, e2) ∧ e2.filter Event.isRead = []) :=
  ⟨by decide, rfl, rfl, by decide,
    C7_read_through_once backedCache (by decide) "k" (fun _ => Except.ok 7) 7 rfl rfl
      (by decide) 0⟩

/-- **C8** (an item read through the callback is clean). If `Get(K)` succeeds through
the read callback, then after it no sequence of public operations without a `Set(K, _)`,
in particular `Remove(K)`, `Flush`, an eviction or `Sync`, in any write mode, schedules
a write for `K`. -/
theorem C8_read_through_clean (c : Cache V E) (hI : Inv c) (K : String) (now : Int) (v : V)
    (c1 : Cache V E) (e1 : List (Event V))
    (hget : c.Get K now = some (Except.ok v, c1, e1)) (hread : Event.read K ∈ e1)
    (ops : List (Op V E × Int)) (hops : ∀ op ∈ ops, ∀ v', op.1 ≠ Op.Set K v') :
    ∃ c2 e2, run c1 ops = some (c2, e2) ∧ ∀ v', Event.write K v' ∉ e2 := by
  have key : Inv c1 ∧ Clean K c1 := by
    obtain ⟨n, h1⟩ := evictAct_ex hI now
    have hI1 := Inv_keep hI n
    cases hm : mapGet (keep c n).items K with
    | some a =>
      obtain ⟨it, hd, hk⟩ := hI1.deref_of_mapGet hm
      obtain ⟨n3, h3⟩ := evictAct_ex (Inv_touch hI1 hm hd
        (if (keep c n).expire ≠ 0 then { it with expire := Unix (now + (keep c n).expire) }
          else it) (by split <;> exact hk)) now
      rw [Get_present h1 hm hd h3] at hget
      simp only [Option.some.injEq, Prod.mk.injEq] at hget
      rw [← hget.2.2] at hread
      have : (Event.read K : Event V) ∈ List.filter Event.isRead
          (evictEvents c n ++ evictEvents _ n3) :=
        List.mem_filter.2 ⟨hread, rfl⟩
      rw [List.filter_append, evictEvents_isRead, evictEvents_isRead] at this
      simp at this
    | none =>
      cases hr : c.readFunc with
      | none =>
        obtain ⟨n3, h3⟩ := evictAct_ex hI1 now
        rw [Get_absent_none h1 hm hr h3] at hget
        simp only [Option.some.injEq, Prod.mk.injEq] at hget
        cases hget.1
      | some fn =>
        cases hf : fn K with
        | error err =>
          obtain ⟨n3, h3⟩ := evictAct_ex hI1 now
          rw [Get_absent_error h1 hm hr hf h3] at hget
          simp only [Option.some.injEq, Prod.mk.injEq] at hget
          cases hget.1
        | ok v' =>
          obtain ⟨c1', e1', hget', hI1', _, hcl, _⟩ := Get_read_through hI hr hf now h1 hm
          rw [hget'] at hget
          simp only [Option.some.injEq, Prod.mk.injEq] at hget
          rw [← hget.2.1]
          exact ⟨hI1', hcl⟩
  obtain ⟨c2, e2, hr, hg, _⟩ := Good_run K ops key.1
  exact ⟨c2, e2, hr, (hg.2.2 hops key.2).2⟩

/-- Witness of C8: after the read-through `Get("k")` on `backedCache`, the calls `Sync`,
`EvictAct`, `Remove("k")` and `Flush` schedule no write for `"k"`. -/
theorem C8_read_through_clean_witness :
    Inv backedCache ∧
    backedCache.Get "k" 0 = some (Except.ok 7, backedCacheRead, [Event.read "k"]) ∧
    Event.read "k" ∈ [(Event.read "k" : Event Nat)] ∧
    (∀ op ∈ ([(Op.Sync, 1), (Op.EvictAct, 2), (Op.Remove "k", 3), (Op.Flush, 4)] :
        List (Op Nat String × Int)), ∀ v', op.1 ≠ Op.Set "k" v') ∧
    ∃ c2 e2, run backedCacheRead
        ([(Op.Sync, 1), (Op.EvictAct, 2), (Op.Remove "k", 3), (Op.Flush, 4)] :
          List (Op Nat String × Int)) = some (c2, e2) ∧
      ∀ v', Event.write "k" v' ∉ e2 :=
  ⟨by decide, rfl, by simp, by simp,
    C8_read_through_clean backedCache (by decide) "k" 0 7 backedCacheRead [Event.read "k"] rfl
      (by simp) _ (by simp)⟩

end mcacheZero


namespace mcacheZero

variable {V E : Type}

/-! ## The write policy -/

theorem writeAlways_ne_writeEvict : writeAlways ≠ writeEvict := by decide

theorem evictAct_ex_mode {c : Cache V E} (h : Inv c) (hne : c.writeMode ≠ writeEvict)
    (now : Int) : ∃ n, c.evictAct now = some (keep c n, []) := by
  obtain ⟨n, hn⟩ := evictAct_ex h now
  rw [evictEvents_of_mode hne] at hn
  exact ⟨n, hn⟩

theorem addItem_ex_mode {c : Cache V E} (h : Inv c) (hne : c.writeMode ≠ writeEvict)
    {key : String} (hm : mapGet c.items key = none) (value : V) (dirty : Bool) (now : Int) :
    ∃ x n, Inv (push c ⟨key, value, x, dirty⟩) ∧
      c.addItem key value dirty now = some (keep (push c ⟨key, value, x, dirty⟩) n, []) := by
  obtain ⟨x, n, hI, hn⟩ := addItem_ex h hm value dirty now
  rw [evictEvents_of_mode (c := push c ⟨key, value, x, dirty⟩) hne] at hn
  exact ⟨x, n, hI, hn⟩

/-- **C9** (write-always). In every consistent state in write-always mode with a write
callback configured, `Set(K, v)` returns and schedules exactly one callback invocation,
the write of `(K, v)`: its eviction passes schedule no write. -/
theorem C9_write_always (c : Cache V E) (hI : Inv c) (hmode : c.writeMode = writeAlways)
    (hw : c.writeFunc = true) (K : String) (v : V) (now : Int) :
    ∃ c', c.Set K v now = some (c', [Event.write K v]) := by
  have hne : c.writeMode ≠ writeEvict := by rw [hmode]; exact writeAlways_ne_writeEvict
  obtain ⟨n, h1⟩ := evictAct_ex_mode hI hne now
  have hI1 := Inv_keep hI n
  cases hm : mapGet (keep c n).items K with
  | some a =>
    obtain ⟨it, hd, hk⟩ := hI1.deref_of_mapGet hm
    obtain ⟨n3, h3⟩ := evictAct_ex_mode (Inv_touch hI1 hm hd
      (if (keep c n).expire ≠ 0 then
          { it with value := v, dirty := true, expire := Unix (now + (keep c n).expire) }
        else { it with value := v, dirty := true }) (by split <;> exact hk)) hne now
    have hset := Set_present h1 hm hd h3
    have hc : (keep c n).writeMode = writeAlways ∧ (keep c n).writeFunc = true := ⟨hmode, hw⟩
    rw [if_pos hc] at hset
    exact ⟨_, hset⟩
  | none =>
    obtain ⟨x, n2, hIp, h2⟩ := addItem_ex_mode hI1 hne hm v true now
    obtain ⟨n3, h3⟩ := evictAct_ex_mode (Inv_keep hIp n2) hne now
    have hset := Set_absent h1 hm h2 h3
    have hc : (keep (push (keep c n) (⟨K, v, x, true⟩ : item V)) n2).writeMode = writeAlways ∧
        (keep (push (keep c n) (⟨K, v, x, true⟩ : item V)) n2).writeFunc = true := ⟨hmode, hw⟩
    rw [if_pos hc] at hset
    exact ⟨_, hset⟩

/-- Witness of C9: `Set("c", 3)` on a full cache in write-always mode. -/
theorem C9_write_always_witness :
    Inv sampleCache.SetWriteAlways ∧ sampleCache.SetWriteAlways.writeMode = writeAlways ∧
    sampleCache.SetWriteAlways.writeFunc = true ∧
    ∃ c', sampleCache.SetWriteAlways.Set "c" 3 0 = some (c', [Event.write "c" 3]) :=
  ⟨by decide, rfl, rfl, C9_write_always sampleCache.SetWriteAlways (by decide) rfl rfl "c" 3 0⟩

/-- What `Set(K, v)` does without expiry and within the capacity. -/
theorem Set_steady_spec {c : Cache V E} (h : Steady c) (K : String) (v : V) (now : Int) :
    ∃ c1 e1 a it, c.Set K v now = some (c1, e1) ∧ Steady c1 ∧
      mapGet c1.items K = some a ∧ c1.deref a = some it ∧
      it.key = K ∧ it.value = v ∧ it.dirty = true ∧
      c1.writeMode = c.writeMode ∧ c1.writeFunc = c.writeFunc ∧
      (c.writeMode = writeEvict →
        (∀ ev ∈ e1, Event.isWriteFor K ev = false) ∧
        (c.size = 0 ∨ K ∈ c.Keys ∨ (c.Len : Int) < c.size → e1 = [])) := by
  have hif : c.writeMode = writeEvict →
      (if c.writeMode = writeAlways ∧ c.writeFunc = true then [Event.write K v] else []) = [] := by
    intro hm
    rw [if_neg]
    intro hc
    rw [hm] at hc
    exact writeAlways_ne_writeEvict hc.1.symm
  cases hm : mapGet c.items K with
  | some a =>
    obtain ⟨it, hd, hk⟩ := h.1.deref_of_mapGet hm
    refine ⟨_, _, a, { it with value := v, dirty := true }, Set_present_steady h hm hd v now,
      Steady_touch h hm hd _ hk, hm, ?_, hk, rfl, rfl, rfl, rfl, ?_⟩
    · rw [deref_touch c hd, if_pos rfl]
    · intro hmode
      rw [hif hmode]
      exact ⟨fun _ hx => by simp at hx, fun _ => rfl⟩
  | none =>
    have hS1 := Steady_push_keep h (⟨K, v, 0, true⟩ : item V) hm
    have hv := view_push_keep h (⟨K, v, 0, true⟩ : item V) hm
    rw [List.take_cons (room_pos h)] at hv
    have hmem : (⟨K, v, 0, true⟩ : item V) ∈ view (keep (push c ⟨K, v, 0, true⟩) (room c)) := by
      rw [hv]; exact List.mem_cons_self _ _
    obtain ⟨a, hma, hda⟩ := hS1.1.mem_view hmem
    refine ⟨_, _, a, ⟨K, v, 0, true⟩, Set_absent_steady h hm v now, hS1, hma, hda,
      rfl, rfl, rfl, rfl, rfl, ?_⟩
    intro hmode
    rw [hif hmode, List.append_nil]
    constructor
    · intro ev hev
      obtain ⟨b, hb, hwb⟩ := mem_evictEvents_drop hev
      obtain ⟨it, hdb, _, _, _, e⟩ := mem_writeOf hwb
      have hb' : b ∈ c.evict := by
        have : (push c (⟨K, v, 0, true⟩ : item V)).evict = c.heap.length :: c.evict := rfl
        rw [this] at hb
        have hr := room_pos h
        obtain ⟨m, hm'⟩ : ∃ m, room c = m + 1 := ⟨room c - 1, by omega⟩
        rw [hm', List.drop_succ_cons] at hb
        exact List.mem_of_mem_drop hb
      rw [deref_push_old c _ (h.1.addr_lt hb')] at hdb
      obtain ⟨it', hd', hm'⟩ := h.1.deref_of_mem_evict hb'
      rw [hdb] at hd'; cases hd'
      have hne : it.key ≠ K := by
        intro e'; rw [e', hm] at hm'; cases hm'
      rw [e]
      simp [Event.isWriteFor, hne]
    · intro hcase
      apply evictEvents_of_le
      have hl : (push c (⟨K, v, 0, true⟩ : item V)).evict.length = c.evict.length + 1 := by
        simp [push, list.PushFront]
      rw [hl]
      unfold room
      have hlen := h.1.length_eq
      have hLen : c.Len = c.items.length := rfl
      rcases hcase with hz | hK | hlt
      · rw [if_neg (by simp [hz])]
      · exact absurd hK (mapGet_eq_none.1 hm)
      · rw [if_pos (by omega)]; omega

end mcacheZero


namespace mcacheZero

variable {V E : Type}

/-! ## The shape of `Set`, `Get` and `Delete` -/

theorem SameConfig_refl (c : Cache V E) : SameConfig c c := ⟨rfl, rfl, rfl, rfl, rfl, rfl⟩

theorem SameConfig_trans {c c1 c2 : Cache V E} (h1 : SameConfig c c1) (h2 : SameConfig c1 c2) :
    SameConfig c c2 :=
  ⟨h2.1.trans h1.1, h2.2.1.trans h1.2.1, h2.2.2.1.trans h1.2.2.1,
    h2.2.2.2.1.trans h1.2.2.2.1, h2.2.2.2.2.1.trans h1.2.2.2.2.1,
    h2.2.2.2.2.2.trans h1.2.2.2.2.2⟩

theorem evictEvents_all_write (c : Cache V E) (n : Nat) :
    ∀ ev ∈ evictEvents c n, ev.isWrite = true := by
  intro ev hev
  obtain ⟨a, _, hw⟩ := mem_evictEvents hev
  obtain ⟨it, _, _, _, _, e⟩ := mem_writeOf hw
  rw [e]; rfl

theorem evictEvents_isDelete (c : Cache V E) (n : Nat) :
    (evictEvents c n).filter Event.isDelete = [] := by
  rw [List.filter_eq_nil_iff]
  intro ev hev
  obtain ⟨a, _, hw⟩ := mem_evictEvents hev
  obtain ⟨it, _, _, _, _, e⟩ := mem_writeOf hw
  rw [e]; simp [Event.isDelete]

theorem mem_keys_of_keep {c : Cache V E} {n : Nat} {K : String} (hK : K ∈ (keep c n).Keys) :
    K ∈ c.Keys := by
  by_contra hn
  exact not_mem_keys_keep hn hK

theorem no_write_of_absent {c : Cache V E} (h : Inv c) {K : String} (hK : K ∉ c.Keys)
    (n : Nat) (v : V) : Event.write K v ∉ evictEvents c n := by
  intro hmem
  obtain ⟨a, ha, hev⟩ := mem_evictEvents hmem
  obtain ⟨it, hd, _, _, _, he⟩ := mem_writeOf hev
  obtain ⟨it', hd', hm⟩ := h.deref_of_mem_evict ha
  rw [hd] at hd'; cases hd'
  cases he
  exact hK (mem_keys_of_mapGet hm)

theorem no_write_of_kept {c : Cache V E} (h : Inv c) {K : String} {n : Nat}
    (hK : K ∈ (keep c n).Keys) (v : V) : Event.write K v ∉ evictEvents c n := by
  intro hmem
  obtain ⟨a, ha, hev⟩ := mem_evictEvents_drop hmem
  obtain ⟨it, hd, _, _, _, he⟩ := mem_writeOf hev
  obtain ⟨it', hd', hm⟩ := h.deref_of_mem_evict (List.mem_of_mem_drop ha)
  rw [hd] at hd'; cases hd'
  cases he
  obtain ⟨p, hp, hpk⟩ := List.mem_map.1 hK
  have hp' : p ∈ c.items ∧ p.2 ∈ c.evict.take n := by
    simpa [keep] using hp
  have hm2 : mapGet c.items p.1 = some p.2 := mapGet_of_mem h.1 hp'.1
  rw [hpk, hm] at hm2
  cases hm2
  have hnd : (c.evict.take n ++ c.evict.drop n).Nodup := by
    rw [List.take_append_drop]; exact h.2.1
  exact (List.nodup_append.1 hnd).2.2 hp'.2 ha

theorem Set_shape {c : Cache V E} (hI : Inv c) (K : String) (v : V) (now : Int) :
    ∃ c2 e2, Inv c2 ∧ SameConfig c c2 ∧ (K ∈ c2.Keys → ∀ v', Event.write K v' ∉ e2) ∧
      (∀ k, k ∈ c2.Keys → k = K ∨ k ∈ (keep c (evictKeep c now)).Keys) ∧
      c.Set K v now
        = some (keep c2 (evictKeep c2 now),
            evictEvents c (evictKeep c now) ++ e2
              ++ (if c.writeMode = writeAlways ∧ c.writeFunc = true
                    then [Event.write K v] else [])
              ++ evictEvents c2 (evictKeep c2 now)) := by
  have h1 := evictAct_eq hI now
  have hI1 := Inv_keep hI (evictKeep c now)
  cases hm : mapGet (keep c (evictKeep c now)).items K with
  | some a =>
    obtain ⟨it, hd, hk⟩ := hI1.deref_of_mapGet hm
    have hI2 := Inv_touch hI1 hm hd
      (if (keep c (evictKeep c now)).expire ≠ 0 then
          { it with value := v, dirty := true,
                    expire := Unix (now + (keep c (evictKeep c now)).expire) }
        else { it with value := v, dirty := true }) (by split <;> exact hk)
    refine ⟨_, [], hI2, SameConfig_refl c, fun _ _ hx => by simp at hx,
      fun k hk => Or.inr hk, ?_⟩
    rw [Set_present h1 hm hd (evictAct_eq hI2 now)]
    simp
    rfl
  | none =>
    have hIp := Inv_push hI1 (⟨K, v, if (keep c (evictKeep c now)).expire ≠ 0 then
        Unix (now + (keep c (evictKeep c now)).expire) else 0, true⟩ : item V) hm
    have h2 := (addItem_eq (keep c (evictKeep c now)) K v true now).trans (evictAct_eq hIp now)
    have hI2 := Inv_keep hIp (evictKeep (push (keep c (evictKeep c now))
      (⟨K, v, if (keep c (evictKeep c now)).expire ≠ 0 then
        Unix (now + (keep c (evictKeep c now)).expire) else 0, true⟩ : item V)) now)
    have hset := Set_absent h1 hm h2 (evictAct_eq hI2 now)
    refine ⟨_, _, hI2, SameConfig_refl c, fun hK v' => no_write_of_kept hIp hK v', ?_, hset⟩
    intro k hk
    have hk' := mem_keys_of_keep hk
    obtain ⟨p, hp, hpk⟩ := List.mem_map.1 hk'
    simp only [push, mapSet, List.mem_cons] at hp
    rcases hp with rfl | hp
    · exact Or.inl hpk.symm
    · exact Or.inr (List.mem_map.2 ⟨p, (mem_mapDelete.1 hp).1, hpk⟩)

theorem Delete_shape {c : Cache V E} (hI : Inv c) (K : String) (now : Int) :
    ∃ c2, Inv c2 ∧ SameConfig c c2 ∧ K ∉ c2.Keys ∧
      (∀ k, k ∈ c2.Keys → k ∈ (keep c (evictKeep c now)).Keys) ∧
      c.Delete K now
        = some (keep c2 (evictKeep c2 now),
            evictEvents c (evictKeep c now)
              ++ (if c.deleteFunc = true then [Event.delete K] else [])
              ++ evictEvents c2 (evictKeep c2 now)) := by
  have h1 := evictAct_eq hI now
  have hI1 := Inv_keep hI (evictKeep c now)
  cases hm : mapGet (keep c (evictKeep c now)).items K with
  | some a =>
    have hI2 := Inv_unlink hI1 hm
    have hdel := Delete_present h1 hm (evictAct_eq hI2 now)
    refine ⟨_, hI2, SameConfig_refl c, ?_, ?_, hdel⟩
    · exact mapGet_eq_none.1 (mapGet_mapDelete_self _ K)
    · intro k hk
      obtain ⟨p, hp, hpk⟩ := List.mem_map.1 hk
      exact List.mem_map.2 ⟨p, (mem_mapDelete.1 hp).1, hpk⟩
  | none =>
    have hdel := Delete_absent h1 hm (evictAct_eq hI1 now)
    exact ⟨_, hI1, SameConfig_refl c, mapGet_eq_none.1 hm, fun k hk => hk, hdel⟩

/-! ## `Delete` -/

/-- **C12** (`Delete`). In every consistent state `Delete(K)` returns, the key `K` is not
in the store after it, and it schedules the delete callback exactly once, for `K`, when
that callback is configured, whether or not `K` was stored, and never otherwise. -/
theorem C12_delete (c : Cache V E) (hI : Inv c) (K : String) (now : Int) :
    ∃ c' evs, c.Delete K now = some (c', evs) ∧ K ∉ c'.Keys ∧
      evs.filter Event.isDelete = (if c.deleteFunc = true then [Event.delete K] else []) := by
  obtain ⟨c2, _, _, hK, _, hdel⟩ := Delete_shape hI K now
  refine ⟨_, _, hdel, not_mem_keys_keep hK, ?_⟩
  rw [List.filter_append, List.filter_append, evictEvents_isDelete, evictEvents_isDelete]
  split <;> simp [Event.isDelete]

/-- Witness of C12: `Delete("a")` on a state that holds `"a"`, with a delete callback. -/
theorem C12_delete_witness :
    Inv (sampleCache.SetDeleteFunc true) ∧
    ∃ c' evs, (sampleCache.SetDeleteFunc true).Delete "a" 3 = some (c', evs) ∧ "a" ∉ c'.Keys ∧
      evs.filter Event.isDelete
        = (if (sampleCache.SetDeleteFunc true).deleteFunc = true then [Event.delete "a"] else []) :=
  ⟨by decide, C12_delete (sampleCache.SetDeleteFunc true) (by decide) "a" 3⟩

end mcacheZero


namespace mcacheZero

variable {V E : Type}

/-- Counterexample of C11: in write-on-evict mode with a write callback and a TTL of one
second, `Set("a", 1)` at time 0 followed by `Delete("a")` five seconds later schedules the
write of `("a", 1)`: the entry eviction pass of `Delete` evicts the expired dirty item
through `remove`. -/
theorem C11_delete_writes_expired :
    run (New 0 : Cache Nat String)
        [(Op.SetWriteFunc true, 0), (Op.SetWriteEvict, 0), (Op.SetExpireDuration 1000000000, 0),
          (Op.Set "a" 1, 0)] = some (writeBackCache, []) ∧
    (writeBackCache.Delete "a" 5000000000).map Prod.snd = some [Event.write "a" 1] :=
  ⟨rfl, rfl⟩

/-- **C11, amended** (`Delete` bypasses the write callback for an item that has not
expired). In write-on-evict mode, for every consistent state, capacity, TTL and times:
`Set(K, v)` followed by `Delete(K)` returns, and when `K` is still stored after the entry
eviction pass of `Delete`, the only writes for `K` that the two calls schedule are those
of the entry eviction pass of `Set`, which concern the item stored before; `Delete`
schedules the delete callback once, for `K`, if it is configured. With TTL 0 and the store
within its capacity 0 or at least 1, `K` is always still stored and the entry pass of
`Set` schedules nothing, so no write for `K` is scheduled at all. -/
theorem C11_delete_bypass (c : Cache V E) (hI : Inv c) (hmode : c.writeMode = writeEvict)
    (K : String) (v : V) (now now2 : Int) :
    ∃ c0 e0 c1 e1 c1' e1' c2 e2, c.evictAct now = some (c0, e0) ∧
      c.Set K v now = some (c1, e1) ∧ c1.evictAct now2 = some (c1', e1') ∧
      c1.Delete K now2 = some (c2, e2) ∧
      (K ∈ c1'.Keys → ∀ v', Event.write K v' ∈ e1 ++ e2 → Event.write K v' ∈ e0) ∧
      e2.filter Event.isDelete = (if c.deleteFunc = true then [Event.delete K] else []) ∧
      (c.expire = 0 → (c.size = 0 ∨ (1 ≤ c.size ∧ (c.Len : Int) ≤ c.size)) →
        K ∈ c1'.Keys ∧ e0 = []) := by
  obtain ⟨c2, e2, hI2, hcfg, hw2, _, hset⟩ := Set_shape hI K v now
  have hI1 := Inv_keep hI2 (evictKeep c2 now)
  obtain ⟨d2, hId2, hcfgd, hKd, _, hdel⟩ := Delete_shape hI1 K now2
  refine ⟨_, _, _, _, _, _, _, _, evictAct_eq hI now, hset, evictAct_eq hI1 now2, hdel,
    ?_, ?_, ?_⟩
  · intro hK v' hmem
    have hK1 : K ∈ (keep c2 (evictKeep c2 now)).Keys := mem_keys_of_keep hK
    have hK2 : K ∈ c2.Keys := mem_keys_of_keep hK1
    have hif : (if c.writeMode = writeAlways ∧ c.writeFunc = true
        then [Event.write K v] else []) = [] := by
      rw [if_neg]
      intro hc
      rw [hmode] at hc
      exact writeAlways_ne_writeEvict hc.1.symm
    rw [hif] at hmem
    simp only [List.append_nil, List.mem_append] at hmem
    rcases hmem with ((h | h) | h) | ((h | h) | h)
    · exact h
    · exact absurd h (hw2 hK2 v')
    · exact absurd h (no_write_of_kept hI2 hK1 v')
    · exact absurd h (no_write_of_kept hI1 hK v')
    · split at h <;> simp at h
    · exact absurd h (no_write_of_absent hId2 hKd _ v')
  · rw [List.filter_append, List.filter_append, evictEvents_isDelete, evictEvents_isDelete]
    have hdf : (keep c2 (evictKeep c2 now)).deleteFunc = c.deleteFunc := hcfg.2.2.2.2.1
    rw [hdf]
    split <;> simp [Event.isDelete]
  · intro he hs
    have hS : Steady c := ⟨hI, he, hs⟩
    obtain ⟨c1s, e1s, a, it, hsets, hS1, hm1, _⟩ := Set_steady_spec hS K v now
    rw [hset] at hsets
    simp only [Option.some.injEq, Prod.mk.injEq] at hsets
    rw [← hsets.1] at hS1 hm1
    have h0 := evictAct_steady hS now
    rw [evictAct_eq hI now] at h0
    simp only [Option.some.injEq, Prod.mk.injEq] at h0
    have h1 := evictAct_steady hS1 now2
    rw [evictAct_eq hI1 now2] at h1
    simp only [Option.some.injEq, Prod.mk.injEq] at h1
    refine ⟨?_, h0.2⟩
    rw [h1.1]
    exact mem_keys_of_mapGet hm1

/-- Witness of C11, amended: `Set("c", 3)` then `Delete("c")` on `sampleCache`. -/
theorem C11_delete_bypass_witness :
    Inv sampleCache ∧ sampleCache.writeMode = writeEvict ∧
    ∃ c0 e0 c1 e1 c1' e1' c2 e2, sampleCache.evictAct 0 = some (c0, e0) ∧
      sampleCache.Set "c" 3 0 = some (c1, e1) ∧ c1.evictAct 9 = some (c1', e1') ∧
      c1.Delete "c" 9 = some (c2, e2) ∧
      ("c" ∈ c1'.Keys → ∀ v', Event.write "c" v' ∈ e1 ++ e2 → Event.write "c" v' ∈ e0) ∧
      e2.filter Event.isDelete
        = (if sampleCache.deleteFunc = true then [Event.delete "c"] else []) ∧
      (sampleCache.expire = 0 →
        (sampleCache.size = 0 ∨ (1 ≤ sampleCache.size ∧ (sampleCache.Len : Int) ≤ sampleCache.size)) →
        "c" ∈ c1'.Keys ∧ e0 = []) :=
  ⟨by decide, rfl, C11_delete_bypass sampleCache (by decide) rfl "c" 3 0 9⟩

end mcacheZero


namespace mcacheZero

variable {V E : Type}

/-! ## `Flush` -/

theorem writeFor_of_mapGet {c : Cache V E} {k : String} {a : Nat}
    (hm : mapGet c.items k = some a) : writeFor c k = writeOf c a := by
  simp [writeFor, hm]

theorem writeFor_of_none {c : Cache V E} {k : String} (hm : mapGet c.items k = none) :
    writeFor c k = [] := by
  simp [writeFor, hm]

theorem writeFor_unlink (c : Cache V E) {k k' : String} (a : Nat) (h : k' ≠ k) :
    writeFor (unlink c k a) k' = writeFor c k' := by
  unfold writeFor
  have e : mapGet (unlink c k a).items k' = mapGet c.items k' := mapGet_mapDelete_ne _ h
  rw [e]
  rfl

theorem removeAll_eq (allkeys : List String) :
    ∀ (c : Cache V E), Inv c → allkeys.Nodup →
      ∃ c', Cache.removeAll allkeys c = some (c', allkeys.flatMap (writeFor c)) ∧ Inv c' ∧
        SameConfig c c' ∧ c'.heap = c.heap ∧
        ∀ k, mapGet c'.items k = if k ∈ allkeys then none else mapGet c.items k := by
  induction allkeys with
  | nil =>
    intro c hI _
    exact ⟨c, rfl, hI, SameConfig_refl c, rfl, fun k => by simp⟩
  | cons key allkeys ih =>
    intro c hI hnd
    rw [List.nodup_cons] at hnd
    cases hm : mapGet c.items key with
    | none =>
      obtain ⟨c', hr, hI', hcfg, hh, hg⟩ := ih c hI hnd.2
      refine ⟨c', ?_, hI', hcfg, hh, ?_⟩
      · simp only [Cache.removeAll, remove_absent hm, hr, List.flatMap_cons,
          writeFor_of_none hm, List.nil_append]
      · intro k
        rw [hg k]
        by_cases hk : k ∈ allkeys
        · simp [hk]
        · by_cases e : k = key
          · subst e; simp [hm]
          · simp [hk, e]
    | some a =>
      obtain ⟨it, hd, hk⟩ := hI.deref_of_mapGet hm
      have hrem := remove_present_unlink hm hd
      rw [hk] at hrem
      obtain ⟨c', hr, hI', hcfg, hh, hg⟩ := ih (unlink c key a) (Inv_unlink hI hm) hnd.2
      have hev : allkeys.flatMap (writeFor (unlink c key a)) = allkeys.flatMap (writeFor c) := by
        apply List.flatMap_congr
        intro k' hk'
        exact writeFor_unlink c a (fun e => hnd.1 (e ▸ hk'))
      refine ⟨c', ?_, hI', hcfg, hh, ?_⟩
      · simp only [Cache.removeAll, hrem, hr, List.flatMap_cons, writeFor_of_mapGet hm, hev]
      · intro k
        rw [hg k]
        by_cases hk : k ∈ allkeys
        · simp [hk]
        · by_cases e : k = key
          · subst e
            have : mapGet (unlink c k a).items k = none := mapGet_mapDelete_self _ _
            simp [hk, this]
          · have : mapGet (unlink c key a).items k = mapGet c.items k :=
              mapGet_mapDelete_ne _ e
            simp [hk, e, this]

theorem items_eq_nil_of_mapGet {m : List (String × Nat)} (h : ∀ k, mapGet m k = none) :
    m = [] := by
  cases m with
  | nil => rfl
  | cons p m =>
    have := h p.1
    simp [mapGet] at this

theorem flatMap_writeOf_view (c : Cache V E) (l : List Nat) :
    (l.filterMap c.deref).flatMap (item.evictWrite c.writeMode c.writeFunc)
      = l.flatMap (writeOf c) := by
  induction l with
  | nil => rfl
  | cons a l ih =>
    cases hd : c.deref a with
    | none =>
      simp only [List.filterMap_cons, hd, List.flatMap_cons, ih]
      simp [writeOf, hd]
    | some it =>
      simp only [List.filterMap_cons, hd, List.flatMap_cons, ih]
      simp [writeOf, hd, item.evictWrite]

theorem keys_flatMap_writeFor {c : Cache V E} (h : Inv c) :
    (c.keys.flatMap (writeFor c)).Perm
      ((view c).flatMap (item.evictWrite c.writeMode c.writeFunc)) := by
  have e1 : c.keys.flatMap (writeFor c) = (c.items.map Prod.snd).flatMap (writeOf c) := by
    unfold Cache.keys
    rw [List.flatMap_map, List.flatMap_map]
    apply List.flatMap_congr
    intro p hp
    exact writeFor_of_mapGet (mapGet_of_mem h.1 hp)
  rw [e1]
  unfold view
  rw [flatMap_writeOf_view]
  exact h.snd_perm.flatMap_right _

/-- What `flush` does for every order `allkeys` in which the map iteration of `keys`
yields the keys. -/
theorem flush_spec {c : Cache V E} (h : Inv c) {allkeys : List String}
    (hp : allkeys.Perm c.keys) :
    ∃ c' evs, Cache.removeAll allkeys c = some (c', evs) ∧ c'.items = [] ∧ c'.evict = [] ∧
      SameConfig c c' ∧
      evs.Perm ((view c).flatMap (item.evictWrite c.writeMode c.writeFunc)) := by
  have hnd : allkeys.Nodup := (hp.nodup_iff).2 h.1
  obtain ⟨c', hr, hI', hcfg, _, hg⟩ := removeAll_eq allkeys c h hnd
  have hitems : c'.items = [] := by
    apply items_eq_nil_of_mapGet
    intro k
    rw [hg k]
    by_cases hk : k ∈ allkeys
    · simp [hk]
    · rw [if_neg hk]
      exact mapGet_eq_none.2 (fun hx => hk ((hp.mem_iff).2 hx))
  have hevict : c'.evict = [] := by
    have := hI'.length_eq
    rw [hitems] at this
    exact List.length_eq_zero.1 this.symm
  exact ⟨c', _, hr, hitems, hevict, hcfg,
    (hp.flatMap_right _).trans (keys_flatMap_writeFor h)⟩

/-- **C14** (`Flush` empties the cache through the removal path). In every consistent
state `Flush()` returns and leaves `Len() = 0`, no key and an empty list; the events it
schedules are, up to order, one write `(key, value)` for each item that was dirty when the
mode is write-on-evict and a write callback is configured, and nothing otherwise: no write
in write-always mode and never a delete callback. The same holds for every order in which
the map iteration yields the keys. -/
theorem C14_flush (c : Cache V E) (hI : Inv c) :
    ∃ c1 e1, c.Flush = some (c1, e1) ∧ c1.Len = 0 ∧ c1.Keys = [] ∧ view c1 = [] ∧
      e1.Perm ((view c).flatMap (fun it =>
        if c.writeMode = writeEvict ∧ c.writeFunc = true ∧ it.dirty = true
          then [Event.write it.key it.value] else [])) ∧
      (c.writeMode = writeAlways → e1 = []) ∧ e1.filter Event.isDelete = [] ∧
      ∀ allkeys, allkeys.Perm c.keys →
        ∃ c1' e1', Cache.removeAll allkeys c = some (c1', e1') ∧ c1'.Len = 0 ∧
          view c1' = [] ∧ e1'.Perm e1 := by
  obtain ⟨c1, e1, hr, hitems, hevict, _, hperm⟩ := flush_spec hI (List.Perm.refl c.keys)
  have hperm' : e1.Perm ((view c).flatMap (fun it =>
      if c.writeMode = writeEvict ∧ c.writeFunc = true ∧ it.dirty = true
        then [Event.write it.key it.value] else [])) := hperm
  refine ⟨c1, e1, hr, by simp [Cache.Len, hitems], by simp [Cache.Keys, Cache.keys, hitems],
    by simp [view, hevict], hperm', ?_, ?_, ?_⟩
  · intro hmode
    apply List.Perm.eq_nil
    refine hperm'.trans ?_
    have : (view c).flatMap (fun it =>
        if c.writeMode = writeEvict ∧ c.writeFunc = true ∧ it.dirty = true
          then [Event.write it.key it.value] else []) = [] := by
      rw [List.flatMap_eq_nil_iff]
      intro it _
      rw [if_neg]
      intro hc
      rw [hmode] at hc
      exact writeAlways_ne_writeEvict hc.1
    rw [this]
  · rw [List.filter_eq_nil_iff]
    intro ev hev
    have hmem := (hperm'.mem_iff).1 hev
    obtain ⟨it, _, hit⟩ := List.mem_flatMap.1 hmem
    split at hit
    · simp only [List.mem_singleton] at hit
      rw [hit]; simp [Event.isDelete]
    · simp at hit
  · intro allkeys hp
    obtain ⟨c1', e1', hr', hitems', hevict', _, hperm2⟩ := flush_spec hI hp
    exact ⟨c1', e1', hr', by simp [Cache.Len, hitems'], by simp [view, hevict'],
      hperm2.trans hperm.symm⟩

/-- Witness of C14: `Flush()` on `sampleCache`, which holds a dirty and a clean item. -/
theorem C14_flush_witness :
    Inv sampleCache ∧
    ∃ c1 e1, sampleCache.Flush = some (c1, e1) ∧ c1.Len = 0 ∧ c1.Keys = [] ∧ view c1 = [] ∧
      e1.Perm ((view sampleCache).flatMap (fun it =>
        if sampleCache.writeMode = writeEvict ∧ sampleCache.writeFunc = true ∧ it.dirty = true
          then [Event.write it.key it.value] else [])) ∧
      (sampleCache.writeMode = writeAlways → e1 = []) ∧ e1.filter Event.isDelete = [] ∧
      ∀ allkeys, allkeys.Perm sampleCache.keys →
        ∃ c1' e1', Cache.removeAll allkeys sampleCache = some (c1', e1') ∧ c1'.Len = 0 ∧
          view c1' = [] ∧ e1'.Perm e1 :=
  ⟨by decide, C14_flush sampleCache (by decide)⟩

end mcacheZero


namespace mcacheZero

variable {V E : Type}

/-! ## `Sync` -/

theorem syncWrite_store {c : Cache V E} (h : Inv c) {key k' : String} {a : Nat} {it0 : item V}
    (hm : mapGet c.items key = some a) (hd : c.deref a = some it0) (it : item V)
    (hne : k' ≠ key) : syncWrite (store c a it) k' = syncWrite c k' := by
  unfold syncWrite
  have e : (store c a it).items = c.items := rfl
  rw [e]
  cases hm' : mapGet c.items k' with
  | none => rfl
  | some a' =>
    have hne' : a' ≠ a := by
      intro e'
      have := h.key_inj (mapGet_mem hm') (mapGet_mem hm) e'
      exact hne (by simpa using congrArg Prod.fst this)
    simp only []
    rw [deref_store c hd, if_neg hne']

theorem syncAll_eq (allkeys : List String) :
    ∀ (c : Cache V E), Inv c → allkeys.Nodup →
      ∃ c', Cache.syncAll allkeys c = some (c', allkeys.flatMap (syncWrite c)) ∧ Inv c' ∧
        SameConfig c c' ∧ c'.items = c.items ∧ c'.evict = c.evict ∧
        ∀ b, c'.deref b = if b ∈ allkeys.filterMap (mapGet c.items)
          then (c.deref b).map item.clean else c.deref b := by
  induction allkeys with
  | nil =>
    intro c hI _
    exact ⟨c, rfl, hI, SameConfig_refl c, rfl, rfl, fun b => by simp⟩
  | cons key allkeys ih =>
    intro c hI hnd
    rw [List.nodup_cons] at hnd
    cases hm : mapGet c.items key with
    | none =>
      obtain ⟨c', hr, hI', hcfg, hi, he, hg⟩ := ih c hI hnd.2
      refine ⟨c', ?_, hI', hcfg, hi, he, ?_⟩
      · have : syncWrite c key = [] := by simp [syncWrite, hm]
        simp only [Cache.syncAll, hm, hr, List.flatMap_cons, this, List.nil_append]
      · intro b
        rw [hg b]
        simp [List.filterMap_cons, hm]
    | some a =>
      obtain ⟨it, hd, hk⟩ := hI.deref_of_mapGet hm
      have hI1 : Inv (store c a it.clean) := Inv_store hI hm hd _ hk
      obtain ⟨c', hr, hI', hcfg, hi, he, hg⟩ := ih (store c a it.clean) hI1 hnd.2
      have hev : allkeys.flatMap (syncWrite (store c a it.clean))
          = allkeys.flatMap (syncWrite c) := by
        apply List.flatMap_congr
        intro k' hk'
        exact syncWrite_store hI hm hd _ (fun e => hnd.1 (e ▸ hk'))
      have hsw : syncWrite c key = (if it.dirty = true then [Event.write key it.value] else []) := by
        simp [syncWrite, hm, hd]
      refine ⟨c', ?_, hI', hcfg, hi, he, ?_⟩
      · unfold store item.clean at hr
        simp only [Cache.syncAll, hm, hd, hr, List.flatMap_cons, hsw]
        rw [← hev]
        rfl
      · intro b
        rw [hg b]
        have e : (store c a it.clean).items = c.items := rfl
        rw [e, deref_store c hd]
        simp only [List.filterMap_cons, hm, List.mem_cons]
        by_cases hb : b = a
        · subst hb
          simp only [if_true, true_or, hd, Option.map_some']
          split <;> rfl
        · simp only [hb, if_false, false_or]

theorem flatMap_syncWrite_view (c : Cache V E) (l : List Nat) :
    (l.filterMap c.deref).flatMap item.syncWrite
      = l.flatMap (fun a => ((c.deref a).map item.syncWrite).getD []) := by
  induction l with
  | nil => rfl
  | cons a l ih =>
    cases hd : c.deref a with
    | none => simp only [List.filterMap_cons, hd, List.flatMap_cons, ih]; simp
    | some it => simp only [List.filterMap_cons, hd, List.flatMap_cons, ih]; simp

theorem keys_flatMap_syncWrite {c : Cache V E} (h : Inv c) :
    (c.keys.flatMap (syncWrite c)).Perm ((view c).flatMap item.syncWrite) := by
  have e1 : c.keys.flatMap (syncWrite c)
      = (c.items.map Prod.snd).flatMap (fun a => ((c.deref a).map item.syncWrite).getD []) := by
    unfold Cache.keys
    rw [List.flatMap_map, List.flatMap_map]
    apply List.flatMap_congr
    intro p hp
    obtain ⟨it, hd, hk⟩ := h.deref_of_mem (k := p.1) (a := p.2) hp
    simp [syncWrite, mapGet_of_mem h.1 hp, hd, item.syncWrite, hk]
  rw [e1]
  unfold view
  rw [flatMap_syncWrite_view]
  exact h.snd_perm.flatMap_right _

/-- What `sync` does, with a write callback, for every order `allkeys` in which the map
iteration of `keys` yields the keys. -/
theorem sync_spec {c : Cache V E} (h : Inv c) {allkeys : List String}
    (hp : allkeys.Perm c.keys) :
    ∃ c' evs, Cache.syncAll allkeys c = some (c', evs) ∧ Inv c' ∧ SameConfig c c' ∧
      c'.items = c.items ∧ c'.evict = c.evict ∧ view c' = (view c).map item.clean ∧
      evs.Perm ((view c).flatMap item.syncWrite) := by
  have hnd : allkeys.Nodup := (hp.nodup_iff).2 h.1
  obtain ⟨c', hr, hI', hcfg, hi, he, hg⟩ := syncAll_eq allkeys c h hnd
  refine ⟨c', _, hr, hI', hcfg, hi, he, ?_, (hp.flatMap_right _).trans (keys_flatMap_syncWrite h)⟩
  unfold view
  rw [he, List.map_filterMap]
  apply List.filterMap_congr
  intro b hb
  rw [hg b, if_pos]
  obtain ⟨it, _, hm⟩ := h.deref_of_mem_evict hb
  refine List.mem_filterMap.2 ⟨it.key, ?_, hm⟩
  exact (hp.mem_iff).2 (mem_keys_of_mapGet hm)

/-- **C13** (`Sync` writes and cleans without removing). In every consistent state with a
write callback configured, `Sync()` returns; it schedules, up to order, exactly one write
`(key, value)` for each dirty item and none for a clean item; the map and the list are
unchanged and every item is as before but clean; a second `Sync()` schedules nothing. The
same holds for every order in which the map iteration yields the keys. -/
theorem C13_sync (c : Cache V E) (hI : Inv c) (hw : c.writeFunc = true) :
    ∃ c1 e1, c.Sync = some (c1, e1) ∧
      e1.Perm ((view c).flatMap (fun it =>
        if it.dirty = true then [Event.write it.key it.value] else [])) ∧
      c1.items = c.items ∧ c1.evict = c.evict ∧
      view c1 = (view c).map (fun it => { it with dirty := false }) ∧
      (∃ c2, c1.Sync = some (c2, [])) ∧
      ∀ allkeys, allkeys.Perm c.keys →
        ∃ c1' e1', Cache.syncAll allkeys c = some (c1', e1') ∧ view c1' = view c1 ∧
          e1'.Perm e1 := by
  obtain ⟨c1, e1, hr, hI1, hcfg, hi, he, hv, hperm⟩ := sync_spec hI (List.Perm.refl c.keys)
  have hsync : c.Sync = some (c1, e1) := by
    unfold Cache.Sync Cache.sync
    rw [if_neg (by simp [hw])]
    exact hr
  refine ⟨c1, e1, hsync, hperm, hi, he, hv, ?_, ?_⟩
  · obtain ⟨c2, e2, hr2, _, _, _, _, _, hperm2⟩ := sync_spec hI1 (List.Perm.refl c1.keys)
    have hnil : (view c1).flatMap item.syncWrite = ([] : List (Event V)) := by
      rw [List.flatMap_eq_nil_iff]
      intro it hit
      rw [hv] at hit
      obtain ⟨it0, _, rfl⟩ := List.mem_map.1 hit
      rfl
    rw [hnil] at hperm2
    have he2 : e2 = [] := hperm2.eq_nil
    refine ⟨c2, ?_⟩
    unfold Cache.Sync Cache.sync
    have hw1 : c1.writeFunc = true := hcfg.2.2.2.1.trans hw
    rw [if_neg (by simp [hw1]), hr2, he2]
  · intro allkeys hp
    obtain ⟨c1', e1', hr', _, _, _, _, hv', hperm'⟩ := sync_spec hI hp
    exact ⟨c1', e1', hr', hv'.trans hv.symm, hperm'.trans hperm.symm⟩

/-- Witness of C13: `Sync()` on `sampleCache`, which holds a dirty and a clean item. -/
theorem C13_sync_witness :
    Inv sampleCache ∧ sampleCache.writeFunc = true ∧
    ∃ c1 e1, sampleCache.Sync = some (c1, e1) ∧
      e1.Perm ((view sampleCache).flatMap (fun it =>
        if it.dirty = true then [Event.write it.key it.value] else [])) ∧
      c1.items = sampleCache.items ∧ c1.evict = sampleCache.evict ∧
      view c1 = (view sampleCache).map (fun it => { it with dirty := false }) ∧
      (∃ c2, c1.Sync = some (c2, [])) ∧
      ∀ allkeys, allkeys.Perm sampleCache.keys →
        ∃ c1' e1', Cache.syncAll allkeys sampleCache = some (c1', e1') ∧ view c1' = view c1 ∧
          e1'.Perm e1 :=
  ⟨by decide, rfl, C13_sync sampleCache (by decide) rfl⟩

end mcacheZero


namespace mcacheZero

variable {V E : Type}

/-! ## Reachable states -/

theorem Fits_keep_evictKeep {c : Cache V E} (h : Inv c) (now : Int) :
    Fits (keep c (evictKeep c now)) := by
  intro hs
  have hs' : c.size ≠ 0 := hs
  rw [keep_items_length h]
  have e : (keep c (evictKeep c now)).size = c.size := rfl
  rw [e]
  unfold evictKeep
  rw [if_pos hs']
  omega

theorem Fits_of_le {c c' : Cache V E} (hs : c'.size = c.size)
    (hl : c'.items.length ≤ c.items.length) (h : Fits c) : Fits c' := by
  intro hz
  rw [hs] at hz ⊢
  exact le_trans hl (h hz)

theorem Get_final {c : Cache V E} (hI : Inv c) (K : String) (now : Int) :
    ∃ r c2 evs, Inv c2 ∧ c2.size = c.size ∧
      c.Get K now = some (r, keep c2 (evictKeep c2 now), evs) := by
  have h1 := evictAct_eq hI now
  have hI1 := Inv_keep hI (evictKeep c now)
  cases hm : mapGet (keep c (evictKeep c now)).items K with
  | some a =>
    obtain ⟨it, hd, hk⟩ := hI1.deref_of_mapGet hm
    have hI2 := Inv_touch hI1 hm hd
      (if (keep c (evictKeep c now)).expire ≠ 0 then
        { it with expire := Unix (now + (keep c (evictKeep c now)).expire) } else it)
      (by split <;> exact hk)
    exact ⟨_, _, _, hI2, rfl, Get_present h1 hm hd (evictAct_eq hI2 now)⟩
  | none =>
    cases hr : c.readFunc with
    | none => exact ⟨_, _, _, hI1, rfl, Get_absent_none h1 hm hr (evictAct_eq hI1 now)⟩
    | some fn =>
      cases hf : fn K with
      | error err =>
        exact ⟨_, _, _, hI1, rfl, Get_absent_error h1 hm hr hf (evictAct_eq hI1 now)⟩
      | ok v =>
        obtain ⟨x, n2, hIp, h2⟩ := addItem_ex hI1 hm v false now
        have hI2 := Inv_keep hIp n2
        exact ⟨_, _, _, hI2, rfl, Get_absent_ok h1 hm hr hf h2 (evictAct_eq hI2 now)⟩

theorem Fits_step {c : Cache V E} (h : Inv c) (hf : Fits c) (op : Op V E) (now : Int) :
    ∃ c' evs, step c op now = some (c', evs) ∧ Inv c' ∧ Fits c' := by
  cases op with
  | Set key value =>
    obtain ⟨c2, e2, hI2, hcfg, _, _, hset⟩ := Set_shape h key value now
    refine ⟨_, _, hset, Inv_keep hI2 _, ?_⟩
    exact Fits_keep_evictKeep hI2 now
  | Get key =>
    obtain ⟨r, c2, evs, hI2, _, hget⟩ := Get_final h key now
    exact ⟨_, evs, by simp only [step, hget], Inv_keep hI2 _, Fits_keep_evictKeep hI2 now⟩
  | Delete key =>
    obtain ⟨c2, hI2, _, _, _, hdel⟩ := Delete_shape h key now
    exact ⟨_, _, hdel, Inv_keep hI2 _, Fits_keep_evictKeep hI2 now⟩
  | Remove key =>
    obtain ⟨c', evs, he, g, hl⟩ := Good_remove h True "" key
    exact ⟨c', evs, he, g.1, Fits_of_le g.2.1 hl hf⟩
  | Purge =>
    refine ⟨c.Purge, [], rfl, ?_, ?_⟩
    · simp [Inv, Cache.Purge]
    · exact Fits_of_le (c := c) rfl (by simp [Cache.Purge]) hf
  | Flush =>
    obtain ⟨c', evs, he, g, hl⟩ := Good_removeAll "" c.keys h
    exact ⟨c', evs, he, g.1, Fits_of_le g.2.1 hl hf⟩
  | Sync =>
    obtain ⟨c', evs, he, g, hi, _⟩ := Good_sync "" h
    exact ⟨c', evs, he, g.1, Fits_of_le g.2.1 (by rw [hi]) hf⟩
  | EvictAct =>
    exact ⟨_, _, evictAct_eq h now, Inv_keep h _, Fits_keep_evictKeep h now⟩
  | SetWriteFunc fn => exact ⟨_, [], rfl, h, hf⟩
  | SetReadFunc fn => exact ⟨_, [], rfl, h, hf⟩
  | SetDeleteFunc fn => exact ⟨_, [], rfl, h, hf⟩
  | SetExpireDuration expire => exact ⟨_, [], rfl, h, hf⟩
  | SetWriteAlways => exact ⟨_, [], rfl, h, hf⟩
  | SetWriteEvict => exact ⟨_, [], rfl, h, hf⟩
  | Keys => exact ⟨_, [], rfl, h, hf⟩
  | Len => exact ⟨_, [], rfl, h, hf⟩
  | WriteWaiting => exact ⟨_, [], rfl, h, hf⟩

theorem Fits_run (ops : List (Op V E × Int)) {c : Cache V E} (h : Inv c) (hf : Fits c) :
    ∃ c' evs, run c ops = some (c', evs) ∧ Inv c' ∧ Fits c' := by
  induction ops generalizing c with
  | nil => exact ⟨c, [], rfl, h, hf⟩
  | cons x ops ih =>
    obtain ⟨op, now⟩ := x
    obtain ⟨c1, e1, h1, hI1, hf1⟩ := Fits_step h hf op now
    obtain ⟨c2, e2, h2, hI2, hf2⟩ := ih hI1 hf1
    exact ⟨c2, e1 ++ e2, by simp only [run, h1, h2], hI2, hf2⟩

theorem Fits_New (N : Int) : Fits (New N : Cache V E) := by
  intro _
  simp [New]

theorem reachable {N : Int} {ops : List (Op V E × Int)} {c : Cache V E}
    {evs : List (Event V)} (h : run (New N : Cache V E) ops = some (c, evs)) :
    Inv c ∧ Fits c := by
  obtain ⟨c', evs', hr, hI, hf⟩ := Fits_run ops (Inv_New (V := V) (E := E) N) (Fits_New N)
  rw [h] at hr
  simp only [Option.some.injEq, Prod.mk.injEq] at hr
  rw [hr.1]
  exact ⟨hI, hf⟩

/-- **C17** (map/list consistency is an invariant). Starting from `New(N)`, every sequence
of public operations, at any times and with any read callback (failing or not), returns,
and in the state it reaches: every map entry points to an element that occurs exactly once
in the list and carries the key of the entry; every list element carries a key that the
map sends to this element; no key occurs twice in the list or in the map; and the map,
the list and `Len()` have the same size. -/
theorem C17_map_list_consistent (N : Int) (ops : List (Op V E × Int)) :
    ∃ c evs, run (New N : Cache V E) ops = some (c, evs) ∧
      (∀ p ∈ c.items, p.2 ∈ c.evict ∧ c.evict.count p.2 = 1 ∧
        ∃ it, c.deref p.2 = some it ∧ it.key = p.1) ∧
      (∀ a ∈ c.evict, ∃ it, c.deref a = some it ∧ mapGet c.items it.key = some a) ∧
      (order c).Nodup ∧ c.keys.Nodup ∧
      c.items.length = c.evict.length ∧ c.Len = c.evict.length ∧
      (view c).length = c.Len := by
  obtain ⟨c, evs, hr, hI, _⟩ := Fits_run ops (Inv_New (V := V) (E := E) N) (Fits_New N)
  refine ⟨c, evs, hr, ?_, fun a ha => hI.deref_of_mem_evict ha, hI.order_nodup, hI.1,
    hI.length_eq, hI.length_eq, ?_⟩
  · intro p hp
    exact ⟨hI.mem_evict hp, List.count_eq_one_of_mem hI.2.1 (hI.mem_evict hp),
      hI.deref_of_mem (k := p.1) (a := p.2) hp⟩
  · rw [view_length hI]; exact hI.length_eq.symm

/-! ## The eviction pass -/

theorem drop_rdropWhile {α : Type} (p : α → Bool) (l : List α) :
    ∀ x ∈ l.drop (l.rdropWhile p).length, p x = true := by
  induction l using List.reverseRecOn with
  | nil => intro x hx; simp at hx
  | append_singleton l a ih =>
    intro x hx
    by_cases hp : p a = true
    · rw [List.rdropWhile_concat_pos _ _ _ hp] at hx
      have hle : (l.rdropWhile p).length ≤ l.length := (List.rdropWhile_prefix p l).length_le
      rw [List.drop_append_of_le_length hle] at hx
      rcases List.mem_append.1 hx with hx | hx
      · exact ih x hx
      · rw [List.mem_singleton.1 hx]; exact hp
    · rw [List.rdropWhile_concat_neg _ _ _ hp] at hx
      simp at hx

theorem take_rdropWhile {α : Type} (p : α → Bool) (l : List α) :
    l.take (l.rdropWhile p).length = l.rdropWhile p :=
  (List.prefix_iff_eq_take.1 (List.rdropWhile_prefix p l)).symm

theorem ttlKeep_keep_self (c : Cache V E) (now : Int) :
    ttlKeep (keep c (ttlKeep c now)) now = (keep c (ttlKeep c now)).evict.length := by
  unfold ttlKeep
  by_cases he : c.expire ≠ 0
  · have he' : (keep c (if c.expire ≠ 0 then
        (c.evict.rdropWhile (expiredAt c (Unix now))).length else c.evict.length)).expire ≠ 0 := he
    rw [if_pos he']
    rw [if_pos he]
    have e : (keep c (c.evict.rdropWhile (expiredAt c (Unix now))).length).evict
        = c.evict.rdropWhile (expiredAt c (Unix now)) := take_rdropWhile _ _
    have e2 : expiredAt (keep c (c.evict.rdropWhile (expiredAt c (Unix now))).length) (Unix now)
        = expiredAt c (Unix now) := rfl
    rw [e, e2, List.rdropWhile_idempotent]
  · have he' : ¬ (keep c (if c.expire ≠ 0 then
        (c.evict.rdropWhile (expiredAt c (Unix now))).length else c.evict.length)).expire ≠ 0 := he
    rw [if_neg he']

theorem evictKeep_of_Fits {c : Cache V E} (h : Inv c) (hf : Fits c) (now : Int) :
    evictKeep c now = ttlKeep c now := by
  unfold evictKeep
  split
  · rename_i hs
    have h1 := hf hs
    have h2 := ttlKeep_le c now
    have h3 := h.length_eq
    omega
  · rfl

theorem ttlKeep_of_fresh {c : Cache V E} (h : Inv c) {now : Int}
    (hfresh : c.expire = 0 ∨ ∀ it ∈ view c, Unix now < it.expire) :
    ttlKeep c now = c.evict.length := by
  unfold ttlKeep
  split
  · rename_i he
    rcases hfresh with h0 | hfresh
    · exact absurd h0 he
    · have : c.evict.rdropWhile (expiredAt c (Unix now)) = c.evict := by
        rw [List.rdropWhile_eq_self_iff]
        intro hl
        have hmem : c.evict.getLast hl ∈ c.evict := List.getLast_mem hl
        obtain ⟨it, hd, hm⟩ := h.deref_of_mem_evict hmem
        have := hfresh it (h.view_mem hm hd)
        simp only [expiredAt, hd, ge_iff_le, decide_eq_true_eq, not_le]
        exact this
      rw [this]
  · rfl

/-- **C19** (the eviction pass is idempotent). In every state reached from `New(N)` by
public operations, at every time `now`: `EvictAct` returns, a second `EvictAct` at the
same time leaves the cache as the first left it and schedules no callback, and when the
TTL is 0 or no item is expired a single `EvictAct` changes nothing and schedules
nothing. -/
theorem C19_evict_idempotent (N : Int) (ops : List (Op V E × Int)) (c : Cache V E)
    (evs : List (Event V)) (hrun : run (New N : Cache V E) ops = some (c, evs)) (now : Int) :
    ∃ c1 e1, c.EvictAct now = some (c1, e1) ∧ c1.EvictAct now = some (c1, []) ∧
      ((c.expire = 0 ∨ ∀ it ∈ view c, Unix now < it.expire) → c1 = c ∧ e1 = []) := by
  obtain ⟨hI, hf⟩ := reachable hrun
  have h1 := evictAct_eq hI now
  rw [evictKeep_of_Fits hI hf] at h1
  have hI1 := Inv_keep hI (ttlKeep c now)
  have hf1 : Fits (keep c (ttlKeep c now)) :=
    Fits_of_le (c := c) rfl (keep_items_length_le _ _) hf
  refine ⟨_, _, h1, ?_, ?_⟩
  · apply evictAct_noop hI1
    rw [evictKeep_of_Fits hI1 hf1, ttlKeep_keep_self]
  · intro hfresh
    have hk := ttlKeep_of_fresh hI hfresh
    rw [hk]
    exact ⟨keep_of_le hI le_rfl, evictEvents_of_le le_rfl⟩

/-- Witness of C19: `EvictAct` at second 5 on `expiringCache`, reached from `New(0)`. -/
theorem C19_evict_idempotent_witness :
    run (New 0 : Cache Nat String)
        [(Op.SetExpireDuration 1000000000, 0), (Op.Set "a" 1, 0)] = some (expiringCache, []) ∧
    ∃ c1 e1, expiringCache.EvictAct 5000000000 = some (c1, e1) ∧
      c1.EvictAct 5000000000 = some (c1, []) ∧
      ((expiringCache.expire = 0 ∨ ∀ it ∈ view expiringCache, Unix 5000000000 < it.expire) →
        c1 = expiringCache ∧ e1 = []) :=
  ⟨rfl, C19_evict_idempotent 0
    [(Op.SetExpireDuration 1000000000, 0), (Op.Set "a" 1, 0)] expiringCache [] rfl 5000000000⟩

/-- **C20** (the eviction pass terminates). In every consistent state, for every capacity,
TTL and time: (1) one iteration removes exactly the back element; (2) the TTL loop returns
within as many removals as the list has elements, keeps a prefix `n1` of the list, every
element it removed was expired, and the back of what it keeps, if any, is not expired;
(3) the capacity loop returns within as many removals as the list has elements and keeps
exactly the first `min(length, capacity)` elements, none when the capacity is negative, so
it stops as soon as the size is at most the capacity or the list is empty; (4) `evictAct`
returns. -/
theorem C20_evict_terminates (c : Cache V E) (hI : Inv c) (now : Int) :
    (∀ l a it, c.evict = l ++ [a] → c.deref a = some it →
      ∃ evs, c.remove it.key = some (keep c l.length, evs) ∧ (keep c l.length).evict = l) ∧
    (∃ n1, n1 ≤ c.evict.length ∧
      (∀ fuel, c.evict.length < fuel →
        ∃ evs, Cache.evictExpired fuel c (Unix now) = some (keep c n1, evs)) ∧
      (keep c n1).evict = c.evict.take n1 ∧
      (∀ a ∈ c.evict.drop n1, ∃ it, c.deref a = some it ∧ it.expire ≤ Unix now) ∧
      (∀ a, list.Back (keep c n1).evict = some a →
        ∃ it, c.deref a = some it ∧ Unix now < it.expire)) ∧
    (∀ fuel, c.evict.length < fuel →
      ∃ evs, Cache.evictOver fuel c = some (keep c c.size.toNat, evs) ∧
        (keep c c.size.toNat).evict = c.evict.take c.size.toNat ∧
        (keep c c.size.toNat).items.length = min c.evict.length c.size.toNat) ∧
    ∃ c' evs, c.evictAct now = some (c', evs) ∧ c'.evict.length ≤ c.evict.length := by
  refine ⟨?_, ?_, ?_, ?_⟩
  · intro l a it hl hd
    exact ⟨_, remove_back hI hl hd, by simp [keep, hl]⟩
  · refine ⟨(c.evict.rdropWhile (expiredAt c (Unix now))).length,
      (List.rdropWhile_prefix _ _).length_le,
      fun fuel hfuel => ⟨_, evictExpired_eq fuel c (Unix now) hI hfuel⟩, rfl, ?_, ?_⟩
    · intro a ha
      have hp := drop_rdropWhile (expiredAt c (Unix now)) c.evict a ha
      obtain ⟨it, hd, _⟩ := hI.deref_of_mem_evict (List.mem_of_mem_drop ha)
      refine ⟨it, hd, ?_⟩
      simpa [expiredAt, hd] using hp
    · intro a ha
      have e : (keep c (c.evict.rdropWhile (expiredAt c (Unix now))).length).evict
          = c.evict.rdropWhile (expiredAt c (Unix now)) := take_rdropWhile _ _
      rw [e] at ha
      have hne : c.evict.rdropWhile (expiredAt c (Unix now)) ≠ [] := by
        intro h0; rw [h0] at ha; simp [list.Back] at ha
      have hlast := List.rdropWhile_last_not (expiredAt c (Unix now)) c.evict hne
      unfold list.Back at ha
      rw [List.getLast?_eq_getLast _ hne] at ha
      simp only [Option.some.injEq] at ha
      rw [ha] at hlast
      have hmem : a ∈ c.evict := by
        rw [← ha]
        exact (List.rdropWhile_prefix _ _).subset (List.getLast_mem hne)
      obtain ⟨it, hd, _⟩ := hI.deref_of_mem_evict hmem
      refine ⟨it, hd, ?_⟩
      simpa [expiredAt, hd] using hlast
  · intro fuel hfuel
    refine ⟨_, evictOver_eq fuel c hI hfuel, rfl, ?_⟩
    rw [keep_items_length hI, Nat.min_comm]
  · refine ⟨_, _, evictAct_eq hI now, ?_⟩
    simp [keep, List.length_take]

/-- Witness of C20: the eviction pass at second 5 on `writeBackCache`. -/
theorem C20_evict_terminates_witness :
    Inv writeBackCache ∧
    ((∀ l a it, writeBackCache.evict = l ++ [a] → writeBackCache.deref a = some it →
      ∃ evs, writeBackCache.remove it.key = some (keep writeBackCache l.length, evs) ∧
        (keep writeBackCache l.length).evict = l) ∧
    (∃ n1, n1 ≤ writeBackCache.evict.length ∧
      (∀ fuel, writeBackCache.evict.length < fuel →
        ∃ evs, Cache.evictExpired fuel writeBackCache (Unix 5000000000)
          = some (keep writeBackCache n1, evs)) ∧
      (keep writeBackCache n1).evict = writeBackCache.evict.take n1 ∧
      (∀ a ∈ writeBackCache.evict.drop n1,
        ∃ it, writeBackCache.deref a = some it ∧ it.expire ≤ Unix 5000000000) ∧
      (∀ a, list.Back (keep writeBackCache n1).evict = some a →
        ∃ it, writeBackCache.deref a = some it ∧ Unix 5000000000 < it.expire)) ∧
    (∀ fuel, writeBackCache.evict.length < fuel →
      ∃ evs, Cache.evictOver fuel writeBackCache
          = some (keep writeBackCache writeBackCache.size.toNat, evs) ∧
        (keep writeBackCache writeBackCache.size.toNat).evict
          = writeBackCache.evict.take writeBackCache.size.toNat ∧
        (keep writeBackCache writeBackCache.size.toNat).items.length
          = min writeBackCache.evict.length writeBackCache.size.toNat) ∧
    ∃ c' evs, writeBackCache.evictAct 5000000000 = some (c', evs) ∧
      c'.evict.length ≤ writeBackCache.evict.length) :=
  ⟨by decide, C20_evict_terminates writeBackCache (by decide) 5000000000⟩

end mcacheZero


namespace mcacheZero

variable {V E : Type}

/-! ## Expiry -/

theorem Unix_mono {s t : Int} (h : s ≤ t) : Unix s ≤ Unix t :=
  Int.ediv_le_ediv (by norm_num) h

/-- Counterexample of C15: `expiringCache` holds `"a"`, touched at time 0 with a TTL of one
second; at second 5 the calls `Remove("b")`, `Sync()`, `Len()` and `Keys()` leave `"a"` in
the store, and `Len()` and `Keys()` report it. -/
theorem C15_expired_item_reported :
    run (New 0 : Cache Nat String)
        [(Op.SetExpireDuration 1000000000, 0), (Op.Set "a" 1, 0)] = some (expiringCache, []) ∧
    (run expiringCache
        [(Op.Remove "b", 5000000000), (Op.Sync, 5000000000), (Op.Len, 5000000000),
          (Op.Keys, 5000000000)]).map (fun r => (r.1.Keys, r.1.Len)) = some (["a"], 1) :=
  ⟨rfl, rfl⟩

theorem addItemAt_ex2 {c : Cache V E} (h : Inv c) {key : String}
    (hm : mapGet c.items key = none) (value : V) (dirty : Bool) (stamp added : Int) :
    ∃ x n, x = (if c.expire ≠ 0 then Unix (stamp + c.expire) else 0) ∧
      Inv (push c ⟨key, value, x, dirty⟩) ∧
      c.addItemAt key value dirty stamp added
        = some (keep (push c ⟨key, value, x, dirty⟩) n,
                evictEvents (push c ⟨key, value, x, dirty⟩) n) := by
  have hI := Inv_push h (⟨key, value, if c.expire ≠ 0 then Unix (stamp + c.expire) else 0,
    dirty⟩ : item V) hm
  exact ⟨_, _, rfl, hI, by rw [addItemAt_eq]; exact evictAct_eq hI added⟩

theorem evictKeep_of_all_expired {c : Cache V E} (h : Inv c) (he : c.expire ≠ 0) {now : Int}
    (hexp : ∀ it ∈ view c, it.expire ≤ Unix now) : evictKeep c now = 0 := by
  have h0 : ttlKeep c now = 0 := by
    unfold ttlKeep
    rw [if_pos he]
    have : c.evict.rdropWhile (expiredAt c (Unix now)) = [] := by
      rw [List.rdropWhile_eq_nil_iff]
      intro a ha
      obtain ⟨it, hd, hm⟩ := h.deref_of_mem_evict ha
      have := hexp it (h.view_mem hm hd)
      simp [expiredAt, hd, this]
    rw [this]; rfl
  unfold evictKeep
  rw [h0]
  split <;> simp

theorem keep_zero_items (c : Cache V E) : (keep c 0).items = [] := by
  simp [keep]

theorem keep_zero_evict (c : Cache V E) : (keep c 0).evict = [] := by
  simp [keep]

theorem mem_evict_keep {c : Cache V E} {n : Nat} {a : Nat} (h : a ∈ (keep c n).evict) :
    a ∈ c.evict :=
  List.mem_of_mem_take h

theorem mem_view_keep {c : Cache V E} (hI : Inv c) {n : Nat} {it : item V}
    (h : it ∈ view (keep c n)) : it ∈ view c := by
  rw [view_keep hI] at h
  exact List.mem_of_mem_take h

/-- After a push on the emptied store, every element and item is the new one. -/
theorem fresh_push {c : Cache V E} (hI : Inv c) (newdata : item V) :
    (∀ a ∈ (push (keep c 0) newdata).evict, a = c.heap.length) ∧
    (∀ it ∈ view (push (keep c 0) newdata), it = newdata) := by
  constructor
  · intro a ha
    simpa [push, list.PushFront, keep] using ha
  · intro it hit
    rw [view_push (Inv_keep hI 0)] at hit
    have : view (keep c 0) = [] := by simp [view, keep]
    rw [this] at hit
    simpa using hit

/-- The methods that run the eviction pass, when every stored item has expired at the
reading of the pass at entry: none of the elements stored before is left, and what is
stored was added by this call. -/
theorem stepAt_evicts {c : Cache V E} (hI : Inv c) {d t : Int} (hd : 0 < d)
    (he : c.expire = d) (htouch : ∀ it ∈ view c, ∃ s, s ≤ t ∧ it.expire = Unix (s + d))
    {clk : Clock} (hnow : t + d ≤ clk.entry) (op : Op V E) (hop : op.evicts = true) :
    ∃ c' evs, stepAt c op clk = some (c', evs) ∧ (∀ a ∈ c.evict, a ∉ c'.evict) ∧
      (∀ it ∈ view c', it.expire = Unix (clk.stamp + d)) ∧ c'.Len ≤ 1 := by
  have hne : c.expire ≠ 0 := by rw [he]; omega
  have hexp : ∀ it ∈ view c, it.expire ≤ Unix clk.entry := by
    intro it hit
    obtain ⟨s, hs, hx⟩ := htouch it hit
    rw [hx]
    exact Unix_mono (by omega)
  have hk0 := evictKeep_of_all_expired hI hne hexp
  have h1 := evictAct_eq hI clk.entry
  rw [hk0] at h1
  have hI0 := Inv_keep hI 0
  have hm0 : ∀ K, mapGet (keep c 0).items K = none := by
    intro K; rw [keep_zero_items]; rfl
  have hfreshaddr : ∀ a ∈ c.evict, a ≠ c.heap.length :=
    fun a ha e => absurd (hI.addr_lt ha) (by omega)
  have hlen : ∀ (c' : Cache V E), Inv c' → (∀ a ∈ c'.evict, a = c.heap.length) →
      c'.Len ≤ 1 := by
    intro c' hI' hall
    have hle : c'.evict.length ≤ 1 := by
      cases hev : c'.evict with
      | nil => simp
      | cons a l =>
        cases l with
        | nil => simp
        | cons b l =>
          have hnd := hI'.2.1
          rw [hev] at hnd hall
          have ha := hall a (by simp)
          have hb := hall b (by simp)
          rw [List.nodup_cons] at hnd
          exact absurd (by rw [ha, hb]; simp) hnd.1
    have := hI'.length_eq
    unfold Cache.Len
    omega
  have empty : ∀ (n : Nat), (∀ a ∈ c.evict, a ∉ (keep (keep c 0) n).evict) ∧
      (∀ it ∈ view (keep (keep c 0) n), it.expire = Unix (clk.stamp + d)) ∧
      (keep (keep c 0) n).Len ≤ 1 := by
    intro n
    have e1 : (keep (keep c 0) n).evict = [] := by simp [keep]
    have e2 : (keep (keep c 0) n).items = [] := by simp [keep]
    refine ⟨fun a _ => by rw [e1]; simp, fun it hit => ?_, by simp [Cache.Len, e2]⟩
    simp [view, e1] at hit
  have pushed : ∀ (K : String) (v : V) (dirty : Bool) (x : Int) (n2 n3 : Nat),
      Inv (push (keep c 0) ⟨K, v, x, dirty⟩) → x = Unix (clk.stamp + d) →
      (∀ a ∈ c.evict, a ∉ (keep (keep (push (keep c 0) ⟨K, v, x, dirty⟩) n2) n3).evict) ∧
      (∀ it ∈ view (keep (keep (push (keep c 0) ⟨K, v, x, dirty⟩) n2) n3),
        it.expire = Unix (clk.stamp + d)) ∧
      (keep (keep (push (keep c 0) ⟨K, v, x, dirty⟩) n2) n3).Len ≤ 1 := by
    intro K v dirty x n2 n3 hIp hx
    have hf := fresh_push hI (⟨K, v, x, dirty⟩ : item V)
    have hall : ∀ a ∈ (keep (keep (push (keep c 0) ⟨K, v, x, dirty⟩) n2) n3).evict,
        a = c.heap.length := fun a ha => hf.1 a (mem_evict_keep (mem_evict_keep ha))
    refine ⟨fun a ha hmem => hfreshaddr a ha (hall a hmem), ?_,
      hlen _ (Inv_keep (Inv_keep hIp n2) n3) hall⟩
    intro it hit
    have := hf.2 it (mem_view_keep hIp (mem_view_keep (Inv_keep hIp n2) hit))
    rw [this]; exact hx
  have hexpire0 : (keep c 0).expire = d := he
  cases op with
  | Set key value =>
    obtain ⟨x, n2, hx0, hIp, h2⟩ := addItemAt_ex2 hI0 (hm0 key) value true clk.stamp clk.added
    have hx : x = Unix (clk.stamp + d) := by
      rw [hx0, hexpire0, if_pos (by omega)]
    obtain ⟨n3, h3⟩ := evictAct_ex (Inv_keep hIp n2) clk.last
    exact ⟨_, _, SetAt_absent h1 (hm0 key) h2 h3, pushed key value true x n2 n3 hIp hx⟩
  | Get key =>
    cases hr : c.readFunc with
    | none =>
      obtain ⟨n3, h3⟩ := evictAct_ex hI0 clk.last
      have hget := GetAt_absent_none h1 (hm0 key) hr h3
      exact ⟨_, _, stepAt_Get hget, empty n3⟩
    | some fn =>
      cases hf : fn key with
      | error err =>
        obtain ⟨n3, h3⟩ := evictAct_ex hI0 clk.last
        have hget := GetAt_absent_error h1 (hm0 key) hr hf h3
        exact ⟨_, _, stepAt_Get hget, empty n3⟩
      | ok v =>
        obtain ⟨x, n2, hx0, hIp, h2⟩ := addItemAt_ex2 hI0 (hm0 key) v false clk.stamp clk.added
        have hx : x = Unix (clk.stamp + d) := by
          rw [hx0, hexpire0, if_pos (by omega)]
        obtain ⟨n3, h3⟩ := evictAct_ex (Inv_keep hIp n2) clk.last
        have hget := GetAt_absent_ok h1 (hm0 key) hr hf h2 h3
        exact ⟨_, _, stepAt_Get hget, pushed key v false x n2 n3 hIp hx⟩
  | Delete key =>
    obtain ⟨n3, h3⟩ := evictAct_ex hI0 clk.last
    exact ⟨_, _, DeleteAt_absent h1 (hm0 key) h3, empty n3⟩
  | EvictAct =>
    refine ⟨_, _, h1, fun a _ => by rw [keep_zero_evict]; simp, fun it hit => ?_,
      by simp [Cache.Len, keep_zero_items]⟩
    simp [view, keep_zero_evict] at hit
  | Remove key => cases hop
  | Purge => cases hop
  | Flush => cases hop
  | Sync => cases hop
  | SetWriteFunc fn => cases hop
  | SetReadFunc fn => cases hop
  | SetDeleteFunc fn => cases hop
  | SetExpireDuration expire => cases hop
  | SetWriteAlways => cases hop
  | SetWriteEvict => cases hop
  | Keys => cases hop
  | Len => cases hop
  | WriteWaiting => cases hop

/-- The method `Flush` and the method `Purge` leave the store empty. -/
theorem stepAt_empties {c : Cache V E} (hI : Inv c) (clk : Clock) (op : Op V E)
    (hop : op.empties = true) :
    ∃ c' evs, stepAt c op clk = some (c', evs) ∧ c'.Keys = [] ∧ c'.Len = 0 ∧ view c' = [] := by
  cases op with
  | Flush =>
    obtain ⟨c1, e1, hr, hitems, hevict, _, _⟩ := flush_spec hI (List.Perm.refl c.keys)
    exact ⟨c1, e1, hr, by simp [Cache.Keys, Cache.keys, hitems], by simp [Cache.Len, hitems],
      by simp [view, hevict]⟩
  | Purge => exact ⟨_, _, rfl, rfl, rfl, rfl⟩
  | Set key value => cases hop
  | Get key => cases hop
  | Delete key => cases hop
  | EvictAct => cases hop
  | Remove key => cases hop
  | Sync => cases hop
  | SetWriteFunc fn => cases hop
  | SetReadFunc fn => cases hop
  | SetDeleteFunc fn => cases hop
  | SetExpireDuration expire => cases hop
  | SetWriteAlways => cases hop
  | SetWriteEvict => cases hop
  | Keys => cases hop
  | Len => cases hop
  | WriteWaiting => cases hop

/-- The method `Remove` removes the item of its key and no other. -/
theorem stepAt_Remove {c : Cache V E} (hI : Inv c) (clk : Clock) (K : String) :
    ∃ c' evs, stepAt c (Op.Remove K) clk = some (c', evs) ∧
      c'.Keys = c.Keys.filter (fun k => decide (k ≠ K)) ∧
      view c' = (view c).filter (fun it => decide (it.key ≠ K)) := by
  cases hm : mapGet c.items K with
  | none =>
    have hnot : K ∉ c.Keys := mapGet_eq_none.1 hm
    refine ⟨c, [], remove_absent hm, ?_, ?_⟩
    · symm
      rw [List.filter_eq_self]
      intro k hk
      simp only [decide_eq_true_eq]
      intro e
      exact hnot (e ▸ hk)
    · symm
      rw [List.filter_eq_self]
      intro it hit
      simp only [decide_eq_true_eq]
      intro e
      obtain ⟨a, hma, _⟩ := hI.mem_view hit
      rw [e, hm] at hma
      cases hma
  | some a =>
    obtain ⟨it, hd, hk⟩ := hI.deref_of_mapGet hm
    have hr := remove_present_unlink hm hd
    rw [hk] at hr
    refine ⟨_, _, hr, ?_, view_unlink hI hm⟩
    simp only [Cache.Keys, Cache.keys, unlink, mapDelete, List.filter_map]
    rfl

/-- The methods that neither evict nor remove leave the map and the list as they are. -/
theorem stepAt_keeps {c : Cache V E} (hI : Inv c) (clk : Clock) (op : Op V E)
    (hop : op.keeps = true) :
    ∃ c' evs, stepAt c op clk = some (c', evs) ∧ c'.Keys = c.Keys ∧ c'.Len = c.Len ∧
      c'.evict = c.evict ∧ order c' = order c := by
  cases op with
  | Sync =>
    by_cases hw : c.writeFunc = false
    · refine ⟨c, [], ?_, rfl, rfl, rfl, rfl⟩
      simp only [stepAt, Cache.Sync, Cache.sync, if_pos hw]
    · obtain ⟨c1, e1, hr, _, _, hi, hev, hv, _⟩ := sync_spec hI (List.Perm.refl c.keys)
      refine ⟨c1, e1, ?_, by simp [Cache.Keys, Cache.keys, hi], by simp [Cache.Len, hi], hev, ?_⟩
      · simp only [stepAt, Cache.Sync, Cache.sync, if_neg hw]
        exact hr
      · unfold order
        rw [hv, List.map_map]
        rfl
  | SetWriteFunc fn => exact ⟨_, _, rfl, rfl, rfl, rfl, rfl⟩
  | SetReadFunc fn => exact ⟨_, _, rfl, rfl, rfl, rfl, rfl⟩
  | SetDeleteFunc fn => exact ⟨_, _, rfl, rfl, rfl, rfl, rfl⟩
  | SetExpireDuration expire => exact ⟨_, _, rfl, rfl, rfl, rfl, rfl⟩
  | SetWriteAlways => exact ⟨_, _, rfl, rfl, rfl, rfl, rfl⟩
  | SetWriteEvict => exact ⟨_, _, rfl, rfl, rfl, rfl, rfl⟩
  | Keys => exact ⟨_, _, rfl, rfl, rfl, rfl, rfl⟩
  | Len => exact ⟨_, _, rfl, rfl, rfl, rfl, rfl⟩
  | WriteWaiting => exact ⟨_, _, rfl, rfl, rfl, rfl, rfl⟩
  | Set key value => cases hop
  | Get key => cases hop
  | Delete key => cases hop
  | EvictAct => cases hop
  | Remove key => cases hop
  | Flush => cases hop
  | Purge => cases hop

/-- **C15, amended** (TTL expiry takes effect on the next operation that runs the eviction
pass). With a TTL `d > 0`, if every stored item was last touched at a time `s ≤ t` (its
deadline is `Unix(s + d)`), the next public operation, made at a time `≥ t + d`, returns and:
after `Set`, `Get`, `Delete` or `EvictAct` none of the elements stored before remains in
the list, and every item that is stored was touched by this call (its deadline is
`Unix(stamp + d)`); after `Flush` or `Purge` the store is empty; `Remove(K)` removes the
item of key `K` and no other; `Sync`, `Keys`, `Len`, `WriteWaiting` and the setters leave
the map and the list as they are, so the expired items are still stored and reported. -/
theorem C15_expiry_on_next_operation (c : Cache V E) (hI : Inv c) (d t : Int) (hd : 0 < d)
    (he : c.expire = d) (htouch : ∀ it ∈ view c, ∃ s, s ≤ t ∧ it.expire = Unix (s + d))
    (clk : Clock) (hnow : t + d ≤ clk.entry) (op : Op V E) :
    ∃ c' evs, stepAt c op clk = some (c', evs) ∧
      (op.evicts = true → (∀ a ∈ c.evict, a ∉ c'.evict) ∧
        (∀ it ∈ view c', it.expire = Unix (clk.stamp + d)) ∧ c'.Len ≤ 1) ∧
      (op.empties = true → c'.Keys = [] ∧ c'.Len = 0 ∧ view c' = []) ∧
      (∀ K, op = Op.Remove K →
        c'.Keys = c.Keys.filter (fun k => decide (k ≠ K)) ∧
        view c' = (view c).filter (fun it => decide (it.key ≠ K))) ∧
      (op.keeps = true →
        c'.Keys = c.Keys ∧ c'.Len = c.Len ∧ c'.evict = c.evict ∧ order c' = order c) := by
  have hev := fun h => stepAt_evicts hI hd he htouch hnow op h
  have hem := fun h => stepAt_empties hI clk op h
  have hke := fun h => stepAt_keeps hI clk op h
  cases op with
  | Remove key =>
    obtain ⟨c', evs, hs, p⟩ := stepAt_Remove hI clk key
    refine ⟨c', evs, hs, ?_, ?_, ?_, ?_⟩
    · intro h; cases h
    · intro h; cases h
    · intro K h; cases h; exact p
    · intro h; cases h
  | Set key value =>
    obtain ⟨c', evs, hs, p⟩ := hev rfl
    refine ⟨c', evs, hs, fun _ => p, ?_, ?_, ?_⟩
    · intro h; cases h
    · intro K h; cases h
    · intro h; cases h
  | Get key =>
    obtain ⟨c', evs, hs, p⟩ := hev rfl
    refine ⟨c', evs, hs, fun _ => p, ?_, ?_, ?_⟩
    · intro h; cases h
    · intro K h; cases h
    · intro h; cases h
  | Delete key =>
    obtain ⟨c', evs, hs, p⟩ := hev rfl
    refine ⟨c', evs, hs, fun _ => p, ?_, ?_, ?_⟩
    · intro h; cases h
    · intro K h; cases h
    · intro h; cases h
  | EvictAct =>
    obtain ⟨c', evs, hs, p⟩ := hev rfl
    refine ⟨c', evs, hs, fun _ => p, ?_, ?_, ?_⟩
    · intro h; cases h
    · intro K h; cases h
    · intro h; cases h
  | Flush =>
    obtain ⟨c', evs, hs, p⟩ := hem rfl
    refine ⟨c', evs, hs, ?_, fun _ => p, ?_, ?_⟩
    · intro h; cases h
    · intro K h; cases h
    · intro h; cases h
  | Purge =>
    obtain ⟨c', evs, hs, p⟩ := hem rfl
    refine ⟨c', evs, hs, ?_, fun _ => p, ?_, ?_⟩
    · intro h; cases h
    · intro K h; cases h
    · intro h; cases h
  | Sync =>
    obtain ⟨c', evs, hs, p⟩ := hke rfl
    refine ⟨c', evs, hs, ?_, ?_, ?_, fun _ => p⟩
    · intro h; cases h
    · intro h; cases h
    · intro K h; cases h
  | SetWriteFunc fn =>
    obtain ⟨c', evs, hs, p⟩ := hke rfl
    refine ⟨c', evs, hs, ?_, ?_, ?_, fun _ => p⟩
    · intro h; cases h
    · intro h; cases h
    · intro K h; cases h
  | SetReadFunc fn =>
    obtain ⟨c', evs, hs, p⟩ := hke rfl
    refine ⟨c', evs, hs, ?_, ?_, ?_, fun _ => p⟩
    · intro h; cases h
    · intro h; cases h
    · intro K h; cases h
  | SetDeleteFunc fn =>
    obtain ⟨c', evs, hs, p⟩ := hke rfl
    refine ⟨c', evs, hs, ?_, ?_, ?_, fun _ => p⟩
    · intro h; cases h
    · intro h; cases h
    · intro K h; cases h
  | SetExpireDuration expire =>
    obtain ⟨c', evs, hs, p⟩ := hke rfl
    refine ⟨c', evs, hs, ?_, ?_, ?_, fun _ => p⟩
    · intro h; cases h
    · intro h; cases h
    · intro K h; cases h
  | SetWriteAlways =>
    obtain ⟨c', evs, hs, p⟩ := hke rfl
    refine ⟨c', evs, hs, ?_, ?_, ?_, fun _ => p⟩
    · intro h; cases h
    · intro h; cases h
    · intro K h; cases h
  | SetWriteEvict =>
    obtain ⟨c', evs, hs, p⟩ := hke rfl
    refine ⟨c', evs, hs, ?_, ?_, ?_, fun _ => p⟩
    · intro h; cases h
    · intro h; cases h
    · intro K h; cases h
  | Keys =>
    obtain ⟨c', evs, hs, p⟩ := hke rfl
    refine ⟨c', evs, hs, ?_, ?_, ?_, fun _ => p⟩
    · intro h; cases h
    · intro h; cases h
    · intro K h; cases h
  | Len =>
    obtain ⟨c', evs, hs, p⟩ := hke rfl
    refine ⟨c', evs, hs, ?_, ?_, ?_, fun _ => p⟩
    · intro h; cases h
    · intro h; cases h
    · intro K h; cases h
  | WriteWaiting =>
    obtain ⟨c', evs, hs, p⟩ := hke rfl
    refine ⟨c', evs, hs, ?_, ?_, ?_, fun _ => p⟩
    · intro h; cases h
    · intro h; cases h
    · intro K h; cases h

/-- Witness of C15, amended: `Get("b")` on `expiringCache`, with the readings of the clock
between second 5 and second 6. -/
theorem C15_expiry_on_next_operation_witness :
    Inv expiringCache ∧ (0 : Int) < 1000000000 ∧ expiringCache.expire = 1000000000 ∧
    (∀ it ∈ view expiringCache, ∃ s, s ≤ (0 : Int) ∧ it.expire = Unix (s + 1000000000)) ∧
    (0 : Int) + 1000000000 ≤ (Clock.mk 5000000000 5200000000 5200000000 6000000000).entry ∧
    ∃ c' evs, stepAt expiringCache (Op.Get "b")
        (Clock.mk 5000000000 5200000000 5200000000 6000000000) = some (c', evs) ∧
      ((Op.Get "b" : Op Nat String).evicts = true → (∀ a ∈ expiringCache.evict, a ∉ c'.evict) ∧
        (∀ it ∈ view c', it.expire
          = Unix ((Clock.mk 5000000000 5200000000 5200000000 6000000000).stamp + 1000000000)) ∧
        c'.Len ≤ 1) ∧
      ((Op.Get "b" : Op Nat String).empties = true →
        c'.Keys = [] ∧ c'.Len = 0 ∧ view c' = []) ∧
      (∀ K, (Op.Get "b" : Op Nat String) = Op.Remove K →
        c'.Keys = expiringCache.Keys.filter (fun k => decide (k ≠ K)) ∧
        view c' = (view expiringCache).filter (fun it => decide (it.key ≠ K))) ∧
      ((Op.Get "b" : Op Nat String).keeps = true →
        c'.Keys = expiringCache.Keys ∧ c'.Len = expiringCache.Len ∧
        c'.evict = expiringCache.evict ∧ order c' = order expiringCache) :=
  ⟨by decide, by decide, rfl,
    fun it hit => ⟨0, le_refl 0, by
      simp [view, expiringCache, Cache.deref] at hit
      rw [hit]; rfl⟩,
    by decide,
    C15_expiry_on_next_operation expiringCache (by decide) 1000000000 0 (by decide) rfl
      (fun it hit => ⟨0, le_refl 0, by
        simp [view, expiringCache, Cache.deref] at hit
        rw [hit]; rfl⟩)
      (Clock.mk 5000000000 5200000000 5200000000 6000000000) (by decide) (Op.Get "b")⟩

end mcacheZero


namespace mcacheZero

variable {V E : Type}

/-! ## The lifetime of an item -/

theorem Unix_lt_of_second {t d : Int} (hd : 1000000000 ≤ d) : Unix t < Unix (t + d) := by
  unfold Unix
  omega

theorem Front_keep {c : Cache V E} (h : Inv c) {K : String} {it : item V} (hf : Front K it c)
    {n : Nat} (hn : 1 ≤ n) : Front K it (keep c n) := by
  obtain ⟨a, l, hev, hm, hd⟩ := hf
  have hmem : a ∈ c.evict.take n := by
    rw [hev, List.take_cons (by omega)]
    exact List.mem_cons_self _ _
  refine ⟨a, l.take (n - 1), ?_, ?_, hd⟩
  · show c.evict.take n = _
    rw [hev, List.take_cons (by omega)]
  · apply mapGet_of_mem (Inv_keep h n).1
    simp only [keep, List.mem_filter, decide_eq_true_eq]
    exact ⟨mapGet_mem hm, hmem⟩

theorem ttlKeep_pos {c : Cache V E} {K : String} {it : item V} (hf : Front K it c)
    {now : Int} (hlive : Unix now < it.expire) : 1 ≤ ttlKeep c now := by
  obtain ⟨a, l, hev, _, hd⟩ := hf
  unfold ttlKeep
  split
  · have hne : c.evict.rdropWhile (expiredAt c (Unix now)) ≠ [] := by
      intro h0
      rw [List.rdropWhile_eq_nil_iff] at h0
      have := h0 a (by rw [hev]; exact List.mem_cons_self _ _)
      simp only [expiredAt, hd, ge_iff_le, decide_eq_true_eq] at this
      omega
    exact List.length_pos.2 hne
  · rw [hev]; simp

theorem Front_evictAct {c : Cache V E} (h : Inv c) (hs : c.size = 0) {K : String}
    {it : item V} (hf : Front K it c) {now : Int} (hlive : Unix now < it.expire) :
    Front K it (keep c (evictKeep c now)) := by
  apply Front_keep h hf
  unfold evictKeep
  rw [if_neg (by simp [hs])]
  exact ttlKeep_pos hf hlive

theorem Front.mem_keys {c : Cache V E} {K : String} {it : item V} (hf : Front K it c) :
    K ∈ c.Keys := by
  obtain ⟨a, _, _, hm, _⟩ := hf
  exact mem_keys_of_mapGet hm

/-- With capacity 0 and a TTL `d`, `Set(K, v)` leaves the item at the front, with the
deadline `Unix(stamp + d)`, when the eviction passes that follow the stamp read a second
before the deadline. -/
theorem SetAt_front {c : Cache V E} (hI : Inv c) (hs : c.size = 0) {d : Int} (hd : d ≠ 0)
    (he : c.expire = d) (K : String) (v : V) {clk : Clock}
    (hadd : Unix clk.added < Unix (clk.stamp + d))
    (hlast : Unix clk.last < Unix (clk.stamp + d)) :
    ∃ c1 e1 it, c.SetAt K v clk = some (c1, e1) ∧ Inv c1 ∧ c1.size = 0 ∧ Front K it c1 ∧
      it.value = v ∧ it.expire = Unix (clk.stamp + d) := by
  have h1 := evictAct_eq hI clk.entry
  have hI1 := Inv_keep hI (evictKeep c clk.entry)
  have he1 : (keep c (evictKeep c clk.entry)).expire = d := he
  have hne1 : (keep c (evictKeep c clk.entry)).expire ≠ 0 := by rw [he1]; exact hd
  cases hm : mapGet (keep c (evictKeep c clk.entry)).items K with
  | some a =>
    obtain ⟨it, hdr, hk⟩ := hI1.deref_of_mapGet hm
    have hI2 := Inv_touch hI1 hm hdr
      (if (keep c (evictKeep c clk.entry)).expire ≠ 0 then
          { it with value := v, dirty := true,
                    expire := Unix (clk.stamp + (keep c (evictKeep c clk.entry)).expire) }
        else { it with value := v, dirty := true }) (by split <;> exact hk)
    have hset := SetAt_present h1 hm hdr (evictAct_eq hI2 clk.last)
    rw [if_pos hne1, he1] at hset hI2
    have hfront : Front K { it with value := v, dirty := true, expire := Unix (clk.stamp + d) }
        (touch (keep c (evictKeep c clk.entry)) a
          { it with value := v, dirty := true, expire := Unix (clk.stamp + d) }) := by
      have ha : a ∈ (keep c (evictKeep c clk.entry)).evict := hI1.mem_evict (mapGet_mem hm)
      refine ⟨a, (keep c (evictKeep c clk.entry)).evict.erase a, ?_, hm, ?_⟩
      · simp [touch, list.MoveToFront, ha]
      · rw [deref_touch _ hdr, if_pos rfl]
    exact ⟨_, _, _, hset, Inv_keep hI2 _, hs, Front_evictAct hI2 hs hfront hlast, rfl, rfl⟩
  | none =>
    have hIp := Inv_push hI1 (⟨K, v, if (keep c (evictKeep c clk.entry)).expire ≠ 0 then
        Unix (clk.stamp + (keep c (evictKeep c clk.entry)).expire) else 0, true⟩ : item V) hm
    have h2 := (addItemAt_eq (keep c (evictKeep c clk.entry)) K v true clk.stamp
      clk.added).trans (evictAct_eq hIp clk.added)
    have hI2 := Inv_keep hIp (evictKeep (push (keep c (evictKeep c clk.entry))
      (⟨K, v, if (keep c (evictKeep c clk.entry)).expire ≠ 0 then
        Unix (clk.stamp + (keep c (evictKeep c clk.entry)).expire) else 0, true⟩ : item V))
      clk.added)
    have hset := SetAt_absent h1 hm h2 (evictAct_eq hI2 clk.last)
    rw [if_pos hne1, he1] at hset hI2 hIp
    have hfront : Front K (⟨K, v, Unix (clk.stamp + d), true⟩ : item V)
        (push (keep c (evictKeep c clk.entry)) ⟨K, v, Unix (clk.stamp + d), true⟩) :=
      ⟨_, _, rfl, lookup_push_self _ _, deref_push_new _ _⟩
    have hfront2 := Front_evictAct hIp hs hfront hadd
    exact ⟨_, _, _, hset, Inv_keep hI2 _, hs, Front_evictAct hI2 hs hfront2 hlast, rfl, rfl⟩

theorem GetAt_front {c : Cache V E} (hI : Inv c) (hs : c.size = 0) {K : String} {it : item V}
    (hf : Front K it c) {clk : Clock} (hlive : Unix clk.entry < it.expire) :
    ∃ c2 e2, c.GetAt K clk = some (Except.ok it.value, c2, e2) := by
  have h1 := evictAct_eq hI clk.entry
  have hI1 := Inv_keep hI (evictKeep c clk.entry)
  obtain ⟨a, l, _, hm, hd⟩ := Front_evictAct hI hs hf hlive
  obtain ⟨it', hd', hk⟩ := hI1.deref_of_mapGet hm
  rw [hd] at hd'; cases hd'
  have hI2 := Inv_touch hI1 hm hd
    (if (keep c (evictKeep c clk.entry)).expire ≠ 0 then
      { it with expire := Unix (clk.stamp + (keep c (evictKeep c clk.entry)).expire) } else it)
    (by split <;> exact hk)
  exact ⟨_, _, GetAt_present h1 hm hd (evictAct_eq hI2 clk.last)⟩

/-- Counterexample of C16: with a TTL of one second, `Set("a", 1)` at 0.9 s gives the
deadline second 1, and `Get("a")` at 1.0 s, before 1.9 s, returns "Not found"; with a TTL
of half a second, `Set("a", 1)` at time 0 returns with `"a"` already evicted; and with a
TTL of one second, a `Set("a", 1)` that stamps the item just before second 1 and runs its
deferred eviction pass just after second 1 returns with `"a"` already evicted. -/
theorem C16_item_expires_early :
    ((New 0 : Cache Nat String).SetExpireDuration 1000000000).Set "a" 1 900000000
      = some (expiringCache, []) ∧
    expiringCache.Get "a" 1000000000
      = some (Except.error GetError.notFound, expiringCache.Purge, []) ∧
    (900000000 : Int) ≤ 1000000000 ∧ (1000000000 : Int) < 900000000 + 1000000000 ∧
    (((New 0 : Cache Nat String).SetExpireDuration 500000000).Set "a" 1 0).map
      (fun r => r.1.Keys) = some [] ∧
    (((New 0 : Cache Nat String).SetExpireDuration 1000000000).SetAt "a" 1
        ⟨999999900, 999999900, 999999900, 1000000100⟩).map
      (fun r => r.1.Keys) = some [] :=
  ⟨rfl, rfl, by decide, by decide, rfl, rfl⟩

/-- **C16, amended** (an item lives until the second of its deadline). With capacity 0 and
a TTL `d > 0`, `Set(K, v)` gives the item the deadline `Unix(stamp + d)`, in whole seconds,
where `stamp` is the reading of the clock for the deadline. When the eviction passes that
`Set` runs after the stamp read a second before the deadline, the item is stored when `Set`
returns, and `Get(K)` returns `v` whenever its eviction pass at entry reads a second before
the deadline, in particular a time `≤ stamp + d - 1s`. -/
theorem C16_item_lifetime (c : Cache V E) (hI : Inv c) (hs : c.size = 0) (d : Int)
    (hd : 0 < d) (he : c.expire = d) (K : String) (v : V) (clk : Clock)
    (hadd : Unix clk.added < Unix (clk.stamp + d))
    (hlast : Unix clk.last < Unix (clk.stamp + d)) :
    ∃ c1 e1 it, c.SetAt K v clk = some (c1, e1) ∧ Front K it c1 ∧ K ∈ c1.Keys ∧
      it.value = v ∧ it.expire = Unix (clk.stamp + d) ∧
      (∀ g : Clock, Unix g.entry < Unix (clk.stamp + d) →
        ∃ c2 e2, c1.GetAt K g = some (Except.ok v, c2, e2)) ∧
      (∀ g : Clock, g.entry + 1000000000 ≤ clk.stamp + d →
        ∃ c2 e2, c1.GetAt K g = some (Except.ok v, c2, e2)) := by
  obtain ⟨c1, e1, it, hset, hI1, hs1, hf, hv, hx⟩ :=
    SetAt_front hI hs (by omega : d ≠ 0) he K v hadd hlast
  have hget : ∀ g : Clock, Unix g.entry < Unix (clk.stamp + d) →
      ∃ c2 e2, c1.GetAt K g = some (Except.ok v, c2, e2) := by
    intro g hg
    have hlv : Unix g.entry < it.expire := by rw [hx]; exact hg
    have := GetAt_front hI1 hs1 hf hlv
    rw [hv] at this
    exact this
  refine ⟨c1, e1, it, hset, hf, hf.mem_keys, hv, hx, hget, ?_⟩
  intro g hg
  apply hget
  have h1 : Unix g.entry < Unix (g.entry + 1000000000) := Unix_lt_of_second (le_refl _)
  exact lt_of_lt_of_le h1 (Unix_mono hg)

/-- Witness of C16, amended: `Set("k", 5)` with a TTL of two seconds, stamped at 0.9 s and
returning at 1.2 s. -/
theorem C16_item_lifetime_witness :
    Inv ((New 0 : Cache Nat String).SetExpireDuration 2000000000) ∧
    ((New 0 : Cache Nat String).SetExpireDuration 2000000000).size = 0 ∧
    (0 : Int) < 2000000000 ∧
    ((New 0 : Cache Nat String).SetExpireDuration 2000000000).expire = 2000000000 ∧
    Unix (Clock.mk 800000000 900000000 1000000000 1200000000).added
      < Unix ((Clock.mk 800000000 900000000 1000000000 1200000000).stamp + 2000000000) ∧
    Unix (Clock.mk 800000000 900000000 1000000000 1200000000).last
      < Unix ((Clock.mk 800000000 900000000 1000000000 1200000000).stamp + 2000000000) ∧
    ∃ c1 e1 it, ((New 0 : Cache Nat String).SetExpireDuration 2000000000).SetAt "k" 5
        (Clock.mk 800000000 900000000 1000000000 1200000000) = some (c1, e1) ∧
      Front "k" it c1 ∧ "k" ∈ c1.Keys ∧ it.value = 5 ∧
      it.expire
        = Unix ((Clock.mk 800000000 900000000 1000000000 1200000000).stamp + 2000000000) ∧
      (∀ g : Clock, Unix g.entry
          < Unix ((Clock.mk 800000000 900000000 1000000000 1200000000).stamp + 2000000000) →
        ∃ c2 e2, c1.GetAt "k" g = some (Except.ok 5, c2, e2)) ∧
      (∀ g : Clock, g.entry + 1000000000
          ≤ (Clock.mk 800000000 900000000 1000000000 1200000000).stamp + 2000000000 →
        ∃ c2 e2, c1.GetAt "k" g = some (Except.ok 5, c2, e2)) :=
  ⟨by decide, rfl, by decide, rfl, by decide, by decide,
    C16_item_lifetime ((New 0 : Cache Nat String).SetExpireDuration 2000000000) (by decide) rfl
      2000000000 (by decide) rfl "k" 5 (Clock.mk 800000000 900000000 1000000000 1200000000)
      (by decide) (by decide)⟩

/-! ## Recency order and expiry order -/

/-- C18 at its failing input: after `SetExpireDuration(100s)`, `Set("b", 2)`,
`SetExpireDuration(1s)`, `Set("a", 1)`, all at time 0, and `EvictAct` at second 5, the list
holds `"a"` (deadline second 1) in front of `"b"` (deadline second 100): the expired item
`"a"` is still stored, and `Get("a")` at second 5 returns its value. -/
theorem C18_expired_item_in_front :
    (run (New 0 : Cache Nat String)
        [(Op.SetExpireDuration 100000000000, 0), (Op.Set "b" 2, 0),
          (Op.SetExpireDuration 1000000000, 0), (Op.Set "a" 1, 0),
          (Op.EvictAct, 5000000000)]).map
      (fun r => (view r.1).map (fun it => (it.key, it.expire))) = some [("a", 1), ("b", 100)] ∧
    Unix 5000000000 = 5 ∧
    ((run (New 0 : Cache Nat String)
        [(Op.SetExpireDuration 100000000000, 0), (Op.Set "b" 2, 0),
          (Op.SetExpireDuration 1000000000, 0), (Op.Set "a" 1, 0),
          (Op.EvictAct, 5000000000)]).bind
      (fun r => r.1.Get "a" 5000000000)).map Prod.fst = some (Except.ok 1) :=
  ⟨rfl, rfl, rfl⟩

end mcacheZero
